import Mathlib

/-!
# Associative arrays of `logic.h` (PTLsim)

A shallow embedding of the tag tables of `ptlsim/logic.h` and the properties
proved about them.

Conventions of the embedding.

* A C++ object is a Lean structure; a member function that mutates its object
  takes the object and returns the new one together with its result.
* A reference parameter (`T& oldtag`, `bool& firstlock`) is passed in and
  returned: the function gets the value the caller's variable holds and returns
  the value it holds afterwards.
* `int` results are `Int`.  An array `T tags[ways]` is a function on `Fin ways`;
  every indexing with an `int` goes through `index?`, and an index outside the
  array (undefined behaviour in C++) makes the whole operation return `none`.
* A value of the tag type `T` is represented by its numeric value.  The tables
  only store and compare tags, so no arithmetic on tags can wrap around.
-/

namespace PTLsim

/-! ## Tag types and their sentinel -/

/-- The unsigned integer types for which `InvalidTag<T>` is specialised. -/
inductive TagType where
  | W8
  | W16
  | W32
  | W64
deriving DecidableEq, Repr

/-- The constants `InvalidTag<T>::INVALID` (logic.h, lines 309 to 313). -/
def InvalidTag.INVALID : TagType → Nat
  | .W64 => 0xffffffffffffffff
  | .W32 => 0xffffffff
  | .W16 => 0xffff
  | .W8 => 0xff

/-! ## Bit vectors -/

/-- Modelled from the spec: `bitvec<N>` is declared in `superstl.h`, which is
not among the sources.  It is a bitmap of `N` bits (the spec's eviction bitmap
and lock bitmap), here one `Bool` per bit position. -/
abbrev bitvec (N : Nat) := Fin N → Bool

namespace bitvec

variable {N : Nat}

/-- Modelled from the spec: the bitmap assigned from the integer `0`
(`evictmap = 0`), every bit clear. -/
def zero : bitvec N := fun _ => false

/-- Modelled from the spec: `setall()`, every bit set. -/
def setall : bitvec N := fun _ => true

/-- Modelled from the spec: `allset()`, whether every bit is set. -/
def allset (b : bitvec N) : Bool := decide (∀ i, b i = true)

/-- Modelled from the spec: `operator *`, whether some bit is set. -/
def nonzero (b : bitvec N) : Bool := decide (∃ i, b i = true)

/-- Modelled from the spec: `operator !`, whether no bit is set. -/
def iszero (b : bitvec N) : Bool := !b.nonzero

/-- Modelled from the spec: `operator ~`, the complement within the `N` bits. -/
def not (b : bitvec N) : bitvec N := fun i => !b i

/-- Modelled from the spec: `operator &`. -/
def and (a b : bitvec N) : bitvec N := fun i => a i && b i

/-- Modelled from the spec: `lsb()`, the index of the lowest set bit.  The
source calls it only on a bitmap with a set bit; on the zero bitmap this model
answers `N`. -/
def lsb (b : bitvec N) : Int :=
  match Fin.find (fun i => b i = true) with
  | some i => (i.val : Int)
  | none => (N : Int)

/-- Modelled from the spec: the assignment `b[i] = v` to one bit. -/
def set (b : bitvec N) (i : Fin N) (v : Bool) : bitvec N := Function.update b i v

end bitvec

/-- Conversion of an `int` index into a position of an array of `n` elements;
`none` when the index lies outside the array. -/
def index? (n : Nat) (i : Int) : Option (Fin n) :=
  if h : 0 ≤ i ∧ i < (n : Int) then some ⟨i.toNat, by omega⟩ else none

/-! ## FullyAssociativeTags -/

/-- The struct `FullyAssociativeTags<T, ways>`: the MRU bitmap `evictmap` and
the array `tags`. -/
structure FullyAssociativeTags (T : TagType) (ways : Nat) where
  evictmap : bitvec ways
  tags : Fin ways → Nat

namespace FullyAssociativeTags

variable {T : TagType} {ways : Nat}

/-- The member `INVALID = InvalidTag<T>::INVALID`. -/
def INVALID (T : TagType) : Nat := InvalidTag.INVALID T

/-- The method `reset()`. -/
def reset : FullyAssociativeTags T ways :=
  { evictmap := bitvec.zero, tags := fun _ => INVALID T }

/-- The method `use(way)`: `evictmap[way] = 1`. -/
def use (s : FullyAssociativeTags T ways) (way : Int) :
    Option (FullyAssociativeTags T ways) :=
  match index? ways way with
  | some i => some { s with evictmap := s.evictmap.set i true }
  | none => none

/-- The method `match(target)`: the loop adds `i + 1` for every way `i` whose
tag equals `target`, and the result is the sum minus one.  The sum is at most
`ways * (ways + 1) / 2`, which an `int` holds for fewer than 65536 ways. -/
def match_ (s : FullyAssociativeTags T ways) (target : Nat) : Int :=
  (List.finRange ways).foldl
    (fun way i => way + (if s.tags i = target then (i.val : Int) + 1 else 0)) 0 - 1

/-- The method `probe(target)`. -/
def probe (s : FullyAssociativeTags T ways) (target : Nat) :
    Option (FullyAssociativeTags T ways × Int) :=
  let way := s.match_ target
  if way < 0 then some (s, -1)
  else
    match s.use way with
    | some s1 => some (s1, way)
    | none => none

/-- The method `lru()`. -/
def lru (s : FullyAssociativeTags T ways) : Int :=
  if s.evictmap.allset then 0 else s.evictmap.not.lsb

/-- The method `select(target, oldtag)`; the last component of the result is
the value of `oldtag` after the call. -/
def select (s : FullyAssociativeTags T ways) (target : Nat) (oldtag : Nat) :
    Option (FullyAssociativeTags T ways × Int × Nat) :=
  match s.probe target with
  | none => none
  | some (s1, way) =>
    if way < 0 then
      let way := s1.lru
      let s2 := if s1.evictmap.allset then { s1 with evictmap := bitvec.zero } else s1
      match index? ways way with
      | none => none
      | some i =>
        let oldtag := s2.tags i
        let s3 := { s2 with tags := Function.update s2.tags i target }
        match s3.use way with
        | some s4 => some (s4, way, oldtag)
        | none => none
    else
      match s1.use way with
      | some s2 => some (s2, way, oldtag)
      | none => none

/-- The method `invalidate_way(way)`. -/
def invalidate_way (s : FullyAssociativeTags T ways) (way : Int) :
    Option (FullyAssociativeTags T ways) :=
  match index? ways way with
  | some i =>
    some { evictmap := s.evictmap.set i false, tags := Function.update s.tags i (INVALID T) }
  | none => none

/-- The method `invalidate(target)`. -/
def invalidate (s : FullyAssociativeTags T ways) (target : Nat) :
    Option (FullyAssociativeTags T ways × Int) :=
  match s.probe target with
  | none => none
  | some (s1, way) =>
    if way < 0 then some (s1, -1)
    else
      match s1.invalidate_way way with
      | some s2 => some (s2, way)
      | none => none

end FullyAssociativeTags

/-! ## LockableFullyAssociativeTags -/

/-- The struct `LockableFullyAssociativeTags<T, ways>`: the MRU bitmap
`evictmap`, the bitmap `unlockedmap` (bit set: the way is unlocked) and the
array `tags`. -/
structure LockableFullyAssociativeTags (T : TagType) (ways : Nat) where
  evictmap : bitvec ways
  unlockedmap : bitvec ways
  tags : Fin ways → Nat

namespace LockableFullyAssociativeTags

variable {T : TagType} {ways : Nat}

/-- The member `INVALID = InvalidTag<T>::INVALID`. -/
def INVALID (T : TagType) : Nat := InvalidTag.INVALID T

/-- The method `reset()`. -/
def reset : LockableFullyAssociativeTags T ways :=
  { evictmap := bitvec.zero, unlockedmap := bitvec.setall, tags := fun _ => INVALID T }

/-- The method `use(way)`: `evictmap[way] = 1`. -/
def use (s : LockableFullyAssociativeTags T ways) (way : Int) :
    Option (LockableFullyAssociativeTags T ways) :=
  match index? ways way with
  | some i => some { s with evictmap := s.evictmap.set i true }
  | none => none

/-- The method `match(target)`: the loop adds `i + 1` for every way `i` whose
tag equals `target`, and the result is the sum minus one. -/
def match_ (s : LockableFullyAssociativeTags T ways) (target : Nat) : Int :=
  (List.finRange ways).foldl
    (fun way i => way + (if s.tags i = target then (i.val : Int) + 1 else 0)) 0 - 1

/-- The method `probe(target)`. -/
def probe (s : LockableFullyAssociativeTags T ways) (target : Nat) :
    Option (LockableFullyAssociativeTags T ways × Int) :=
  let way := s.match_ target
  if way < 0 then some (s, -1)
  else
    match s.use way with
    | some s1 => some (s1, way)
    | none => none

/-- The method `lru()`. -/
def lru (s : LockableFullyAssociativeTags T ways) : Int :=
  if s.unlockedmap.iszero then -1
  else
    let w := s.evictmap.not.and s.unlockedmap
    if w.nonzero then w.lsb else 0

/-- The method `select(target, oldtag)`; the last component of the result is
the value of `oldtag` after the call. -/
def select (s : LockableFullyAssociativeTags T ways) (target : Nat) (oldtag : Nat) :
    Option (LockableFullyAssociativeTags T ways × Int × Nat) :=
  match s.probe target with
  | none => none
  | some (s1, way) =>
    if way < 0 then
      let way := s1.lru
      if way < 0 then some (s1, -1, oldtag)
      else
        let s2 := if s1.evictmap.allset then { s1 with evictmap := bitvec.zero } else s1
        match index? ways way with
        | none => none
        | some i =>
          let oldtag := s2.tags i
          let s3 := { s2 with tags := Function.update s2.tags i target }
          match s3.use way with
          | some s4 => some (s4, way, oldtag)
          | none => none
    else
      match s1.use way with
      | some s2 => some (s2, way, oldtag)
      | none => none

/-- The method `lock(way)`: `unlockedmap[way] = 0`. -/
def lock (s : LockableFullyAssociativeTags T ways) (way : Int) :
    Option (LockableFullyAssociativeTags T ways) :=
  match index? ways way with
  | some i => some { s with unlockedmap := s.unlockedmap.set i false }
  | none => none

/-- The method `unlock(way)`: `unlockedmap[way] = 1`. -/
def unlock (s : LockableFullyAssociativeTags T ways) (way : Int) :
    Option (LockableFullyAssociativeTags T ways) :=
  match index? ways way with
  | some i => some { s with unlockedmap := s.unlockedmap.set i true }
  | none => none

/-- The method `select_and_lock(tag, firstlock, oldtag)`; the result holds the
returned way and the values of `firstlock` and `oldtag` after the call. -/
def select_and_lock (s : LockableFullyAssociativeTags T ways) (tag : Nat)
    (firstlock : Bool) (oldtag : Nat) :
    Option (LockableFullyAssociativeTags T ways × Int × Bool × Nat) :=
  match s.select tag oldtag with
  | none => none
  | some (s1, way, oldtag1) =>
    if way < 0 then some (s1, way, firstlock, oldtag1)
    else
      match index? ways way with
      | none => none
      | some i =>
        let firstlock1 := s1.unlockedmap i
        match s1.lock way with
        | some s2 => some (s2, way, firstlock1, oldtag1)
        | none => none

/-- The method `invalidate_way(way)`. -/
def invalidate_way (s : LockableFullyAssociativeTags T ways) (way : Int) :
    Option (LockableFullyAssociativeTags T ways) :=
  match index? ways way with
  | some i =>
    some { evictmap := s.evictmap.set i false
           unlockedmap := s.unlockedmap.set i true
           tags := Function.update s.tags i (INVALID T) }
  | none => none

/-- The method `invalidate(target)`.  On a hit the source runs
`invalidate_way(way)` and then reaches the end of the function without a
`return` statement: the returned `int` is then `none` here (no value). -/
def invalidate (s : LockableFullyAssociativeTags T ways) (target : Nat) :
    Option (LockableFullyAssociativeTags T ways × Option Int) :=
  match s.probe target with
  | none => none
  | some (s1, way) =>
    if way < 0 then some (s1, some (-1))
    else
      match s1.invalidate_way way with
      | some s2 => some (s2, none)
      | none => none

end LockableFullyAssociativeTags

/-! ## LockableFullyAssociativeArray -/

/-- The payload type `V` of the arrays; the source calls its method `reset()`
on a line. -/
class LineData (V : Type) where
  reset : V → V

/-- The struct `LockableFullyAssociativeArray<T, V, ways>`: the tag table and
the array `data` of payload lines.  A pointer `V*` into `data` is an
`Option Int`: `none` is the null pointer and `some way` is `&data[way]`. -/
structure LockableFullyAssociativeArray (T : TagType) (V : Type) (ways : Nat) where
  tags : LockableFullyAssociativeTags T ways
  data : Fin ways → V

namespace LockableFullyAssociativeArray

variable {T : TagType} {V : Type} {ways : Nat}

/-- The method `reset()`.  It runs `data[i].reset()` on each line, so it
depends on the lines the object holds before the call. -/
def reset [LineData V] (s : LockableFullyAssociativeArray T V ways) :
    LockableFullyAssociativeArray T V ways :=
  { tags := LockableFullyAssociativeTags.reset, data := fun i => LineData.reset (s.data i) }

/-- The method `probe(tag)`. -/
def probe (s : LockableFullyAssociativeArray T V ways) (tag : Nat) :
    Option (LockableFullyAssociativeArray T V ways × Option Int) :=
  match s.tags.probe tag with
  | none => none
  | some (t1, way) => some ({ s with tags := t1 }, if way < 0 then none else some way)

/-- The method `select(tag, oldtag)`. -/
def select (s : LockableFullyAssociativeArray T V ways) (tag : Nat) (oldtag : Nat) :
    Option (LockableFullyAssociativeArray T V ways × Option Int × Nat) :=
  match s.tags.select tag oldtag with
  | none => none
  | some (t1, way, oldtag1) =>
    some ({ s with tags := t1 }, if way < 0 then none else some way, oldtag1)

/-- The method `select_and_lock(tag, firstlock, oldtag)`. -/
def select_and_lock (s : LockableFullyAssociativeArray T V ways) (tag : Nat)
    (firstlock : Bool) (oldtag : Nat) :
    Option (LockableFullyAssociativeArray T V ways × Option Int × Bool × Nat) :=
  match s.tags.select_and_lock tag firstlock oldtag with
  | none => none
  | some (t1, way, firstlock1, oldtag1) =>
    some ({ s with tags := t1 }, if way < 0 then none else some way, firstlock1, oldtag1)

/-- The overload `select_and_lock(tag, firstlock)`: the three-argument method
called on a local `dummy`, which is only written; `dummy` holds `0` here. -/
def select_and_lock2 (s : LockableFullyAssociativeArray T V ways) (tag : Nat)
    (firstlock : Bool) :
    Option (LockableFullyAssociativeArray T V ways × Option Int × Bool) :=
  match s.select_and_lock tag firstlock 0 with
  | none => none
  | some (s1, line, firstlock1, _) => some (s1, line, firstlock1)

/-- The method `invalidate(tag)`; the result of `tags.invalidate` is dropped. -/
def invalidate (s : LockableFullyAssociativeArray T V ways) (tag : Nat) :
    Option (LockableFullyAssociativeArray T V ways) :=
  match s.tags.invalidate tag with
  | none => none
  | some (t1, _) => some { s with tags := t1 }

/-- The method `wayof(line)`: the offset of the line within `data`.  It is
called on non-null lines only; for the null pointer this model answers `-1`. -/
def wayof (line : Option Int) : Int :=
  match line with
  | some way => way
  | none => -1

/-- The method `invalidate_line(line)`. -/
def invalidate_line [LineData V] (s : LockableFullyAssociativeArray T V ways)
    (line : Option Int) : Option (LockableFullyAssociativeArray T V ways) :=
  let way := wayof line
  match s.tags.invalidate_way way with
  | none => none
  | some t1 =>
    match index? ways way with
    | none => none
    | some i => some { tags := t1, data := Function.update s.data i (LineData.reset (s.data i)) }

/-- The method `unlock_line(line)`. -/
def unlock_line (s : LockableFullyAssociativeArray T V ways) (line : Option Int) :
    Option (LockableFullyAssociativeArray T V ways) :=
  let way := wayof line
  match s.tags.unlock way with
  | none => none
  | some t1 => some { s with tags := t1 }

/-- The `operator [](way)`, as the address of the line `data[way]`. -/
def lineAt (way : Int) : Option Int := some way

end LockableFullyAssociativeArray

/-! ## Address decomposition -/

/-- The halving loop behind `log2`: the number of times `n` can be halved
before it drops below 2, with `fuel` bounding the number of steps. -/
def log2Loop : Nat → Nat → Nat
  | 0, _ => 0
  | fuel + 1, n => if 2 ≤ n then log2Loop fuel (n / 2) + 1 else 0

/-- Modelled from the spec: `log2` of `globals.h` (not among the sources), the
position of the highest set bit, so that a power of two `2^k` gives `k`.  The
loop halves `n` fewer than `n` times, so the fuel `n` never runs out. -/
def log2 (n : Nat) : Nat := log2Loop n n

/-- Modelled from the spec: `bits(x, i, l)` of `globals.h` (not among the
sources), the `l` bits of `x` from bit `i` upwards. -/
def bits (x i l : Nat) : Nat := (x / 2 ^ i) % 2 ^ l

/-- Modelled from the spec: `floor(x, a)` of `globals.h` (not among the
sources), `x` with the bits of the mask `a - 1` cleared (the line-offset bits,
`a` being a power of two). -/
def floor (x a : Nat) : Nat := x - (x &&& (a - 1))

/-! ## LockableAssociativeArray -/

/-- The struct `LockableAssociativeArray<T, V, setcount, waycount, linesize>`.
The field `clearlist` holds the entries of the C array `clearlist` from its
start up to `cleartail`, oldest first, each a pair `(set, way)` of `W16`
values.  The C array has room for `setcount * waycount` entries: a write of a
further entry goes past the end of the array, and like every access outside an
array it makes the operation return `none`. -/
structure LockableAssociativeArray (T : TagType) (V : Type)
    (setcount waycount linesize : Nat) where
  sets : Fin setcount → LockableFullyAssociativeArray T V waycount
  clearlist : List (Nat × Nat)

namespace LockableAssociativeArray

variable {T : TagType} {V : Type} {setcount waycount linesize : Nat}

/-- The method `reset()`. -/
def reset [LineData V] (s : LockableAssociativeArray T V setcount waycount linesize) :
    LockableAssociativeArray T V setcount waycount linesize :=
  { sets := fun i => (s.sets i).reset, clearlist := [] }

/-- The static method `setof(addr)`. -/
def setof (setcount linesize : Nat) (addr : Nat) : Int :=
  (bits addr (log2 linesize) (log2 setcount) : Nat)

/-- The static method `tagof(addr)`. -/
def tagof (linesize : Nat) (addr : Nat) : Nat := floor addr linesize

/-- The method `probe(addr)`. -/
def probe (s : LockableAssociativeArray T V setcount waycount linesize) (addr : Nat) :
    Option (LockableAssociativeArray T V setcount waycount linesize × Option Int) :=
  match index? setcount (setof setcount linesize addr) with
  | none => none
  | some si =>
    match (s.sets si).probe (tagof linesize addr) with
    | none => none
    | some (set1, line) => some ({ s with sets := Function.update s.sets si set1 }, line)

/-- The method `select(addr, oldaddr)`. -/
def select (s : LockableAssociativeArray T V setcount waycount linesize) (addr : Nat)
    (oldaddr : Nat) :
    Option (LockableAssociativeArray T V setcount waycount linesize × Option Int × Nat) :=
  match index? setcount (setof setcount linesize addr) with
  | none => none
  | some si =>
    match (s.sets si).select (tagof linesize addr) oldaddr with
    | none => none
    | some (set1, line, oldaddr1) =>
      some ({ s with sets := Function.update s.sets si set1 }, line, oldaddr1)

/-- The method `invalidate(addr)`. -/
def invalidate (s : LockableAssociativeArray T V setcount waycount linesize) (addr : Nat) :
    Option (LockableAssociativeArray T V setcount waycount linesize) :=
  match index? setcount (setof setcount linesize addr) with
  | none => none
  | some si =>
    match (s.sets si).invalidate (tagof linesize addr) with
    | none => none
    | some set1 => some { s with sets := Function.update s.sets si set1 }

/-- The conversion of an `int` to the type `W16` of the fields of `ClearList`. -/
def toW16 (i : Int) : Nat := (i % 65536).toNat

/-- The method `select_and_lock(addr, firstlock)`.  The source writes the
entry to `*cleartail` without any check: with `setcount * waycount` entries in
the clear-list that write is past the end of `clearlist`, and the result is
`none`. -/
def select_and_lock (s : LockableAssociativeArray T V setcount waycount linesize)
    (addr : Nat) (firstlock : Bool) :
    Option (LockableAssociativeArray T V setcount waycount linesize × Option Int × Bool) :=
  match index? setcount (setof setcount linesize addr) with
  | none => none
  | some si =>
    match (s.sets si).select_and_lock2 (tagof linesize addr) firstlock with
    | none => none
    | some (set1, line, firstlock1) =>
      let s1 := { s with sets := Function.update s.sets si set1 }
      match line with
      | none => some (s1, none, firstlock1)
      | some _ =>
        if firstlock1 then
          let set := setof setcount linesize addr
          let way := LockableFullyAssociativeArray.wayof line
          if s1.clearlist.length < setcount * waycount then
            some ({ s1 with clearlist := s1.clearlist ++ [(toW16 set, toW16 way)] }, line,
              firstlock1)
          else none
        else some (s1, line, firstlock1)

/-- The loop of `unlock_all_and_invalidate()` over the entries from `p` up to
`cleartail`. -/
def unlock_all_and_invalidate_loop [LineData V]
    (sets : Fin setcount → LockableFullyAssociativeArray T V waycount) :
    List (Nat × Nat) → Option (Fin setcount → LockableFullyAssociativeArray T V waycount)
  | [] => some sets
  | p :: rest =>
    match index? setcount (p.1 : Int) with
    | none => none
    | some si =>
      let line := LockableFullyAssociativeArray.lineAt (p.2 : Int)
      match (sets si).invalidate_line line with
      | none => none
      | some set1 => unlock_all_and_invalidate_loop (Function.update sets si set1) rest

/-- The method `unlock_all_and_invalidate()`. -/
def unlock_all_and_invalidate [LineData V]
    (s : LockableAssociativeArray T V setcount waycount linesize) :
    Option (LockableAssociativeArray T V setcount waycount linesize) :=
  match unlock_all_and_invalidate_loop s.sets s.clearlist with
  | none => none
  | some sets1 => some { sets := sets1, clearlist := [] }

/-- The loop of `unlock_all()` over the entries from `p` up to `cleartail`. -/
def unlock_all_loop (sets : Fin setcount → LockableFullyAssociativeArray T V waycount) :
    List (Nat × Nat) → Option (Fin setcount → LockableFullyAssociativeArray T V waycount)
  | [] => some sets
  | p :: rest =>
    match index? setcount (p.1 : Int) with
    | none => none
    | some si =>
      let line := LockableFullyAssociativeArray.lineAt (p.2 : Int)
      match (sets si).unlock_line line with
      | none => none
      | some set1 => unlock_all_loop (Function.update sets si set1) rest

/-- The method `unlock_all()`. -/
def unlock_all (s : LockableAssociativeArray T V setcount waycount linesize) :
    Option (LockableAssociativeArray T V setcount waycount linesize) :=
  match unlock_all_loop s.sets s.clearlist with
  | none => none
  | some sets1 => some { sets := sets1, clearlist := [] }

end LockableAssociativeArray

/-! ## CommitRollbackCache -/

/-- Modelled from the spec: the backing memory the cache reads and writes
through `(W64*)addr` ("reads and writes raw memory at a line's address", an
external collaborator).  It maps the byte address of a `W64` word to the word
stored there; the word `linedata[i]` of the line at `addr` is the word at
`addr + 8 * i`. -/
abbrev Memory := Nat → Nat

/-- The struct `BackupCacheLine`: the address of a line and its
`linesize / sizeof(W64)` words. -/
structure BackupCacheLine (linesize : Nat) where
  addr : Nat
  data : Fin (linesize / 8) → Nat

/-- The words `linedata[0]` up to `linedata[n - 1]` of the line at `addr`. -/
def loadLine (memory : Memory) (addr n : Nat) : Fin n → Nat :=
  fun i => memory (addr + 8 * i.val)

/-- The loop `foreach (i, n) linedata[i] = data[i]` on the line at `addr`. -/
def storeLine (memory : Memory) (addr : Nat) {n : Nat} (data : Fin n → Nat) : Memory :=
  (List.finRange n).foldl (fun m i => Function.update m (addr + 8 * i.val) (data i)) memory

/-- The struct `CommitRollbackCache<T, V, setcount, waycount, linesize,
maxdirty>`, derived from `LockableAssociativeArray`.  The field `stores` holds
the entries of the C array `stores` from its start up to `storetail`, oldest
first; the C array has room for `maxdirty` entries: a write of a further entry
goes past the end of the array, and like every access outside an array it
makes the operation return `none`.  Two fields stand for the surroundings of
the cache:
`memory` is the backing memory, and `upcalls` lists the arguments of the calls
of the hook `invalidate_upwards` made so far, oldest first. -/
structure CommitRollbackCache (T : TagType) (V : Type)
    (setcount waycount linesize maxdirty : Nat)
    extends LockableAssociativeArray T V setcount waycount linesize where
  stores : List (BackupCacheLine linesize)
  memory : Memory
  upcalls : List Nat

namespace CommitRollbackCache

variable {T : TagType} {V : Type} {setcount waycount linesize maxdirty : Nat}

/-- The method `reset()`. -/
def reset [LineData V] (c : CommitRollbackCache T V setcount waycount linesize maxdirty) :
    CommitRollbackCache T V setcount waycount linesize maxdirty :=
  { c with toLockableAssociativeArray := c.toLockableAssociativeArray.reset, stores := [] }

/-- The hook `invalidate_upwards(addr)`, declared in the source and defined
outside it: the call is recorded. -/
def invalidate_upwards (c : CommitRollbackCache T V setcount waycount linesize maxdirty)
    (addr : Nat) : CommitRollbackCache T V setcount waycount linesize maxdirty :=
  { c with upcalls := c.upcalls ++ [addr] }

/-- The inherited method `probe(addr)`. -/
def probe (c : CommitRollbackCache T V setcount waycount linesize maxdirty) (addr : Nat) :
    Option (CommitRollbackCache T V setcount waycount linesize maxdirty × Option Int) :=
  match c.toLockableAssociativeArray.probe addr with
  | none => none
  | some (a1, line) => some ({ c with toLockableAssociativeArray := a1 }, line)

/-- The inherited method `select(addr, oldaddr)`. -/
def select (c : CommitRollbackCache T V setcount waycount linesize maxdirty)
    (addr oldaddr : Nat) :
    Option (CommitRollbackCache T V setcount waycount linesize maxdirty × Option Int × Nat) :=
  match c.toLockableAssociativeArray.select addr oldaddr with
  | none => none
  | some (a1, line, oldaddr1) => some ({ c with toLockableAssociativeArray := a1 }, line, oldaddr1)

/-- The method `invalidate(addr)`. -/
def invalidate (c : CommitRollbackCache T V setcount waycount linesize maxdirty) (addr : Nat) :
    Option (CommitRollbackCache T V setcount waycount linesize maxdirty) :=
  match c.toLockableAssociativeArray.invalidate addr with
  | none => none
  | some a1 => some (invalidate_upwards { c with toLockableAssociativeArray := a1 } addr)

/-- The method `select_and_lock(addr)`.  The local `firstlock` is passed
uninitialised and is written whenever the returned line is not null; it holds
`false` here before the call.  The source writes the backup to `*storetail`
without any check: with `maxdirty` entries in the buffer that write is past the
end of `stores`, and the result is `none`. -/
def select_and_lock (c : CommitRollbackCache T V setcount waycount linesize maxdirty)
    (addr : Nat) :
    Option (CommitRollbackCache T V setcount waycount linesize maxdirty × Option Int) :=
  let addr := floor addr linesize
  match c.toLockableAssociativeArray.select_and_lock addr false with
  | none => none
  | some (a1, line, firstlock) =>
    let c1 := { c with toLockableAssociativeArray := a1 }
    match line with
    | none => some (c1, none)
    | some _ =>
      if firstlock then
        if c1.stores.length < maxdirty then
          some ({ c1 with stores := c1.stores ++
                    [{ addr := addr, data := loadLine c1.memory addr (linesize / 8) }] }, line)
        else none
      else some (c1, line)

/-- The method `commit()`. -/
def commit (c : CommitRollbackCache T V setcount waycount linesize maxdirty) :
    Option (CommitRollbackCache T V setcount waycount linesize maxdirty) :=
  match c.toLockableAssociativeArray.unlock_all with
  | none => none
  | some a1 => some { c with toLockableAssociativeArray := a1, stores := [] }

/-- The loop of `rollback()` over the entries from `cl` up to `storetail`:
the saved words are written back, then the hook is called. -/
def rollback_loop (c : CommitRollbackCache T V setcount waycount linesize maxdirty) :
    List (BackupCacheLine linesize) →
    CommitRollbackCache T V setcount waycount linesize maxdirty
  | [] => c
  | cl :: rest =>
    rollback_loop
      (invalidate_upwards { c with memory := storeLine c.memory cl.addr cl.data } cl.addr) rest

/-- The method `rollback()`. -/
def rollback [LineData V] (c : CommitRollbackCache T V setcount waycount linesize maxdirty) :
    Option (CommitRollbackCache T V setcount waycount linesize maxdirty) :=
  match c.toLockableAssociativeArray.unlock_all_and_invalidate with
  | none => none
  | some a1 =>
    let c1 : CommitRollbackCache T V setcount waycount linesize maxdirty :=
      rollback_loop { c with toLockableAssociativeArray := a1 } c.stores
    some { c1 with stores := [] }

/-- Modelled from the spec: the caller's write of new contents into the line
of `addr` ("the caller then writes the new, speculative value into the live
line directly"); it is no method of the cache and changes the memory only. -/
def write_line (c : CommitRollbackCache T V setcount waycount linesize maxdirty)
    (addr : Nat) (data : Fin (linesize / 8) → Nat) :
    CommitRollbackCache T V setcount waycount linesize maxdirty :=
  { c with memory := storeLine c.memory (floor addr linesize) data }

/-- The states reached from `reset()` by calls of the methods of the cache,
each of them with a result, and by line writes of the caller.  A call that
accesses an array outside its bounds has no result; in particular a
`select_and_lock` that would write past the end of `clearlist` or past the end
of `stores[maxdirty]` has none, so that in every state of this family the
clear-list and the backup buffer lie inside their arrays. -/
inductive Reachable [LineData V] :
    CommitRollbackCache T V setcount waycount linesize maxdirty → Prop where
  | reset (c0 : CommitRollbackCache T V setcount waycount linesize maxdirty) :
      Reachable (CommitRollbackCache.reset c0)
  | probe (c c1 : CommitRollbackCache T V setcount waycount linesize maxdirty) (addr : Nat)
      (line : Option Int) : Reachable c → c.probe addr = some (c1, line) → Reachable c1
  | select (c c1 : CommitRollbackCache T V setcount waycount linesize maxdirty)
      (addr oldaddr oldaddr1 : Nat) (line : Option Int) :
      Reachable c → c.select addr oldaddr = some (c1, line, oldaddr1) → Reachable c1
  | invalidate (c c1 : CommitRollbackCache T V setcount waycount linesize maxdirty)
      (addr : Nat) : Reachable c → c.invalidate addr = some c1 → Reachable c1
  | select_and_lock (c c1 : CommitRollbackCache T V setcount waycount linesize maxdirty)
      (addr : Nat) (line : Option Int) :
      Reachable c → c.select_and_lock addr = some (c1, line) → Reachable c1
  | write_line (c : CommitRollbackCache T V setcount waycount linesize maxdirty)
      (addr : Nat) (data : Fin (linesize / 8) → Nat) :
      Reachable c → Reachable (c.write_line addr data)
  | commit (c c1 : CommitRollbackCache T V setcount waycount linesize maxdirty) :
      Reachable c → c.commit = some c1 → Reachable c1
  | rollback (c c1 : CommitRollbackCache T V setcount waycount linesize maxdirty) :
      Reachable c → c.rollback = some c1 → Reachable c1

end CommitRollbackCache

/-! ## Vector registers and the operations on them -/

/-- Modelled from the spec: the type `vec16b` of `globals.h` (not among the
sources), a 16-byte vector register, one byte per lane. -/
abbrev vec16b := Fin 16 → Fin 256

/-- Modelled from the spec: the type `vec8w` of `globals.h` (not among the
sources), a vector register of eight 16-bit lanes. -/
abbrev vec8w := Fin 8 → Fin 65536

/-- The number whose bit `j` is the `j`-th entry of the list. -/
def maskOfBits : List Bool → Nat
  | [] => 0
  | b :: bs => b.toNat + 2 * maskOfBits bs

/-- Modelled from the spec: `x86_sse_dupb` ("broadcasts the tag across the
comparison width"): the byte in every lane. -/
def x86_sse_dupb (b : Fin 256) : vec16b := fun _ => b

/-- Modelled from the spec: `x86_sse_pcmpeqb` ("compares against every stored
tag simultaneously"): a lane is `0xff` where the two vectors agree and `0`
elsewhere. -/
def x86_sse_pcmpeqb (a b : vec16b) : vec16b := fun j => if a j = b j then 255 else 0

/-- Modelled from the spec: `x86_sse_pmovmskb`, the 16-bit mask whose bit `j`
is the top bit of byte lane `j`. -/
def x86_sse_pmovmskb (v : vec16b) : Nat :=
  maskOfBits ((List.finRange 16).map (fun j => decide (128 ≤ (v j).val)))

/-- Modelled from the spec: `x86_sse_dupw`, the 16-bit value in every lane. -/
def x86_sse_dupw (w : Fin 65536) : vec8w := fun _ => w

/-- Modelled from the spec: `x86_sse_pcmpeqw`: a lane is `0xffff` where the two
vectors agree and `0` elsewhere. -/
def x86_sse_pcmpeqw (a b : vec8w) : vec8w := fun j => if a j = b j then 65535 else 0

/-- Modelled from the spec: `x86_sse_pmovmskw`, the 8-bit mask whose bit `j` is
the top bit of the 16-bit lane `j`. -/
def x86_sse_pmovmskw (v : vec8w) : Nat :=
  maskOfBits ((List.finRange 8).map (fun j => decide (32768 ≤ (v j).val)))

/-- Modelled from the spec: `accum(base, count, v)` of `bitvec` (`superstl.h`
is not among the sources): the bitmap with the low `count` bits of `v` or-ed
in from bit `base` upwards.  It returns the new bitmap and leaves its receiver
as it is; the 8-bit table uses it as `m = m.accum(...)`, and `valid =
valid.remove(index)` uses `remove` the same way. -/
def bitvec.accum {N : Nat} (m : bitvec N) (base count : Nat) (v : Nat) : bitvec N :=
  fun j => m j || (decide (base ≤ j.val ∧ j.val < base + count) && v.testBit (j.val - base))

/-! ## FullyAssociativeTags8bit -/

/-- The constant `chunkcount = (size+15) / 16` of the 8-bit table. -/
def FullyAssociativeTags8bit.chunkcount (size : Nat) : Nat := (size + 15) / 16

/-- The constant `padchunkcount = (padsize+15) / 16` of the 8-bit table. -/
def FullyAssociativeTags8bit.padchunkcount (padsize : Nat) : Nat := (padsize + 15) / 16

/-- The number of bytes of the array `tags[chunkcount + padchunkcount]` of
16-byte vectors. -/
def FullyAssociativeTags8bit.nbytes (size padsize : Nat) : Nat :=
  (FullyAssociativeTags8bit.chunkcount size + FullyAssociativeTags8bit.padchunkcount padsize) * 16

/-- The struct `FullyAssociativeTags8bit<size, padsize>`: the bytes of the
vector array `tags` and the bitmap `valid`. -/
structure FullyAssociativeTags8bit (size padsize : Nat) where
  tags : Fin (FullyAssociativeTags8bit.nbytes size padsize) → Fin 256
  valid : bitvec size

namespace FullyAssociativeTags8bit

variable {size padsize : Nat}

/-- The `operator [](i)` for reading: `((base_t*)&tags)[i]`. -/
def get (s : FullyAssociativeTags8bit size padsize) (i : Int) : Option (Fin 256) :=
  match index? (nbytes size padsize) i with
  | some b => some (s.tags b)
  | none => none

/-- The method `reset()`: every byte of `tags` becomes `0xff`. -/
def reset : FullyAssociativeTags8bit size padsize :=
  { tags := fun _ => 255, valid := bitvec.zero }

/-- The static method `prep(tag)`. -/
def prep (tag : Fin 256) : vec16b := x86_sse_dupb tag

/-- The method `insertslot(idx, tag)`. -/
def insertslot (s : FullyAssociativeTags8bit size padsize) (idx : Int) (tag : Fin 256) :
    Option (FullyAssociativeTags8bit size padsize × Int) :=
  match index? size idx with
  | none => none
  | some v =>
    match index? (nbytes size padsize) idx with
    | none => none
    | some b => some ({ tags := Function.update s.tags b tag, valid := s.valid.set v true }, idx)

/-- The method `insert(tag)`. -/
def insert (s : FullyAssociativeTags8bit size padsize) (tag : Fin 256) :
    Option (FullyAssociativeTags8bit size padsize × Int) :=
  if s.valid.allset then some (s, -1)
  else
    let idx := s.valid.not.lsb
    s.insertslot idx tag

/-- The vector `tags[i]`. -/
def chunk (s : FullyAssociativeTags8bit size padsize)
    (i : Fin (chunkcount size + padchunkcount padsize)) : vec16b :=
  fun j => s.tags ⟨16 * i.val + j.val, by
    have h1 := i.isLt
    have h2 := j.isLt
    unfold nbytes
    omega⟩

/-- The method `match(target)`. -/
def match_ (s : FullyAssociativeTags8bit size padsize) (target : vec16b) : bitvec size :=
  let m := (List.finRange (chunkcount size)).foldl
    (fun m i => m.accum (i.val * 16) 16
      (x86_sse_pmovmskb (x86_sse_pcmpeqb target (s.chunk (Fin.castAdd _ i))))) bitvec.zero
  m.and s.valid

/-- The method `search(const vec16b target)`. -/
def search_vec (s : FullyAssociativeTags8bit size padsize) (target : vec16b) : Int :=
  let bitmap := s.match_ target
  let idx := bitmap.lsb
  if bitmap.iszero then -1 else idx

/-- The method `search(base_t tag)`. -/
def search (s : FullyAssociativeTags8bit size padsize) (tag : Fin 256) : Int :=
  s.search_vec (prep tag)

end FullyAssociativeTags8bit

/-! ## FullyAssociativeTags16bit -/

/-- The constant `chunkcount = ((size*2)+15) / 16` of the 16-bit table. -/
def FullyAssociativeTags16bit.chunkcount (size : Nat) : Nat := (size * 2 + 15) / 16

/-- The constant `padchunkcount = ((padsize*2)+15) / 16` of the 16-bit
table. -/
def FullyAssociativeTags16bit.padchunkcount (padsize : Nat) : Nat := (padsize * 2 + 15) / 16

/-- The number of bytes of the array `tags[chunkcount + padchunkcount]` of
16-byte vectors. -/
def FullyAssociativeTags16bit.nbytes (size padsize : Nat) : Nat :=
  (FullyAssociativeTags16bit.chunkcount size
    + FullyAssociativeTags16bit.padchunkcount padsize) * 16

/-- The struct `FullyAssociativeTags16bit<size, padsize>`: the bytes of the
vector array `tags` and the bitmap `valid`.  A 16-bit slot `i` occupies the
bytes `2 * i` (low byte) and `2 * i + 1` (high byte), the layout of the x86
target of the vector operations. -/
structure FullyAssociativeTags16bit (size padsize : Nat) where
  tags : Fin (FullyAssociativeTags16bit.nbytes size padsize) → Fin 256
  valid : bitvec size

namespace FullyAssociativeTags16bit

variable {size padsize : Nat}

/-- The 16-bit value with low byte `lo` and high byte `hi`. -/
def word (lo hi : Fin 256) : Fin 65536 :=
  ⟨lo.val + 256 * hi.val, by
    have h1 := lo.isLt
    have h2 := hi.isLt
    omega⟩

/-- The low byte of a 16-bit value. -/
def lowByte (w : Fin 65536) : Fin 256 := ⟨w.val % 256, Nat.mod_lt _ (by decide)⟩

/-- The high byte of a 16-bit value. -/
def highByte (w : Fin 65536) : Fin 256 :=
  ⟨w.val / 256, by
    have h := w.isLt
    omega⟩

/-- The `operator [](i)` for reading: `((base_t*)&tags)[i]`, the 16-bit value
at the bytes `2 * i` and `2 * i + 1`. -/
def get (s : FullyAssociativeTags16bit size padsize) (i : Int) : Option (Fin 65536) :=
  match index? (nbytes size padsize) (2 * i), index? (nbytes size padsize) (2 * i + 1) with
  | some lo, some hi => some (word (s.tags lo) (s.tags hi))
  | _, _ => none

/-- The method `reset()`: every byte of `tags` becomes `0xff`. -/
def reset : FullyAssociativeTags16bit size padsize :=
  { tags := fun _ => 255, valid := bitvec.zero }

/-- The static method `prep(tag)`. -/
def prep (tag : Fin 65536) : vec8w := x86_sse_dupw tag

/-- The method `insertslot(idx, tag)`. -/
def insertslot (s : FullyAssociativeTags16bit size padsize) (idx : Int) (tag : Fin 65536) :
    Option (FullyAssociativeTags16bit size padsize × Int) :=
  match index? size idx with
  | none => none
  | some v =>
    match index? (nbytes size padsize) (2 * idx), index? (nbytes size padsize) (2 * idx + 1) with
    | some lo, some hi =>
      some ({ tags := Function.update (Function.update s.tags lo (lowByte tag)) hi (highByte tag)
              valid := s.valid.set v true }, idx)
    | _, _ => none

/-- The method `insert(tag)`. -/
def insert (s : FullyAssociativeTags16bit size padsize) (tag : Fin 65536) :
    Option (FullyAssociativeTags16bit size padsize × Int) :=
  if s.valid.allset then some (s, -1)
  else
    let idx := s.valid.not.lsb
    s.insertslot idx tag

/-- The vector `tags[i]`: lane `j` is the 16-bit value at the bytes
`16 * i + 2 * j` and `16 * i + 2 * j + 1`. -/
def chunk (s : FullyAssociativeTags16bit size padsize)
    (i : Fin (chunkcount size + padchunkcount padsize)) : vec8w :=
  fun j => word
    (s.tags ⟨16 * i.val + 2 * j.val, by
      have h1 := i.isLt
      have h2 := j.isLt
      unfold nbytes
      omega⟩)
    (s.tags ⟨16 * i.val + 2 * j.val + 1, by
      have h1 := i.isLt
      have h2 := j.isLt
      unfold nbytes
      omega⟩)

/-- The method `match(target)`.  The loop calls `m.accum(...)` and drops what
it returns, so `m` is still the zero bitmap after the loop. -/
def match_ (s : FullyAssociativeTags16bit size padsize) (target : vec8w) : bitvec size :=
  let m := (List.finRange (chunkcount size)).foldl
    (fun (m : bitvec size) i =>
      let _dropped := m.accum (i.val * 16) 16
        (x86_sse_pmovmskw (x86_sse_pcmpeqw target (s.chunk (Fin.castAdd _ i))))
      m) bitvec.zero
  m.and s.valid

/-- The method `search(const vec8w target)`. -/
def search_vec (s : FullyAssociativeTags16bit size padsize) (target : vec8w) : Int :=
  let bitmap := s.match_ target
  let idx := bitmap.lsb
  if bitmap.iszero then -1 else idx

/-- The method `search(base_t tag)`. -/
def search (s : FullyAssociativeTags16bit size padsize) (tag : Fin 65536) : Int :=
  s.search_vec (prep tag)

end FullyAssociativeTags16bit

/-! ## Collapse, extraction and aging of the tables of 8-bit and 16-bit tags -/

/-- Modelled from the spec: `remove(index)` of `bitvec` ("shifts every higher
slot down by one position (tag storage and validity bitmap together)"): the
bits below `index` stay, every bit from `index` upwards takes the value of the
next higher bit, and the top bit is cleared. -/
def bitvec.remove {N : Nat} (b : bitvec N) (i : Fin N) : bitvec N :=
  fun j =>
    if j.val < i.val then b j
    else if h : j.val + 1 < N then b ⟨j.val + 1, h⟩ else false

/-- Modelled from the spec: `ceil(x, a)` of `globals.h` (not among the
sources), `x` rounded up to a multiple of the power of two `a`. -/
def ceil (x a : Nat) : Nat := floor (x + (a - 1)) a

/-- Modelled from the spec: `x86_sse_ldvbu`, the load of 16 bytes from a
byte address that need not be aligned; `mem` is the byte array the address
points into and `off` the offset of the address in it. -/
def x86_sse_ldvbu {n : Nat} (mem : Fin n → Fin 256) (off : Int) : Option vec16b :=
  if h : 0 ≤ off ∧ off + 16 ≤ (n : Int) then
    some (fun j => mem ⟨off.toNat + j.val, by
      have := j.isLt
      omega⟩)
  else none

/-- Modelled from the spec: `x86_sse_stvbu`, the store of 16 bytes to a byte
address that need not be aligned. -/
def x86_sse_stvbu {n : Nat} (mem : Fin n → Fin 256) (off : Int) (v : vec16b) :
    Option (Fin n → Fin 256) :=
  if 0 ≤ off ∧ off + 16 ≤ (n : Int) then
    some (fun b =>
      if h : off.toNat ≤ b.val ∧ b.val < off.toNat + 16 then v ⟨b.val - off.toNat, by omega⟩
      else mem b)
  else none

/-- Modelled from the spec: `x86_sse_ldvwu`, the load of eight 16-bit lanes
from a byte address that need not be aligned; lane `j` has its low byte at
`off + 2 * j` and its high byte at `off + 2 * j + 1`. -/
def x86_sse_ldvwu {n : Nat} (mem : Fin n → Fin 256) (off : Int) : Option vec8w :=
  if h : 0 ≤ off ∧ off + 16 ≤ (n : Int) then
    some (fun j => FullyAssociativeTags16bit.word
      (mem ⟨off.toNat + 2 * j.val, by
        have := j.isLt
        omega⟩)
      (mem ⟨off.toNat + 2 * j.val + 1, by
        have := j.isLt
        omega⟩))
  else none

/-- Modelled from the spec: `x86_sse_stvwu`, the store of eight 16-bit lanes
to a byte address that need not be aligned. -/
def x86_sse_stvwu {n : Nat} (mem : Fin n → Fin 256) (off : Int) (v : vec8w) :
    Option (Fin n → Fin 256) :=
  if 0 ≤ off ∧ off + 16 ≤ (n : Int) then
    some (fun b =>
      if h : off.toNat ≤ b.val ∧ b.val < off.toNat + 16 then
        if (b.val - off.toNat) % 2 = 0 then
          FullyAssociativeTags16bit.lowByte (v ⟨(b.val - off.toNat) / 2, by omega⟩)
        else FullyAssociativeTags16bit.highByte (v ⟨(b.val - off.toNat) / 2, by omega⟩)
      else mem b)
  else none

/-- Modelled from the spec: `x86_sse_paddusb` ("a saturating add ..., clamped
at the tag type's bounds"): lane-wise sum of bytes, 255 where it exceeds
255. -/
def x86_sse_paddusb (a b : vec16b) : vec16b :=
  fun j => ⟨min ((a j).val + (b j).val) 255, Nat.lt_succ_of_le (Nat.min_le_right _ _)⟩

/-- Modelled from the spec: `x86_sse_psubusb` ("a saturating ... subtract,
clamped at the tag type's bounds"): lane-wise difference of bytes, 0 where the
second exceeds the first. -/
def x86_sse_psubusb (a b : vec16b) : vec16b :=
  fun j => ⟨(a j).val - (b j).val, lt_of_le_of_lt (Nat.sub_le _ _) (a j).isLt⟩

/-- Modelled from the spec: `x86_sse_paddusw`: lane-wise sum of 16-bit values,
65535 where it exceeds 65535. -/
def x86_sse_paddusw (a b : vec8w) : vec8w :=
  fun j => ⟨min ((a j).val + (b j).val) 65535, Nat.lt_succ_of_le (Nat.min_le_right _ _)⟩

/-- Modelled from the spec: `x86_sse_psubusw`: lane-wise difference of 16-bit
values, 0 where the second exceeds the first. -/
def x86_sse_psubusw (a b : vec8w) : vec8w :=
  fun j => ⟨(a j).val - (b j).val, lt_of_le_of_lt (Nat.sub_le _ _) (a j).isLt⟩

namespace FullyAssociativeTags8bit

variable {size padsize : Nat}

/-- The loop of `collapse`: `count` times `x86_sse_stvbu(dp++, x86_sse_ldvbu(sp++))`
on the bytes of `tags`; `dp` and `sp` are byte offsets and advance by the 16
bytes of a vector. -/
def collapse_loop (tags : Fin (nbytes size padsize) → Fin 256) (dp sp : Int) :
    Nat → Option (Fin (nbytes size padsize) → Fin 256)
  | 0 => some tags
  | count + 1 =>
    match x86_sse_ldvbu tags sp with
    | none => none
    | some v =>
      match x86_sse_stvbu tags dp v with
      | none => none
      | some tags1 => collapse_loop tags1 (dp + 16) (sp + 16) count

/-- The method `collapse(index)`; `base` is the byte offset of `tagbase + index`
and `sizeof(base_t)` is 1. -/
def collapse (s : FullyAssociativeTags8bit size padsize) (index : Int) :
    Option (FullyAssociativeTags8bit size padsize) :=
  let base := index
  let dp := base
  let sp := base + 1
  match collapse_loop s.tags dp sp (ceil size 16 / 16) with
  | none => none
  | some tags1 =>
    match index? size index with
    | none => none
    | some i => some { tags := tags1, valid := s.valid.remove i }

/-- The assignment `tags[i] = v` of a whole vector. -/
def setChunk (s : FullyAssociativeTags8bit size padsize)
    (i : Fin (chunkcount size + padchunkcount padsize)) (v : vec16b) :
    FullyAssociativeTags8bit size padsize :=
  { s with tags := fun b =>
      if b.val / 16 = i.val then v ⟨b.val % 16, Nat.mod_lt _ (by decide)⟩ else s.tags b }

/-- The method `decrement(amount)`. -/
def decrement (s : FullyAssociativeTags8bit size padsize) (amount : Fin 256) :
    FullyAssociativeTags8bit size padsize :=
  (List.finRange (chunkcount size)).foldl
    (fun s i => s.setChunk (Fin.castAdd _ i)
      (x86_sse_psubusb (s.chunk (Fin.castAdd _ i)) (prep amount))) s

/-- The method `increment(amount)`. -/
def increment (s : FullyAssociativeTags8bit size padsize) (amount : Fin 256) :
    FullyAssociativeTags8bit size padsize :=
  (List.finRange (chunkcount size)).foldl
    (fun s i => s.setChunk (Fin.castAdd _ i)
      (x86_sse_paddusb (s.chunk (Fin.castAdd _ i)) (prep amount))) s

end FullyAssociativeTags8bit

namespace FullyAssociativeTags16bit

variable {size padsize : Nat}

/-- The loop of `collapse`: `count` times `x86_sse_stvwu(dp++, x86_sse_ldvwu(sp++))`
on the bytes of `tags`; `dp` and `sp` are byte offsets and advance by the 16
bytes of a vector. -/
def collapse_loop (tags : Fin (nbytes size padsize) → Fin 256) (dp sp : Int) :
    Nat → Option (Fin (nbytes size padsize) → Fin 256)
  | 0 => some tags
  | count + 1 =>
    match x86_sse_ldvwu tags sp with
    | none => none
    | some v =>
      match x86_sse_stvwu tags dp v with
      | none => none
      | some tags1 => collapse_loop tags1 (dp + 16) (sp + 16) count

/-- The method `collapse(index)`; `base` is the byte offset of `tagbase + index`
(`tagbase` is a `byte*`) and `sizeof(base_t)` is 2. -/
def collapse (s : FullyAssociativeTags16bit size padsize) (index : Int) :
    Option (FullyAssociativeTags16bit size padsize) :=
  let base := index
  let dp := base
  let sp := base + 2
  match collapse_loop s.tags dp sp (ceil size 16 / 16) with
  | none => none
  | some tags1 =>
    match index? size index with
    | none => none
    | some i => some { tags := tags1, valid := s.valid.remove i }

/-- The assignment `tags[i] = v` of a whole vector: lane `j` goes to the bytes
`16 * i + 2 * j` (low byte) and `16 * i + 2 * j + 1` (high byte). -/
def setChunk (s : FullyAssociativeTags16bit size padsize)
    (i : Fin (chunkcount size + padchunkcount padsize)) (v : vec8w) :
    FullyAssociativeTags16bit size padsize :=
  { s with tags := fun b =>
      if b.val / 16 = i.val then
        if b.val % 2 = 0 then lowByte (v ⟨b.val % 16 / 2, by omega⟩)
        else highByte (v ⟨b.val % 16 / 2, by omega⟩)
      else s.tags b }

/-- The method `decrement(amount)`. -/
def decrement (s : FullyAssociativeTags16bit size padsize) (amount : Fin 65536) :
    FullyAssociativeTags16bit size padsize :=
  (List.finRange (chunkcount size)).foldl
    (fun s i => s.setChunk (Fin.castAdd _ i)
      (x86_sse_psubusw (s.chunk (Fin.castAdd _ i)) (prep amount))) s

/-- The method `increment(amount)`. -/
def increment (s : FullyAssociativeTags16bit size padsize) (amount : Fin 65536) :
    FullyAssociativeTags16bit size padsize :=
  (List.finRange (chunkcount size)).foldl
    (fun s i => s.setChunk (Fin.castAdd _ i)
      (x86_sse_paddusw (s.chunk (Fin.castAdd _ i)) (prep amount))) s

end FullyAssociativeTags16bit

/-! ## The matching loop on its own -/

/-- The body of the loop of `match`, shared by both tag tables. -/
def matchStep {n : Nat} (tags : Fin n → Nat) (target : Nat) (way : Int) (i : Fin n) : Int :=
  way + (if tags i = target then (i.val : Int) + 1 else 0)

/-- The result of the matching loop of `match`, as a function of the tags. -/
def matchResult {n : Nat} (tags : Fin n → Nat) (target : Nat) : Int :=
  (List.finRange n).foldl (matchStep tags target) 0 - 1

/-! ## Example states -/

/-- A four-way table holding the tags 10, 20, 30, 40 with a clear bitmap. -/
def ex4 : FullyAssociativeTags .W64 4 :=
  { evictmap := bitvec.zero, tags := ![10, 20, 30, 40] }

/-- The table after `reset()` and `select(10)` on four ways. -/
def ex4a : FullyAssociativeTags .W64 4 :=
  { evictmap := Function.update bitvec.zero 0 true
    tags := Function.update (fun _ => InvalidTag.INVALID .W64) 0 10 }

/-- The table after `reset()`, `select(10)` and `select(20)` on four ways. -/
def ex4b : FullyAssociativeTags .W64 4 :=
  { evictmap := Function.update ex4a.evictmap 1 true
    tags := Function.update ex4a.tags 1 20 }

/-- The table `ex4` after `select(50)`. -/
def ex4c : FullyAssociativeTags .W64 4 :=
  { evictmap := Function.update bitvec.zero 0 true, tags := Function.update ex4.tags 0 50 }

/-- A four-way table holding the tags 10, 20, 30, 40 with every MRU bit set. -/
def ex4full : FullyAssociativeTags .W64 4 :=
  { evictmap := bitvec.setall, tags := ![10, 20, 30, 40] }

/-- A two-way lockable table reached from `reset()` by `select_and_lock(10)`:
way 0 holds 10, is marked used and is locked. -/
def exL1 : LockableFullyAssociativeTags .W64 2 :=
  { evictmap := Function.update bitvec.zero 0 true
    unlockedmap := Function.update bitvec.setall 0 false
    tags := Function.update (fun _ => InvalidTag.INVALID .W64) 0 10 }

/-- The table `exL1` after `select(20)`: way 1 holds 20 and is marked used,
way 0 is still locked. -/
def exL2 : LockableFullyAssociativeTags .W64 2 :=
  { evictmap := Function.update exL1.evictmap 1 true
    unlockedmap := exL1.unlockedmap
    tags := Function.update exL1.tags 1 20 }

/-- The table `exL2` after `select(30)`. -/
def exL3 : LockableFullyAssociativeTags .W64 2 :=
  { evictmap := Function.update bitvec.zero 0 true
    unlockedmap := exL2.unlockedmap
    tags := Function.update exL2.tags 0 30 }

/-- The two-way lockable table after `reset()` and `select(10)`. -/
def exS1 : LockableFullyAssociativeTags .W64 2 :=
  { evictmap := Function.update bitvec.zero 0 true
    unlockedmap := bitvec.setall
    tags := Function.update (fun _ => InvalidTag.INVALID .W64) 0 10 }

/-- The table `exS1` after `select(20)`: both ways unlocked, both MRU bits
set. -/
def exS2 : LockableFullyAssociativeTags .W64 2 :=
  { evictmap := Function.update exS1.evictmap 1 true
    unlockedmap := bitvec.setall
    tags := Function.update exS1.tags 1 20 }

/-- A two-way lockable table holding 10 and 20 with both ways locked. -/
def exLocked : LockableFullyAssociativeTags .W64 2 :=
  { evictmap := bitvec.setall, unlockedmap := bitvec.zero, tags := ![10, 20] }

/-- The table `reset()` leaves, on two ways. -/
def exL0 : LockableFullyAssociativeTags .W64 2 := LockableFullyAssociativeTags.reset

/-- The table `exL1` after a second `select_and_lock(10)`. -/
def exL1b : LockableFullyAssociativeTags .W64 2 :=
  { evictmap := Function.update exL1.evictmap 0 true
    unlockedmap := Function.update exL1.unlockedmap 0 false
    tags := exL1.tags }

/-- A payload line for the examples: a number, and `reset()` makes it 0. -/
instance instLineDataNat : LineData Nat where
  reset := fun _ => 0

/-- The first component of the result of an operation, or `dflt` when the
operation has no result. -/
def stateOf {σ ρ : Type} (r : Option (σ × ρ)) (dflt : σ) : σ :=
  match r with
  | some x => x.1
  | none => dflt

/-- A `LockableAssociativeArray<W64, V, 1, 1, 64>` after `reset()`. -/
def exA0 : LockableAssociativeArray .W64 Nat 1 1 64 :=
  LockableAssociativeArray.reset
    { sets := fun _ => { tags := LockableFullyAssociativeTags.reset, data := fun _ => 0 }
      clearlist := [] }

/-- The array `exA0` after `select_and_lock(0)`. -/
def exA1 : LockableAssociativeArray .W64 Nat 1 1 64 :=
  stateOf (exA0.select_and_lock 0 false) exA0

/-- The array `exA1` after `invalidate(0)`. -/
def exA2 : LockableAssociativeArray .W64 Nat 1 1 64 :=
  (exA1.invalidate 0).getD exA1

/-- A `LockableAssociativeArray<W64, V, 1, 2, 64>` after `reset()`: one set,
two ways, room for two records in `clearlist`. -/
def exJ0 : LockableAssociativeArray .W64 Nat 1 2 64 :=
  LockableAssociativeArray.reset
    { sets := fun _ => { tags := LockableFullyAssociativeTags.reset, data := fun _ => 0 }
      clearlist := [] }

/-- The array `exJ0` after `select_and_lock(0)`. -/
def exJ1 : LockableAssociativeArray .W64 Nat 1 2 64 :=
  stateOf (exJ0.select_and_lock 0 false) exJ0

/-- The array `exJ1` after `invalidate(0)`. -/
def exJ2 : LockableAssociativeArray .W64 Nat 1 2 64 :=
  (exJ1.invalidate 0).getD exJ1

/-- The array `exJ2` after a second `select_and_lock(0)`. -/
def exJ3 : LockableAssociativeArray .W64 Nat 1 2 64 :=
  stateOf (exJ2.select_and_lock 0 false) exJ2

/-- A `LockableAssociativeArray<W64, V, 131072, 1, 64>` after `reset()`. -/
def exB0 : LockableAssociativeArray .W64 Nat 131072 1 64 :=
  LockableAssociativeArray.reset
    { sets := fun _ => { tags := LockableFullyAssociativeTags.reset, data := fun _ => 0 }
      clearlist := [] }

/-- The array `exB0` after `select_and_lock(4194304)`, an address of set
65536. -/
def exB1 : LockableAssociativeArray .W64 Nat 131072 1 64 :=
  stateOf (exB0.select_and_lock 4194304 false) exB0

/-- The array `exB1` after `unlock_all()`. -/
def exB2 : LockableAssociativeArray .W64 Nat 131072 1 64 :=
  (exB1.unlock_all).getD exB1

/-- The array `exB1` after `unlock_all_and_invalidate()`. -/
def exB3 : LockableAssociativeArray .W64 Nat 131072 1 64 :=
  (exB1.unlock_all_and_invalidate).getD exB1

/-- A cache after `reset()`, over a memory that holds 0 everywhere, with no
call of the hook made yet. -/
def freshCache (setcount waycount linesize maxdirty : Nat) :
    CommitRollbackCache .W64 Nat setcount waycount linesize maxdirty :=
  CommitRollbackCache.reset
    { sets := fun _ => { tags := LockableFullyAssociativeTags.reset, data := fun _ => 0 }
      clearlist := []
      stores := []
      memory := fun _ => 0
      upcalls := [] }

/-- A `CommitRollbackCache<W64, V, 1, 2, 8, 2>` after `reset()`: one set, two
ways, lines of one `W64` word. -/
def exC0 : CommitRollbackCache .W64 Nat 1 2 8 2 := freshCache 1 2 8 2

/-- The cache `exC0` after `select_and_lock(0)`. -/
def exC1 : CommitRollbackCache .W64 Nat 1 2 8 2 := stateOf (exC0.select_and_lock 0) exC0

/-- The cache `exC1` after `select_and_lock(8)`. -/
def exC2 : CommitRollbackCache .W64 Nat 1 2 8 2 := stateOf (exC1.select_and_lock 8) exC1

/-- The cache `exC2` after `commit()`: the lines 0 and 8 are held in ways 0 and
1, both unlocked, both MRU bits set. -/
def exC3 : CommitRollbackCache .W64 Nat 1 2 8 2 := (exC2.commit).getD exC2

/-- The cache `exC3` after `select_and_lock(0)`, the first lock of a new
window. -/
def exC4 : CommitRollbackCache .W64 Nat 1 2 8 2 := stateOf (exC3.select_and_lock 0) exC3

/-- The cache `exC4` after `select_and_lock(16)`. -/
def exC5 : CommitRollbackCache .W64 Nat 1 2 8 2 := stateOf (exC4.select_and_lock 16) exC4

/-- The cache `exC5` after the caller wrote the word 1 into the line 16. -/
def exC6 : CommitRollbackCache .W64 Nat 1 2 8 2 := exC5.write_line 16 (fun _ => 1)

/-- The cache `exC6` after `rollback()`. -/
def exC7 : CommitRollbackCache .W64 Nat 1 2 8 2 := (exC6.rollback).getD exC6

/-- The cache `exC1` after the caller wrote the word 5 into the locked line
0. -/
def exH1 : CommitRollbackCache .W64 Nat 1 2 8 2 := exC1.write_line 0 (fun _ => 5)

/-- The cache `exH1` after `invalidate(0)`: the way of line 0 is unlocked, its
backup entry and its record in the clear-list stay. -/
def exH2 : CommitRollbackCache .W64 Nat 1 2 8 2 := (exH1.invalidate 0).getD exH1

/-- The cache `exH2` after `select_and_lock(0)`, a first lock again: a second
backup entry of line 0 holds the word 5. -/
def exH3 : CommitRollbackCache .W64 Nat 1 2 8 2 := stateOf (exH2.select_and_lock 0) exH2

/-- The cache `exH3` after the caller wrote the word 9 into the line 0. -/
def exH4 : CommitRollbackCache .W64 Nat 1 2 8 2 := exH3.write_line 0 (fun _ => 9)

/-- A `CommitRollbackCache<W64, V, 1, 2, 8, 1>` after `reset()`: room for one
backup entry. -/
def exD0 : CommitRollbackCache .W64 Nat 1 2 8 1 := freshCache 1 2 8 1

/-- The cache `exD0` after `select_and_lock(0)`. -/
def exD1 : CommitRollbackCache .W64 Nat 1 2 8 1 := stateOf (exD0.select_and_lock 0) exD0

/-- A `CommitRollbackCache<W64, V, 131072, 1, 64, 2>` after `reset()`. -/
def exE0 : CommitRollbackCache .W64 Nat 131072 1 64 2 := freshCache 131072 1 64 2

/-- The cache `exE0` after `select_and_lock(4194304)`, an address of set
65536. -/
def exE1 : CommitRollbackCache .W64 Nat 131072 1 64 2 :=
  stateOf (exE0.select_and_lock 4194304) exE0

/-- The cache `exE1` after the caller wrote the word 1 into each word of the
line 4194304. -/
def exE2 : CommitRollbackCache .W64 Nat 131072 1 64 2 := exE1.write_line 4194304 (fun _ => 1)

/-- The cache `exE2` after `commit()`. -/
def exE3 : CommitRollbackCache .W64 Nat 131072 1 64 2 := (exE2.commit).getD exE2

/-- A cache before its first `reset()`, over a memory that holds 0 everywhere,
with no call of the hook made yet. -/
def blankCache (setcount waycount linesize maxdirty : Nat) :
    CommitRollbackCache .W64 Nat setcount waycount linesize maxdirty :=
  { sets := fun _ => { tags := LockableFullyAssociativeTags.reset, data := fun _ => 0 }
    clearlist := []
    stores := []
    memory := fun _ => 0
    upcalls := [] }

/-- The cache `exC1` (line 0 locked) after the caller wrote the word 7 into
line 0 and `select_and_lock(8)` ran. -/
def exG3 : CommitRollbackCache .W64 Nat 1 2 8 2 :=
  stateOf ((exC1.write_line 0 (fun _ => 7)).select_and_lock 8) exC1

/-- The cache `exE2` (line 4194304 of set 65536 locked and written) after
`select_and_lock(0)`. -/
def exF3 : CommitRollbackCache .W64 Nat 131072 1 64 2 :=
  stateOf (exE2.select_and_lock 0) exE2

/-- The cache `exF3` after the caller wrote the word 1 into each word of line
0. -/
def exF4 : CommitRollbackCache .W64 Nat 131072 1 64 2 := exF3.write_line 0 (fun _ => 1)

/-- The cache `exF4` after `rollback()`. -/
def exF5 : CommitRollbackCache .W64 Nat 131072 1 64 2 := (exF4.rollback).getD exF4

/-- The cache `exF5` after `probe(4194304)`. -/
def exF6 : CommitRollbackCache .W64 Nat 131072 1 64 2 := stateOf (exF5.probe 4194304) exF5

/-- The table after the insertion of the tags of a list, one after the other;
an insertion without result leaves the table as it is. -/
def insertAll16 {size padsize : Nat} (s : FullyAssociativeTags16bit size padsize)
    (l : List (Fin 65536)) : FullyAssociativeTags16bit size padsize :=
  l.foldl (fun s t => stateOf (s.insert t) s) s

/-- A 16-slot table of 16-bit tags after `reset()` and the insertion of the
tags 1 to 8, which fill the slots 0 to 7. -/
def ex16 : FullyAssociativeTags16bit 16 0 :=
  insertAll16 FullyAssociativeTags16bit.reset [1, 2, 3, 4, 5, 6, 7, 8]

/-- The table `ex16` after `insert(9)`. -/
def ex16b : FullyAssociativeTags16bit 16 0 := stateOf (ex16.insert 9) ex16

/-- A 4-slot table of 8-bit tags: slot 0 holds 7 and is valid, slot 1 holds 5
and is invalid, slot 2 holds 5 and is valid, slot 3 holds the fill byte `0xff`
and is invalid. -/
def ex8 : FullyAssociativeTags8bit 4 0 :=
  { tags := fun b => if b.val = 0 then 7 else if b.val = 1 then 5 else if b.val = 2 then 5
      else 255
    valid := ![true, false, true, false] }

/-- A 4-slot table of 8-bit tags with one chunk of padding: the slots hold 10,
20, 30, 40 and are valid except slot 1; the bytes behind them hold the fill
byte. -/
def ex8p : FullyAssociativeTags8bit 4 16 :=
  { tags := fun b => if b.val = 0 then 10 else if b.val = 1 then 20 else if b.val = 2 then 30
      else if b.val = 3 then 40 else 255
    valid := ![true, false, true, true] }

/-- A 4-slot table of 8-bit tags holding 0, 3, 254 and 100. -/
def ex8s : FullyAssociativeTags8bit 4 0 :=
  { tags := fun b => if b.val = 0 then 0 else if b.val = 1 then 3 else if b.val = 2 then 254
      else if b.val = 3 then 100 else 255
    valid := ![true, false, true, true] }

/-- A 4-slot table of 16-bit tags holding 0, 3, 65534 and 1000. -/
def ex16s : FullyAssociativeTags16bit 4 0 :=
  { tags := fun b => if b.val = 0 then 0 else if b.val = 1 then 0 else if b.val = 2 then 3
      else if b.val = 3 then 0 else if b.val = 4 then 254 else if b.val = 5 then 255
      else if b.val = 6 then 232 else if b.val = 7 then 3 else 255
    valid := ![true, false, true, true] }

/-! ## Reachable states and invariants -/

namespace LockableAssociativeArray

variable {T : TagType} {V : Type} {setcount waycount linesize : Nat}

/-- The states reached from `reset()` by calls of `probe`, `select`,
`invalidate`, `select_and_lock`, `unlock_all` and `unlock_all_and_invalidate`
(and `reset` itself), each of them with a result.  A call that accesses an
array outside its bounds has no result; in particular a `select_and_lock` that
would write a record past the end of `clearlist[setcount * waycount]` has none,
so that in every state of this family the clear-list lies inside its array
(`reachable_within`). -/
inductive Reachable [LineData V] :
    LockableAssociativeArray T V setcount waycount linesize → Prop where
  | reset (s0 : LockableAssociativeArray T V setcount waycount linesize) :
      Reachable (LockableAssociativeArray.reset s0)
  | probe (s s1 : LockableAssociativeArray T V setcount waycount linesize) (addr : Nat)
      (line : Option Int) :
      Reachable s → s.probe addr = some (s1, line) → Reachable s1
  | select (s s1 : LockableAssociativeArray T V setcount waycount linesize)
      (addr oldaddr oldaddr1 : Nat) (line : Option Int) :
      Reachable s → s.select addr oldaddr = some (s1, line, oldaddr1) → Reachable s1
  | invalidate (s s1 : LockableAssociativeArray T V setcount waycount linesize) (addr : Nat) :
      Reachable s → s.invalidate addr = some s1 → Reachable s1
  | select_and_lock (s s1 : LockableAssociativeArray T V setcount waycount linesize)
      (addr : Nat) (firstlock firstlock1 : Bool) (line : Option Int) :
      Reachable s → s.select_and_lock addr firstlock = some (s1, line, firstlock1) →
      Reachable s1
  | unlock_all (s s1 : LockableAssociativeArray T V setcount waycount linesize) :
      Reachable s → s.unlock_all = some s1 → Reachable s1
  | unlock_all_and_invalidate
      (s s1 : LockableAssociativeArray T V setcount waycount linesize) :
      Reachable s → s.unlock_all_and_invalidate = some s1 → Reachable s1

/-- Every entry of the clear-list names a set and a way of the array. -/
def ClearInRange (s : LockableAssociativeArray T V setcount waycount linesize) : Prop :=
  ∀ p ∈ s.clearlist, p.1 < setcount ∧ p.2 < waycount

/-- Every locked way is recorded in the clear-list. -/
def LockedRecorded (s : LockableAssociativeArray T V setcount waycount linesize) : Prop :=
  ∀ (si : Fin setcount) (wi : Fin waycount),
    (s.sets si).tags.unlockedmap wi = false → (si.val, wi.val) ∈ s.clearlist

end LockableAssociativeArray

namespace CommitRollbackCache

variable {T : TagType} {V : Type} {setcount waycount linesize maxdirty : Nat}

/-- A state of the cache that fits the arrays of the C object: the clear-list
holds at most `setcount * waycount` records (the size of `clearlist`), each of
them names a set and a way of the array, and the backup buffer holds at most
`maxdirty` entries (the size of `stores`).  Nothing is asked of the backing
memory, of the saved words or of the tags. -/
def InsideArrays (c : CommitRollbackCache T V setcount waycount linesize maxdirty) : Prop :=
  c.clearlist.length ≤ setcount * waycount ∧
  c.toLockableAssociativeArray.ClearInRange ∧
  c.stores.length ≤ maxdirty

end CommitRollbackCache



namespace FullyAssociativeTags

variable {T : TagType} {ways : Nat}

/-- The associativity invariant: no two distinct ways hold the same tag other
than the sentinel. -/
def Assoc (s : FullyAssociativeTags T ways) : Prop :=
  ∀ i j, s.tags i = s.tags j → s.tags i ≠ INVALID T → i = j

/-- The states reached from `reset()` by calls of `select`, `probe` and
`invalidate` with tags other than the sentinel. -/
inductive Reachable : FullyAssociativeTags T ways → Prop where
  | reset : Reachable FullyAssociativeTags.reset
  | select (s s1 : FullyAssociativeTags T ways) (t oldtag oldtag1 : Nat) (way : Int) :
      Reachable s → t ≠ INVALID T → s.select t oldtag = some (s1, way, oldtag1) → Reachable s1
  | probe (s s1 : FullyAssociativeTags T ways) (t : Nat) (way : Int) :
      Reachable s → t ≠ INVALID T → s.probe t = some (s1, way) → Reachable s1
  | invalidate (s s1 : FullyAssociativeTags T ways) (t : Nat) (way : Int) :
      Reachable s → t ≠ INVALID T → s.invalidate t = some (s1, way) → Reachable s1

end FullyAssociativeTags

/-! ## States reached without `invalidate` -/

namespace FullyAssociativeTags

variable {T : TagType} {ways : Nat}

/-- The states reached from `reset()` by calls of `select` and `probe` with
tags other than the sentinel (no call of `invalidate`). -/
inductive ReachableBySelect : FullyAssociativeTags T ways → Prop where
  | reset : ReachableBySelect FullyAssociativeTags.reset
  | select (s s1 : FullyAssociativeTags T ways) (t oldtag oldtag1 : Nat) (way : Int) :
      ReachableBySelect s → t ≠ INVALID T → s.select t oldtag = some (s1, way, oldtag1) →
      ReachableBySelect s1
  | probe (s s1 : FullyAssociativeTags T ways) (t : Nat) (way : Int) :
      ReachableBySelect s → t ≠ INVALID T → s.probe t = some (s1, way) → ReachableBySelect s1

/-- A set MRU bit marks an occupied way, and as long as some way is unoccupied
every occupied way has its MRU bit set. -/
def Filling (s : FullyAssociativeTags T ways) : Prop :=
  (∀ i, s.evictmap i = true → s.tags i ≠ INVALID T) ∧
  ((∃ i, s.tags i = INVALID T) → ∀ i, s.tags i ≠ INVALID T → s.evictmap i = true)

end FullyAssociativeTags

namespace LockableAssociativeArray

variable {T : TagType} {V : Type} {setcount waycount linesize : Nat}

/-- The states reached from `reset()` by calls of `probe`, `select`,
`select_and_lock`, `unlock_all` and `unlock_all_and_invalidate` (no call of
`invalidate`). -/
inductive ReachableNoInvalidate [LineData V] :
    LockableAssociativeArray T V setcount waycount linesize → Prop where
  | reset (s0 : LockableAssociativeArray T V setcount waycount linesize) :
      ReachableNoInvalidate (LockableAssociativeArray.reset s0)
  | probe (s s1 : LockableAssociativeArray T V setcount waycount linesize) (addr : Nat)
      (line : Option Int) :
      ReachableNoInvalidate s → s.probe addr = some (s1, line) → ReachableNoInvalidate s1
  | select (s s1 : LockableAssociativeArray T V setcount waycount linesize)
      (addr oldaddr oldaddr1 : Nat) (line : Option Int) :
      ReachableNoInvalidate s → s.select addr oldaddr = some (s1, line, oldaddr1) →
      ReachableNoInvalidate s1
  | select_and_lock (s s1 : LockableAssociativeArray T V setcount waycount linesize)
      (addr : Nat) (firstlock firstlock1 : Bool) (line : Option Int) :
      ReachableNoInvalidate s →
      s.select_and_lock addr firstlock = some (s1, line, firstlock1) →
      ReachableNoInvalidate s1
  | unlock_all (s s1 : LockableAssociativeArray T V setcount waycount linesize) :
      ReachableNoInvalidate s → s.unlock_all = some s1 → ReachableNoInvalidate s1
  | unlock_all_and_invalidate
      (s s1 : LockableAssociativeArray T V setcount waycount linesize) :
      ReachableNoInvalidate s → s.unlock_all_and_invalidate = some s1 →
      ReachableNoInvalidate s1

/-- The clear-list has no entry twice, and its entries are exactly the pairs
(set, way) of the locked ways. -/
def ClearExact (s : LockableAssociativeArray T V setcount waycount linesize) : Prop :=
  s.clearlist.Nodup ∧
  (∀ p ∈ s.clearlist, p.1 < setcount ∧ p.2 < waycount) ∧
  ∀ (si : Fin setcount) (wi : Fin waycount),
    (si.val, wi.val) ∈ s.clearlist ↔ (s.sets si).tags.unlockedmap wi = false

end LockableAssociativeArray

/-- A `FullyAssociativeTags<W64, 3>` after `reset()`. -/
def exR0 : FullyAssociativeTags .W64 3 := FullyAssociativeTags.reset

/-- The table `exR0` after `select(10)`. -/
def exR1 : FullyAssociativeTags .W64 3 := stateOf (exR0.select 10 0) exR0

/-- The table `exR1` after `select(20)`. -/
def exR2 : FullyAssociativeTags .W64 3 := stateOf (exR1.select 20 0) exR1

/-- The table `exR2` after `select(30)`: the three ways hold 10, 20, 30 and
every MRU bit is set. -/
def exR3 : FullyAssociativeTags .W64 3 := stateOf (exR2.select 30 0) exR2

/-- The table `exR3` after `select(40)`: the bitmap was swept, way 0 holds 40
and only its MRU bit is set. -/
def exR4 : FullyAssociativeTags .W64 3 := stateOf (exR3.select 40 0) exR3

/-- The table `exR4` after `invalidate(30)`: way 2 is unoccupied. -/
def exR5 : FullyAssociativeTags .W64 3 := stateOf (exR4.invalidate 30) exR4

/-! ## AssociativeArray: address decomposition -/

namespace AssociativeArray

/-- The static method `setof(addr)` of `AssociativeArray`. -/
def setof (setcount linesize : Nat) (addr : Nat) : Int :=
  (bits addr (log2 linesize) (log2 setcount) : Nat)

/-- The static method `tagof(addr)` of `AssociativeArray`. -/
def tagof (linesize : Nat) (addr : Nat) : Nat := floor addr linesize

end AssociativeArray

/-! ## Lemmas on indices, the matching loop and bitmaps -/

theorem index?_coe {n : Nat} (i : Fin n) : index? n (i.val : Int) = some i := by
  have h : 0 ≤ (i.val : Int) ∧ (i.val : Int) < (n : Int) := ⟨by omega, by omega⟩
  simp [index?, h]

theorem index?_eq_some {n : Nat} {w : Int} {i : Fin n} (h : index? n w = some i) :
    w = (i.val : Int) := by
  unfold index? at h
  split at h
  · rename_i hw
    simp only [Option.some.injEq] at h
    subst h
    simp only [Int.toNat_of_nonneg hw.1]
  · simp at h

theorem index?_zero (w : Int) : index? 0 w = none := by
  unfold index?
  have : ¬ (0 ≤ w ∧ w < ((0 : Nat) : Int)) := by omega
  simp [this]

theorem index?_neg {n : Nat} {w : Int} (h : w < 0) : index? n w = none := by
  unfold index?
  have : ¬ (0 ≤ w ∧ w < (n : Int)) := by omega
  simp [this]

theorem matchLoop_ge {n : Nat} (tags : Fin n → Nat) (target : Nat) (l : List (Fin n))
    (acc : Int) : acc ≤ l.foldl (matchStep tags target) acc := by
  induction l generalizing acc with
  | nil => simp
  | cons a l ih =>
    simp only [List.foldl_cons]
    refine le_trans ?_ (ih _)
    unfold matchStep
    split <;> omega

theorem matchLoop_absent {n : Nat} (tags : Fin n → Nat) (target : Nat) (l : List (Fin n))
    (acc : Int) (h : ∀ i ∈ l, tags i ≠ target) :
    l.foldl (matchStep tags target) acc = acc := by
  induction l generalizing acc with
  | nil => simp
  | cons a l ih =>
    simp only [List.foldl_cons]
    rw [ih _ (fun i hi => h i (List.mem_cons_of_mem _ hi))]
    simp [matchStep, h a (List.mem_cons_self _ _)]

theorem matchLoop_unique {n : Nat} (tags : Fin n → Nat) (target : Nat) (k : Fin n)
    (hk : tags k = target) (l : List (Fin n)) (acc : Int) (hnd : l.Nodup) (hmem : k ∈ l)
    (hu : ∀ i ∈ l, tags i = target → i = k) :
    l.foldl (matchStep tags target) acc = acc + (k.val : Int) + 1 := by
  induction l generalizing acc with
  | nil => simp at hmem
  | cons a l ih =>
    simp only [List.foldl_cons]
    rw [List.nodup_cons] at hnd
    by_cases hak : a = k
    · subst hak
      rw [matchLoop_absent]
      · simp [matchStep, hk]; omega
      · intro i hi hti
        have := hu i (List.mem_cons_of_mem _ hi) hti
        subst this
        exact hnd.1 hi
    · have hkl : k ∈ l := by
        rcases List.mem_cons.1 hmem with h | h
        · exact absurd h.symm hak
        · exact h
      rw [ih _ hnd.2 hkl (fun i hi => hu i (List.mem_cons_of_mem _ hi))]
      have : tags a ≠ target := fun h => hak (hu a (List.mem_cons_self _ _) h)
      simp [matchStep, this]

theorem matchLoop_present {n : Nat} (tags : Fin n → Nat) (target : Nat) (k : Fin n)
    (hk : tags k = target) (l : List (Fin n)) (acc : Int) (hmem : k ∈ l) :
    acc + 1 ≤ l.foldl (matchStep tags target) acc := by
  induction l generalizing acc with
  | nil => simp at hmem
  | cons a l ih =>
    simp only [List.foldl_cons]
    rcases List.mem_cons.1 hmem with h | h
    · subst h
      refine le_trans ?_ (matchLoop_ge _ _ _ _)
      simp [matchStep, hk]
    · refine le_trans ?_ (ih _ h)
      have := matchLoop_ge tags target [a] acc
      simp only [List.foldl_cons, List.foldl_nil] at this
      omega

theorem matchResult_absent {n : Nat} (tags : Fin n → Nat) (target : Nat)
    (h : ∀ i, tags i ≠ target) : matchResult tags target = -1 := by
  unfold matchResult
  rw [matchLoop_absent _ _ _ _ (fun i _ => h i)]
  rfl

theorem matchResult_unique {n : Nat} (tags : Fin n → Nat) (target : Nat) (k : Fin n)
    (hk : tags k = target) (hu : ∀ i, tags i = target → i = k) :
    matchResult tags target = (k.val : Int) := by
  unfold matchResult
  rw [matchLoop_unique tags target k hk _ _ (List.nodup_finRange n) (List.mem_finRange k)
    (fun i _ => hu i)]
  omega

theorem matchResult_present {n : Nat} (tags : Fin n → Nat) (target : Nat) (k : Fin n)
    (hk : tags k = target) : 0 ≤ matchResult tags target := by
  unfold matchResult
  have := matchLoop_present tags target k hk (List.finRange n) 0 (List.mem_finRange k)
  omega

theorem matchResult_neg_iff {n : Nat} (tags : Fin n → Nat) (target : Nat) :
    matchResult tags target < 0 ↔ ∀ i, tags i ≠ target := by
  constructor
  · intro h i hi
    have := matchResult_present tags target i hi
    omega
  · intro h
    rw [matchResult_absent tags target h]
    decide

namespace bitvec

variable {N : Nat}

theorem lsb_eq (b : bitvec N) (k : Fin N) (hk : b k = true) (hmin : ∀ j, b j = true → k ≤ j) :
    b.lsb = (k.val : Int) := by
  unfold lsb
  have : Fin.find (fun i => b i = true) = some k := Fin.find_eq_some_iff.2 ⟨hk, hmin⟩
  rw [this]

theorem exists_lowest (b : bitvec N) (h : ∃ i, b i = true) :
    ∃ k, b k = true ∧ ∀ j, b j = true → k ≤ j := by
  have hs : (Fin.find (fun i => b i = true)).isSome = true := Fin.isSome_find_iff.2 h
  obtain ⟨k, hk⟩ := Option.isSome_iff_exists.1 hs
  exact ⟨k, Fin.find_eq_some_iff.1 hk⟩

theorem allset_eq_true (b : bitvec N) : b.allset = true ↔ ∀ i, b i = true := by
  simp [allset]

theorem nonzero_eq_true (b : bitvec N) : b.nonzero = true ↔ ∃ i, b i = true := by
  simp [nonzero]

theorem iszero_eq_true (b : bitvec N) : b.iszero = true ↔ ∀ i, b i = false := by
  simp [iszero, nonzero]

end bitvec

/-! ## FullyAssociativeTags: how the operations act -/

namespace FullyAssociativeTags

variable {T : TagType} {ways : Nat}

theorem match__eq (s : FullyAssociativeTags T ways) (t : Nat) :
    s.match_ t = matchResult s.tags t := rfl

theorem use_coe (s : FullyAssociativeTags T ways) (k : Fin ways) :
    s.use (k.val : Int) = some { s with evictmap := s.evictmap.set k true } := by
  simp [use, index?_coe]

theorem probe_absent (s : FullyAssociativeTags T ways) (t : Nat) (h : ∀ i, s.tags i ≠ t) :
    s.probe t = some (s, -1) := by
  simp [probe, match__eq, matchResult_absent s.tags t h]

theorem probe_unique (s : FullyAssociativeTags T ways) (t : Nat) (k : Fin ways)
    (hk : s.tags k = t) (hu : ∀ i, s.tags i = t → i = k) :
    s.probe t = some ({ s with evictmap := s.evictmap.set k true }, (k.val : Int)) := by
  have h0 : ¬ ((k.val : Int) < 0) := by omega
  simp [probe, match__eq, matchResult_unique s.tags t k hk hu, use_coe, h0]

theorem probe_tags (s s1 : FullyAssociativeTags T ways) (t : Nat) (w : Int)
    (h : s.probe t = some (s1, w)) : s1.tags = s.tags := by
  unfold probe at h
  simp only at h
  split at h
  · simp only [Option.some.injEq, Prod.mk.injEq] at h
    rw [← h.1]
  · unfold use at h
    split at h
    · rename_i s2 hs2
      split at hs2
      · simp only [Option.some.injEq] at hs2
        simp only [Option.some.injEq, Prod.mk.injEq] at h
        rw [← h.1, ← hs2]
      · simp at hs2
    · simp at h

theorem select_hit (s : FullyAssociativeTags T ways) (t oldtag : Nat) (k : Fin ways)
    (hk : s.tags k = t) (hu : ∀ i, s.tags i = t → i = k) :
    s.select t oldtag
      = some ({ s with evictmap := s.evictmap.set k true }, (k.val : Int), oldtag) := by
  have h0 : ¬ ((k.val : Int) < 0) := by omega
  simp [select, probe_unique s t k hk hu, h0, use_coe, bitvec.set]

theorem select_miss (s : FullyAssociativeTags T ways) (t oldtag : Nat)
    (h : ∀ i, s.tags i ≠ t) (k : Fin ways) (hl : s.lru = (k.val : Int)) :
    s.select t oldtag
      = some ({ evictmap := (if s.evictmap.allset then bitvec.zero else s.evictmap).set k true
                tags := Function.update s.tags k t }, (k.val : Int), s.tags k) := by
  simp only [select, probe_absent s t h, hl, index?_coe]
  by_cases ha : s.evictmap.allset = true <;> simp [ha, use_coe]

theorem lru_spec (s : FullyAssociativeTags T ways) (hw : 0 < ways) :
    ∃ k : Fin ways, s.lru = (k.val : Int) ∧
      (s.evictmap.allset = true → k = ⟨0, hw⟩) ∧
      (s.evictmap.allset = false → s.evictmap k = false ∧ ∀ j, s.evictmap j = false → k ≤ j) := by
  by_cases ha : s.evictmap.allset = true
  · exact ⟨⟨0, hw⟩, by simp [lru, ha], fun _ => rfl, fun h => by simp [ha] at h⟩
  · have hne : ∃ i, s.evictmap.not i = true := by
      by_contra hcon
      apply ha
      rw [bitvec.allset_eq_true]
      intro i
      by_contra hi
      exact hcon ⟨i, by simpa [bitvec.not] using hi⟩
    obtain ⟨k, hk, hmin⟩ := bitvec.exists_lowest _ hne
    refine ⟨k, ?_, fun h => absurd h ha, fun _ => ⟨by simpa [bitvec.not] using hk, ?_⟩⟩
    · simp [lru, ha, bitvec.lsb_eq _ k hk hmin]
    · intro j hj
      exact hmin j (by simpa [bitvec.not] using hj)

theorem select_tags_cases (s s1 : FullyAssociativeTags T ways) (t oldtag oldtag1 : Nat)
    (w : Int) (hinv : s.Assoc) (ht : t ≠ INVALID T)
    (h : s.select t oldtag = some (s1, w, oldtag1)) :
    (s1.tags = s.tags) ∨ ((∀ i, s.tags i ≠ t) ∧ ∃ k, s1.tags = Function.update s.tags k t) := by
  by_cases hp : ∃ k, s.tags k = t
  · obtain ⟨k, hk⟩ := hp
    have hu : ∀ i, s.tags i = t → i = k := fun i hi =>
      hinv i k (hi.trans hk.symm) (by rw [hi]; exact ht)
    rw [select_hit s t oldtag k hk hu] at h
    simp only [Option.some.injEq, Prod.mk.injEq] at h
    left
    rw [← h.1]
  · have habs : ∀ i, s.tags i ≠ t := fun i hi => hp ⟨i, hi⟩
    rcases Nat.eq_zero_or_pos ways with h0 | hw
    · subst h0
      left
      funext i
      exact i.elim0
    · obtain ⟨k, hl, -, -⟩ := lru_spec s hw
      rw [select_miss s t oldtag habs k hl] at h
      simp only [Option.some.injEq, Prod.mk.injEq] at h
      exact Or.inr ⟨habs, k, by rw [← h.1]⟩

theorem Assoc_update (s : FullyAssociativeTags T ways) (t : Nat) (k : Fin ways)
    (hinv : s.Assoc) (habs : ∀ i, s.tags i ≠ t) (tags1 : Fin ways → Nat)
    (h1 : tags1 = Function.update s.tags k t) :
    ∀ i j, tags1 i = tags1 j → tags1 i ≠ INVALID T → i = j := by
  subst h1
  intro i j hij hne
  by_cases hi : i = k <;> by_cases hj : j = k
  · rw [hi, hj]
  · subst hi
    rw [Function.update_same, Function.update_noteq hj] at hij
    exact absurd hij.symm (habs j)
  · subst hj
    rw [Function.update_same, Function.update_noteq hi] at hij
    exact absurd hij (habs i)
  · rw [Function.update_noteq hi, Function.update_noteq hj] at hij
    rw [Function.update_noteq hi] at hne
    exact hinv i j hij hne

theorem Assoc_invalidate_way (s s1 : FullyAssociativeTags T ways) (w : Int) (hinv : s.Assoc)
    (h : s.invalidate_way w = some s1) : s1.Assoc := by
  unfold invalidate_way at h
  split at h
  · rename_i k _
    simp only [Option.some.injEq] at h
    subst h
    intro i j hij hne
    simp only at hij hne
    by_cases hi : i = k
    · subst hi
      rw [Function.update_same] at hne
      exact absurd rfl hne
    · by_cases hj : j = k
      · subst hj
        rw [Function.update_same] at hij
        exact absurd hij hne
      · rw [Function.update_noteq hi, Function.update_noteq hj] at hij
        rw [Function.update_noteq hi] at hne
        exact hinv i j hij hne
  · simp at h

theorem Assoc_of_tags_eq (s s1 : FullyAssociativeTags T ways) (hinv : s.Assoc)
    (h : s1.tags = s.tags) : s1.Assoc := by
  intro i j hij hne
  rw [h] at hij hne
  exact hinv i j hij hne

end FullyAssociativeTags

/-! ## FullyAssociativeTags: main results -/

namespace FullyAssociativeTags

variable {T : TagType} {ways : Nat}

/-- C1: in every state reachable from `reset()` by `select`, `probe` and
`invalidate` calls with tags other than the sentinel, no two distinct ways
hold the same tag other than the sentinel (the associativity invariant
`Assoc`). -/
theorem C1_reachable_assoc (s : FullyAssociativeTags T ways) (h : Reachable s) : s.Assoc := by
  induction h with
  | reset =>
    intro i j _ hne
    exact absurd rfl hne
  | select s s1 t oldtag oldtag1 way _ ht hsel ih =>
    rcases select_tags_cases s s1 t oldtag oldtag1 way ih ht hsel with h | ⟨habs, k, hk⟩
    · exact Assoc_of_tags_eq s s1 ih h
    · exact Assoc_update s t k ih habs s1.tags hk
  | probe s s1 t way _ _ hp ih =>
    exact Assoc_of_tags_eq s s1 ih (probe_tags s s1 t way hp)
  | invalidate s s1 t way _ _ hi ih =>
    unfold invalidate at hi
    split at hi
    · simp at hi
    · rename_i s2 w hp
      have h2 : s2.Assoc := Assoc_of_tags_eq s s2 ih (probe_tags s s2 t w hp)
      split at hi
      · simp only [Option.some.injEq, Prod.mk.injEq] at hi
        rw [← hi.1]
        exact h2
      · split at hi
        · rename_i s3 hs3
          simp only [Option.some.injEq, Prod.mk.injEq] at hi
          rw [← hi.1]
          exact Assoc_invalidate_way s2 s3 w h2 hs3
        · simp at hi

/-- C1, at a concrete state: the four-way table after `reset()`, `select(10)`
and `select(20)` is reachable and satisfies the associativity invariant. -/
theorem C1_reachable_assoc_witness : Reachable ex4b ∧ ex4b.Assoc :=
  have hr : Reachable ex4b :=
    Reachable.select ex4a ex4b 20 0 (InvalidTag.INVALID .W64) 1
      (Reachable.select reset ex4a 10 0 (InvalidTag.INVALID .W64) 0 Reachable.reset
        (by decide) rfl)
      (by decide) rfl
  ⟨hr, C1_reachable_assoc ex4b hr⟩

/-- C2: when `target` is held by no way and some MRU bit is clear,
`select(target, oldtag)` returns the lowest-index way `k` whose bit is clear,
leaves that way's previous tag in `oldtag`, stores `target` in way `k`, sets
the bit of way `k`, and changes no other tag and no other bit. -/
theorem C2_select_victim (s : FullyAssociativeTags T ways) (target oldtag : Nat)
    (habs : ∀ i, s.tags i ≠ target) (hclear : ∃ i, s.evictmap i = false) :
    ∃ k : Fin ways, s.evictmap k = false ∧ (∀ j, s.evictmap j = false → k ≤ j) ∧
      s.select target oldtag
        = some ({ evictmap := Function.update s.evictmap k true
                  tags := Function.update s.tags k target }, (k.val : Int), s.tags k) := by
  obtain ⟨i0, hi0⟩ := hclear
  have hw : 0 < ways := Nat.lt_of_le_of_lt (Nat.zero_le _) i0.isLt
  have hna : s.evictmap.allset = false := by
    cases ha : s.evictmap.allset
    · rfl
    · rw [bitvec.allset_eq_true] at ha
      rw [ha i0] at hi0
      exact absurd hi0 (by decide)
  obtain ⟨k, hl, -, hk⟩ := lru_spec s hw
  obtain ⟨hk1, hk2⟩ := hk hna
  refine ⟨k, hk1, hk2, ?_⟩
  rw [select_miss s target oldtag habs k hl]
  simp [hna, bitvec.set]

/-- C2, at the instance of the spec: with ways holding 10, 20, 30, 40 and a
clear bitmap, `select(50)` returns way 0 and reports the old tag 10, and way 0
is the lowest way with a clear bit. -/
theorem C2_select_victim_witness :
    (∀ i, ex4.tags i ≠ 50) ∧ (∃ i, ex4.evictmap i = false) ∧
    ex4.select 50 0 = some (ex4c, 0, 10) ∧
    ∃ k : Fin 4, ex4.evictmap k = false ∧ (∀ j, ex4.evictmap j = false → k ≤ j) ∧
      ex4.select 50 0
        = some ({ evictmap := Function.update ex4.evictmap k true
                  tags := Function.update ex4.tags k 50 }, (k.val : Int), ex4.tags k) :=
  ⟨by decide, ⟨0, rfl⟩, rfl, C2_select_victim ex4 50 0 (by decide) ⟨0, rfl⟩⟩

/-- C3: when every MRU bit is set and `target` is held by no way,
`select(target, oldtag)` clears the bitmap and evicts way 0: it returns 0,
reports the previous tag of way 0, stores `target` in way 0, and afterwards
the bit of way 0 is the only bit set. -/
theorem C3_select_sweep (s : FullyAssociativeTags T ways) (target oldtag : Nat)
    (hw : 0 < ways) (hall : ∀ i, s.evictmap i = true) (habs : ∀ i, s.tags i ≠ target) :
    s.select target oldtag
      = some ({ evictmap := Function.update bitvec.zero ⟨0, hw⟩ true
                tags := Function.update s.tags ⟨0, hw⟩ target }, 0, s.tags ⟨0, hw⟩) := by
  have ha : s.evictmap.allset = true := (bitvec.allset_eq_true _).2 hall
  obtain ⟨k, hl, hk, -⟩ := lru_spec s hw
  have hk0 := hk ha
  subst hk0
  rw [select_miss s target oldtag habs _ hl]
  simp [ha, bitvec.set]

/-- C3, at a concrete state: four ways holding 10, 20, 30, 40 with every MRU
bit set, and `select(50)`. -/
theorem C3_select_sweep_witness :
    (0 < 4) ∧ (∀ i, ex4full.evictmap i = true) ∧ (∀ i, ex4full.tags i ≠ 50) ∧
    ex4full.select 50 0
      = some ({ evictmap := Function.update bitvec.zero ⟨0, by decide⟩ true
                tags := Function.update ex4full.tags ⟨0, by decide⟩ 50 }, 0,
              ex4full.tags ⟨0, by decide⟩) :=
  ⟨by decide, by decide, by decide,
    C3_select_sweep ex4full 50 0 (by decide) (by decide) (by decide)⟩

/-- C4: in a state satisfying the associativity invariant, for a tag `t`
other than the sentinel, if `select(t)` returns way `w` then a `probe(t)` right
after it returns the same `w` and leaves the table (tags and eviction bitmap)
as it is. -/
theorem C4_select_then_probe (s s1 : FullyAssociativeTags T ways) (t oldtag oldtag1 : Nat)
    (w : Int) (hinv : s.Assoc) (ht : t ≠ INVALID T)
    (h : s.select t oldtag = some (s1, w, oldtag1)) :
    s1.probe t = some (s1, w) := by
  by_cases hp : ∃ k, s.tags k = t
  · obtain ⟨k, hk⟩ := hp
    have hu : ∀ i, s.tags i = t → i = k := fun i hi =>
      hinv i k (hi.trans hk.symm) (by rw [hi]; exact ht)
    rw [select_hit s t oldtag k hk hu] at h
    simp only [Option.some.injEq, Prod.mk.injEq] at h
    obtain ⟨h1, h2, -⟩ := h
    subst h1 h2
    rw [probe_unique { s with evictmap := s.evictmap.set k true } t k hk hu]
    simp [bitvec.set]
  · have habs : ∀ i, s.tags i ≠ t := fun i hi => hp ⟨i, hi⟩
    rcases Nat.eq_zero_or_pos ways with h0 | hw
    · subst h0
      simp [select, probe_absent s t habs, index?_zero] at h
    · obtain ⟨k, hl, -, -⟩ := lru_spec s hw
      rw [select_miss s t oldtag habs k hl] at h
      simp only [Option.some.injEq, Prod.mk.injEq] at h
      obtain ⟨h1, h2, -⟩ := h
      subst h1 h2
      have hk : Function.update s.tags k t k = t := Function.update_same _ _ _
      have hu : ∀ i, Function.update s.tags k t i = t → i = k := by
        intro i hi
        by_contra hne
        rw [Function.update_noteq hne] at hi
        exact habs i hi
      rw [probe_unique _ t k hk hu]
      simp [bitvec.set]

/-- C4, at a concrete state: `select(50)` on the table holding 10, 20, 30, 40
returns way 0, and so does the `probe(50)` after it. -/
theorem C4_select_then_probe_witness :
    ex4.Assoc ∧ (50 ≠ INVALID TagType.W64) ∧ ex4.select 50 0 = some (ex4c, 0, 10) ∧
    ex4c.probe 50 = some (ex4c, 0) :=
  have hinv : ex4.Assoc := by unfold Assoc; decide
  ⟨hinv, by decide, rfl, C4_select_then_probe ex4 ex4c 50 0 10 0 hinv (by decide) rfl⟩

end FullyAssociativeTags

/-! ## LockableFullyAssociativeTags: how the operations act -/

namespace LockableFullyAssociativeTags

variable {T : TagType} {ways : Nat}

theorem lmatch__eq (s : LockableFullyAssociativeTags T ways) (t : Nat) :
    s.match_ t = matchResult s.tags t := rfl

theorem use_of_index (s : LockableFullyAssociativeTags T ways) (w : Int) (k : Fin ways)
    (h : index? ways w = some k) :
    s.use w = some { s with evictmap := s.evictmap.set k true } := by
  simp [use, h]

theorem lock_of_index (s : LockableFullyAssociativeTags T ways) (w : Int) (k : Fin ways)
    (h : index? ways w = some k) :
    s.lock w = some { s with unlockedmap := s.unlockedmap.set k false } := by
  simp [lock, h]

theorem lprobe_absent (s : LockableFullyAssociativeTags T ways) (t : Nat)
    (h : ∀ i, s.tags i ≠ t) : s.probe t = some (s, -1) := by
  simp [probe, lmatch__eq, matchResult_absent s.tags t h]

theorem probe_hit (s : LockableFullyAssociativeTags T ways) (t : Nat) (k : Fin ways)
    (hm : matchResult s.tags t = (k.val : Int)) :
    s.probe t = some ({ s with evictmap := s.evictmap.set k true }, (k.val : Int)) := by
  have h0 : ¬ ((k.val : Int) < 0) := by omega
  simp [probe, lmatch__eq, hm, h0, use_of_index s _ k (index?_coe k)]

theorem probe_cases (s s1 : LockableFullyAssociativeTags T ways) (t : Nat) (w : Int)
    (h : s.probe t = some (s1, w)) :
    (matchResult s.tags t < 0 ∧ s1 = s ∧ w = -1) ∨
    (∃ k : Fin ways, matchResult s.tags t = (k.val : Int) ∧ w = (k.val : Int) ∧
      s1 = { s with evictmap := s.evictmap.set k true }) := by
  unfold probe at h
  simp only [lmatch__eq] at h
  split at h
  · rename_i hneg
    simp only [Option.some.injEq, Prod.mk.injEq] at h
    exact Or.inl ⟨hneg, h.1.symm, h.2.symm⟩
  · unfold use at h
    split at h
    · rename_i s2 hs2
      split at hs2
      · rename_i k hk
        simp only [Option.some.injEq] at hs2
        simp only [Option.some.injEq, Prod.mk.injEq] at h
        have hw := index?_eq_some hk
        exact Or.inr ⟨k, hw, by rw [← h.2]; exact hw, by rw [← h.1, ← hs2]⟩
      · simp at hs2
    · simp at h

theorem lselect_hit (s : LockableFullyAssociativeTags T ways) (t oldtag : Nat) (k : Fin ways)
    (hm : matchResult s.tags t = (k.val : Int)) :
    s.select t oldtag
      = some ({ s with evictmap := s.evictmap.set k true }, (k.val : Int), oldtag) := by
  have h0 : ¬ ((k.val : Int) < 0) := by omega
  simp [select, probe_hit s t k hm, h0, use_of_index _ _ k (index?_coe k), bitvec.set]

theorem select_miss_none (s : LockableFullyAssociativeTags T ways) (t oldtag : Nat)
    (h : ∀ i, s.tags i ≠ t) (hl : s.lru < 0) :
    s.select t oldtag = some (s, -1, oldtag) := by
  simp [select, lprobe_absent s t h, hl]

theorem lselect_miss (s : LockableFullyAssociativeTags T ways) (t oldtag : Nat)
    (h : ∀ i, s.tags i ≠ t) (k : Fin ways) (hl : s.lru = (k.val : Int)) :
    s.select t oldtag
      = some ({ evictmap := (if s.evictmap.allset then bitvec.zero else s.evictmap).set k true
                unlockedmap := s.unlockedmap
                tags := Function.update s.tags k t }, (k.val : Int), s.tags k) := by
  have h0 : ¬ ((k.val : Int) < 0) := by omega
  simp only [select, lprobe_absent s t h, hl, index?_coe]
  by_cases ha : s.evictmap.allset = true <;>
    simp [ha, h0, use_of_index _ _ k (index?_coe k)]

theorem lru_ge_neg_one (s : LockableFullyAssociativeTags T ways) : -1 ≤ s.lru := by
  unfold lru
  split
  · exact le_refl _
  · simp only
    split
    · unfold bitvec.lsb
      split <;> omega
    · decide

theorem lru_cases (s : LockableFullyAssociativeTags T ways) :
    (s.lru = -1 ∧ ∀ i, s.unlockedmap i = false) ∨
    (∃ k : Fin ways, s.lru = (k.val : Int)) := by
  unfold lru
  split
  · rename_i hz
    exact Or.inl ⟨rfl, (bitvec.iszero_eq_true _).1 hz⟩
  · rename_i hz
    have hne : ∃ i, s.unlockedmap i = true := by
      by_contra hcon
      apply hz
      rw [bitvec.iszero_eq_true]
      intro i
      by_contra hi
      exact hcon ⟨i, by simpa using hi⟩
    obtain ⟨i0, -⟩ := hne
    have hw : 0 < ways := Nat.lt_of_le_of_lt (Nat.zero_le _) i0.isLt
    right
    simp only
    split
    · rename_i hnz
      obtain ⟨k, hk, hmin⟩ := bitvec.exists_lowest _ ((bitvec.nonzero_eq_true _).1 hnz)
      exact ⟨k, bitvec.lsb_eq _ k hk hmin⟩
    · exact ⟨⟨0, hw⟩, rfl⟩

/-- The three branches of `lru()`: every way locked; some unlocked way with a
clear MRU bit, and then the lowest of them; some way unlocked but none of them
with a clear MRU bit, and then way 0. -/
theorem lru_victim (s : LockableFullyAssociativeTags T ways) :
    (s.lru = -1 ∧ ∀ i, s.unlockedmap i = false) ∨
    (∃ k : Fin ways, s.lru = (k.val : Int) ∧ s.unlockedmap k = true ∧ s.evictmap k = false ∧
      ∀ j, s.unlockedmap j = true → s.evictmap j = false → k ≤ j) ∨
    (∃ hw : 0 < ways, s.lru = ((⟨0, hw⟩ : Fin ways).val : Int) ∧
      (∀ j, s.unlockedmap j = true → s.evictmap j = true) ∧ ∃ j, s.unlockedmap j = true) := by
  unfold lru
  split
  · rename_i hz
    exact Or.inl ⟨rfl, (bitvec.iszero_eq_true _).1 hz⟩
  · rename_i hz
    have hne : ∃ i, s.unlockedmap i = true := by
      by_contra hcon
      apply hz
      rw [bitvec.iszero_eq_true]
      intro i
      by_contra hi
      exact hcon ⟨i, by simpa using hi⟩
    obtain ⟨i0, hi0⟩ := hne
    have hw : 0 < ways := Nat.lt_of_le_of_lt (Nat.zero_le _) i0.isLt
    right
    simp only
    split
    · rename_i hnz
      left
      obtain ⟨k, hk, hmin⟩ := bitvec.exists_lowest _ ((bitvec.nonzero_eq_true _).1 hnz)
      have hk2 : s.evictmap k = false ∧ s.unlockedmap k = true := by
        simpa [bitvec.and, bitvec.not] using hk
      refine ⟨k, bitvec.lsb_eq _ k hk hmin, hk2.2, hk2.1, ?_⟩
      intro j hju hje
      exact hmin j (by simp [bitvec.and, bitvec.not, hju, hje])
    · rename_i hnz
      right
      refine ⟨hw, rfl, ?_, ⟨i0, hi0⟩⟩
      intro j hj
      by_contra hje
      apply hnz
      rw [bitvec.nonzero_eq_true]
      exact ⟨j, by simpa [bitvec.and, bitvec.not, hj] using hje⟩

/-- What a successful `select` leaves: the lock bitmap is as before and the
matching loop finds the returned way. -/
theorem select_spec (s s1 : LockableFullyAssociativeTags T ways) (t oldtag oldtag1 : Nat)
    (w : Int) (h : s.select t oldtag = some (s1, w, oldtag1)) :
    s1.unlockedmap = s.unlockedmap ∧
    ((w = -1 ∧ s1 = s ∧ oldtag1 = oldtag ∧ (∀ i, s.tags i ≠ t) ∧ s.lru = -1) ∨
     (∃ k : Fin ways, w = (k.val : Int) ∧ matchResult s1.tags t = (k.val : Int) ∧
        s1.evictmap k = true)) := by
  by_cases hm : matchResult s.tags t < 0
  · have habs := (matchResult_neg_iff _ _).1 hm
    rcases lru_cases s with ⟨hl, -⟩ | ⟨k, hl⟩
    · rw [select_miss_none s t oldtag habs (by rw [hl]; decide)] at h
      simp only [Option.some.injEq, Prod.mk.injEq] at h
      obtain ⟨h1, h2, h3⟩ := h
      subst h1
      exact ⟨rfl, Or.inl ⟨h2.symm, rfl, h3.symm, habs, hl⟩⟩
    · rw [lselect_miss s t oldtag habs k hl] at h
      simp only [Option.some.injEq, Prod.mk.injEq] at h
      obtain ⟨h1, h2, -⟩ := h
      subst h1
      refine ⟨rfl, Or.inr ⟨k, h2.symm, ?_, by simp [bitvec.set]⟩⟩
      apply matchResult_unique
      · exact Function.update_same _ _ _
      · intro i hi
        by_contra hne
        simp only at hi
        rw [Function.update_noteq hne] at hi
        exact habs i hi
  · cases hp : s.probe t with
    | none => simp [select, hp] at h
    | some r =>
      obtain ⟨s2, w2⟩ := r
      rcases probe_cases s s2 t w2 hp with ⟨hneg, -, -⟩ | ⟨k, hk, -, -⟩
      · exact absurd hneg hm
      · rw [lselect_hit s t oldtag k hk] at h
        simp only [Option.some.injEq, Prod.mk.injEq] at h
        obtain ⟨h1, h2, -⟩ := h
        subst h1
        exact ⟨rfl, Or.inr ⟨k, h2.symm, hk, by simp [bitvec.set]⟩⟩

theorem select_and_lock_hit (s : LockableFullyAssociativeTags T ways) (t oldtag : Nat)
    (firstlock : Bool) (k : Fin ways) (hm : matchResult s.tags t = (k.val : Int)) :
    s.select_and_lock t firstlock oldtag
      = some ({ s with evictmap := s.evictmap.set k true
                       unlockedmap := s.unlockedmap.set k false },
              (k.val : Int), s.unlockedmap k, oldtag) := by
  have h0 : ¬ ((k.val : Int) < 0) := by omega
  simp [select_and_lock, lselect_hit s t oldtag k hm, h0, index?_coe,
    lock_of_index _ _ k (index?_coe k)]

/-- What a successful `select_and_lock` leaves. -/
theorem select_and_lock_spec (s s1 : LockableFullyAssociativeTags T ways) (t oldtag oldtag1 : Nat)
    (firstlock firstlock1 : Bool) (w : Int)
    (h : s.select_and_lock t firstlock oldtag = some (s1, w, firstlock1, oldtag1)) :
    (w = -1 ∧ s1 = s ∧ firstlock1 = firstlock ∧ oldtag1 = oldtag) ∨
    (∃ k : Fin ways, w = (k.val : Int) ∧ firstlock1 = s.unlockedmap k ∧
      s1.unlockedmap = Function.update s.unlockedmap k false ∧
      matchResult s1.tags t = (k.val : Int)) := by
  unfold select_and_lock at h
  split at h
  · simp at h
  · rename_i s2 w2 old2 hsel
    obtain ⟨hun, hc⟩ := select_spec s s2 t oldtag old2 w2 hsel
    rcases hc with ⟨hw, hs, ho, -, -⟩ | ⟨k, hw, hmr, -⟩
    · subst hw hs ho
      simp only [Int.reduceNeg, Int.reduceLT, ↓reduceIte, Option.some.injEq, Prod.mk.injEq] at h
      obtain ⟨h1, h2, h3, h4⟩ := h
      exact Or.inl ⟨h2.symm, h1.symm, h3.symm, h4.symm⟩
    · subst hw
      have h0 : ¬ ((k.val : Int) < 0) := by omega
      simp only [h0, ↓reduceIte, index?_coe, lock_of_index _ _ k (index?_coe k),
        Option.some.injEq, Prod.mk.injEq] at h
      obtain ⟨h1, h2, h3, -⟩ := h
      subst h1
      refine Or.inr ⟨k, h2.symm, ?_, ?_, hmr⟩
      · rw [← h3, hun]
      · simp [bitvec.set, hun]

end LockableFullyAssociativeTags

/-! ## Absent tags, locked ways, first locks: main results -/

/-- C5: for a tag `t` held by no way, `probe(t)` and `invalidate(t)` return
`-1` and leave the table as it is (tags, eviction bitmap and, in the lockable
table, the unlocked bitmap), in `FullyAssociativeTags` and in
`LockableFullyAssociativeTags`. -/
theorem C5_absent_not_found {T T2 : TagType} {ways ways2 : Nat}
    (s : FullyAssociativeTags T ways) (ls : LockableFullyAssociativeTags T2 ways2) (t : Nat)
    (h : ∀ i, s.tags i ≠ t) (hl : ∀ i, ls.tags i ≠ t) :
    s.probe t = some (s, -1) ∧ s.invalidate t = some (s, -1) ∧
    ls.probe t = some (ls, -1) ∧ ls.invalidate t = some (ls, some (-1)) := by
  refine ⟨FullyAssociativeTags.probe_absent s t h, ?_,
    LockableFullyAssociativeTags.lprobe_absent ls t hl, ?_⟩
  · simp [FullyAssociativeTags.invalidate, FullyAssociativeTags.probe_absent s t h]
  · simp [LockableFullyAssociativeTags.invalidate,
      LockableFullyAssociativeTags.lprobe_absent ls t hl]

/-- C5, at concrete tables: the tag 50 is absent from the four-way table
holding 10, 20, 30, 40 and from the two-way lockable table holding 10, 20. -/
theorem C5_absent_not_found_witness :
    (∀ i, ex4.tags i ≠ 50) ∧ (∀ i, exLocked.tags i ≠ 50) ∧
    ex4.probe 50 = some (ex4, -1) ∧ ex4.invalidate 50 = some (ex4, -1) ∧
    exLocked.probe 50 = some (exLocked, -1) ∧
    exLocked.invalidate 50 = some (exLocked, some (-1)) :=
  ⟨by decide, by decide, C5_absent_not_found ex4 exLocked 50 (by decide) (by decide)⟩

/-- The fallback of `lru()` can name a locked way.  The two-way table `exL2`
is reached from `reset()` by `select_and_lock(10)` and `select(20)`.  In it way
0 is locked, and the only unlocked way has its MRU bit set; `lru()` returns 0,
and `select(30)` of the absent tag 30 overwrites the tag 10 of the locked
way 0. -/
theorem lru_fallback_names_locked_way :
    exL0.select_and_lock 10 false 0 = some (exL1, 0, true, InvalidTag.INVALID .W64) ∧
    exL1.select 20 0 = some (exL2, 1, InvalidTag.INVALID .W64) ∧
    exL2.unlockedmap 0 = false ∧ exL2.evictmap 0 = true ∧ exL2.tags 0 = 10 ∧
    (∀ i, exL2.tags i ≠ 30) ∧
    exL2.lru = 0 ∧
    exL2.select 30 0 = some (exL3, 0, 10) ∧ exL3.tags 0 = 30 ∧ exL3.unlockedmap 0 = false :=
  ⟨rfl, rfl, by decide, by decide, by decide, by decide, by decide, rfl, by decide, by decide⟩

/-- C6, as stated, fails at the sweep.  The two-way table `exS2` is reached
from `reset()` by `select(10)` and `select(20)`; both ways are unlocked and
both MRU bits are set.  There `lru()` returns way 0, neither `-1` nor a way
with a clear MRU bit. -/
theorem C6_lru_counterexample :
    exL0.select 10 0 = some (exS1, 0, InvalidTag.INVALID .W64) ∧
    exS1.select 20 0 = some (exS2, 1, InvalidTag.INVALID .W64) ∧
    exS2.lru = 0 ∧ exS2.unlockedmap 0 = true ∧ exS2.evictmap 0 = true :=
  ⟨rfl, rfl, by decide, by decide, by decide⟩

/-- C6, amended: in every state in which all ways are locked, or some unlocked
way has its MRU bit clear, or way 0 is unlocked, `lru()` returns `-1` (all
ways locked) or an unlocked way; that way has its MRU bit clear, unless every
unlocked way has its MRU bit set, and then it is way 0.  In such a state
`select(t)` of an absent tag `t` returns what `lru()` returns and leaves the
tag of every locked way as it is. -/
theorem C6_lru_victim_unlocked {T : TagType} {ways : Nat}
    (s : LockableFullyAssociativeTags T ways)
    (h : (∀ i, s.unlockedmap i = false) ∨
      (∃ k, s.unlockedmap k = true ∧ s.evictmap k = false) ∨
      (∃ hw : 0 < ways, s.unlockedmap ⟨0, hw⟩ = true)) :
    ((s.lru = -1 ∧ ∀ i, s.unlockedmap i = false) ∨
      ∃ k : Fin ways, s.lru = (k.val : Int) ∧ s.unlockedmap k = true ∧
        (s.evictmap k = false ∨
          (k.val = 0 ∧ ∀ j, s.unlockedmap j = true → s.evictmap j = true))) ∧
    ∀ t oldtag : Nat, (∀ i, s.tags i ≠ t) →
      ∃ s1 oldtag1, s.select t oldtag = some (s1, s.lru, oldtag1) ∧
        ∀ i, s.unlockedmap i = false → s1.tags i = s.tags i := by
  have key : (s.lru = -1 ∧ ∀ i, s.unlockedmap i = false) ∨
      ∃ k : Fin ways, s.lru = (k.val : Int) ∧ s.unlockedmap k = true ∧
        (s.evictmap k = false ∨
          (k.val = 0 ∧ ∀ j, s.unlockedmap j = true → s.evictmap j = true)) := by
    rcases LockableFullyAssociativeTags.lru_victim s with h1 | h2 | h3
    · exact Or.inl h1
    · obtain ⟨k, hl, hu, he, -⟩ := h2
      exact Or.inr ⟨k, hl, hu, Or.inl he⟩
    · obtain ⟨hw, hl, hall, hsome⟩ := h3
      rcases h with hlocked | ⟨k, hku, hke⟩ | ⟨hw2, h0⟩
      · obtain ⟨j, hj⟩ := hsome
        rw [hlocked j] at hj
        exact absurd hj (by decide)
      · rw [hall k hku] at hke
        exact absurd hke (by decide)
      · exact Or.inr ⟨⟨0, hw⟩, hl, h0, Or.inr ⟨rfl, hall⟩⟩
  refine ⟨key, ?_⟩
  intro t oldtag habs
  rcases key with ⟨hl, -⟩ | ⟨k, hl, hu, -⟩
  · refine ⟨s, oldtag, ?_, fun _ _ => rfl⟩
    rw [LockableFullyAssociativeTags.select_miss_none s t oldtag habs (by rw [hl]; decide), hl]
  · refine ⟨LockableFullyAssociativeTags.mk
      ((if s.evictmap.allset then bitvec.zero else s.evictmap).set k true) s.unlockedmap
      (Function.update s.tags k t), s.tags k, ?_, ?_⟩
    · rw [LockableFullyAssociativeTags.lselect_miss s t oldtag habs k hl, hl]
    · intro i hi
      have hik : i ≠ k := by
        intro hik
        rw [hik, hu] at hi
        exact absurd hi (by decide)
      exact Function.update_noteq hik _ _

/-- C6, amended, at a concrete state: in the two-way table `exL1` way 0 is
locked and way 1 is unlocked with a clear MRU bit. -/
theorem C6_lru_victim_unlocked_witness :
    (exL1.unlockedmap 0 = false ∧ exL1.unlockedmap 1 = true ∧ exL1.evictmap 1 = false) ∧
    ((exL1.lru = -1 ∧ ∀ i, exL1.unlockedmap i = false) ∨
      ∃ k : Fin 2, exL1.lru = (k.val : Int) ∧ exL1.unlockedmap k = true ∧
        (exL1.evictmap k = false ∨
          (k.val = 0 ∧ ∀ j, exL1.unlockedmap j = true → exL1.evictmap j = true))) ∧
    ∀ t oldtag : Nat, (∀ i, exL1.tags i ≠ t) →
      ∃ s1 oldtag1, exL1.select t oldtag = some (s1, exL1.lru, oldtag1) ∧
        ∀ i, exL1.unlockedmap i = false → s1.tags i = exL1.tags i :=
  ⟨by decide, C6_lru_victim_unlocked exL1 (Or.inr (Or.inl ⟨1, by decide⟩))⟩

/-- C7: when every way is locked and the tag `t` is absent, `select(t)` and
`select_and_lock(t)` return `-1` and leave tags, eviction bitmap and unlocked
bitmap as they are (the reference arguments `oldtag` and `firstlock` are not
written either). -/
theorem C7_all_locked_backpressure {T : TagType} {ways : Nat}
    (s : LockableFullyAssociativeTags T ways) (t oldtag : Nat) (firstlock : Bool)
    (hlocked : ∀ i, s.unlockedmap i = false) (habs : ∀ i, s.tags i ≠ t) :
    s.select t oldtag = some (s, -1, oldtag) ∧
    s.select_and_lock t firstlock oldtag = some (s, -1, firstlock, oldtag) := by
  have hl : s.lru < 0 := by
    have hz : s.unlockedmap.iszero = true := (bitvec.iszero_eq_true _).2 hlocked
    simp [LockableFullyAssociativeTags.lru, hz]
  have hsel := LockableFullyAssociativeTags.select_miss_none s t oldtag habs hl
  refine ⟨hsel, ?_⟩
  simp [LockableFullyAssociativeTags.select_and_lock, hsel]

/-- C7, at a concrete table: two ways holding 10 and 20, both locked, and the
absent tag 50. -/
theorem C7_all_locked_backpressure_witness :
    (∀ i, exLocked.unlockedmap i = false) ∧ (∀ i, exLocked.tags i ≠ 50) ∧
    exLocked.select 50 7 = some (exLocked, -1, 7) ∧
    exLocked.select_and_lock 50 true 7 = some (exLocked, -1, true, 7) :=
  ⟨by decide, by decide,
    C7_all_locked_backpressure exLocked 50 7 true (by decide) (by decide)⟩

/-- C8: whenever `select_and_lock(t, firstlock)` succeeds (returns a way
`w ≥ 0`), `firstlock` is true exactly when way `w` was unlocked before the
call, way `w` is locked afterwards, and a second `select_and_lock(t)` right
after it returns the same way with `firstlock = false`. -/
theorem C8_first_lock_flag {T : TagType} {ways : Nat}
    (s s1 : LockableFullyAssociativeTags T ways) (t oldtag oldtag1 : Nat)
    (firstlock firstlock1 : Bool) (w : Int)
    (h : s.select_and_lock t firstlock oldtag = some (s1, w, firstlock1, oldtag1))
    (hw : 0 ≤ w) :
    ∃ k : Fin ways, w = (k.val : Int) ∧ firstlock1 = s.unlockedmap k ∧
      s1.unlockedmap k = false ∧
      ∀ (firstlock2 : Bool) (oldtag2 : Nat),
        ∃ s2, s1.select_and_lock t firstlock2 oldtag2 = some (s2, w, false, oldtag2) ∧
          s2.unlockedmap k = false := by
  rcases LockableFullyAssociativeTags.select_and_lock_spec s s1 t oldtag oldtag1
      firstlock firstlock1 w h with ⟨hneg, -⟩ | ⟨k, hk, hfl, hun, hmr⟩
  · omega
  · have hlk : s1.unlockedmap k = false := by rw [hun]; exact Function.update_same _ _ _
    refine ⟨k, hk, hfl, hlk, ?_⟩
    intro firstlock2 oldtag2
    refine ⟨{ s1 with evictmap := s1.evictmap.set k true
                      unlockedmap := s1.unlockedmap.set k false }, ?_, ?_⟩
    · rw [LockableFullyAssociativeTags.select_and_lock_hit s1 t oldtag2 firstlock2 k hmr,
        hlk, hk]
    · simp [bitvec.set]

/-- C8, at a concrete table: `select_and_lock(10)` on the reset two-way table
returns way 0 with `firstlock = true`, and the second call returns way 0 with
`firstlock = false`. -/
theorem C8_first_lock_flag_witness :
    exL0.select_and_lock 10 false 0 = some (exL1, 0, true, InvalidTag.INVALID .W64) ∧
    exL1.select_and_lock 10 true 5 = some (exL1b, 0, false, 5) ∧
    ∃ k : Fin 2, (0 : Int) = (k.val : Int) ∧ true = exL0.unlockedmap k ∧
      exL1.unlockedmap k = false ∧
      ∀ (firstlock2 : Bool) (oldtag2 : Nat),
        ∃ s2, exL1.select_and_lock 10 firstlock2 oldtag2 = some (s2, 0, false, oldtag2) ∧
          s2.unlockedmap k = false :=
  have h2 : exL1.select_and_lock 10 true 5 = some (exL1b, 0, false, 5) := by
    rw [LockableFullyAssociativeTags.select_and_lock_hit exL1 10 5 true 0 (by decide)]
    rfl
  ⟨rfl, h2,
    C8_first_lock_flag exL0 exL1 10 0 (InvalidTag.INVALID .W64) false true 0 rfl (by decide)⟩

/-! ## LockableAssociativeArray: locks and the clear-list -/

theorem update_true_eq_false {n : Nat} (f : Fin n → Bool) (k i : Fin n)
    (h : Function.update f k true i = false) : f i = false ∧ i ≠ k := by
  by_cases hik : i = k
  · subst hik
    rw [Function.update_same] at h
    exact absurd h (by decide)
  · rw [Function.update_noteq hik] at h
    exact ⟨h, hik⟩

theorem toW16_of_lt (n : Nat) (h : n < 65536) : LockableAssociativeArray.toW16 (n : Int) = n := by
  unfold LockableAssociativeArray.toW16
  omega

namespace LockableFullyAssociativeTags

variable {T : TagType} {ways : Nat}

theorem invalidate_way_of_index (s : LockableFullyAssociativeTags T ways) (w : Int)
    (k : Fin ways) (h : index? ways w = some k) :
    s.invalidate_way w
      = some { evictmap := s.evictmap.set k false
               unlockedmap := s.unlockedmap.set k true
               tags := Function.update s.tags k (INVALID T) } := by
  simp [invalidate_way, h]

theorem probe_unlockedmap (s s1 : LockableFullyAssociativeTags T ways) (t : Nat) (w : Int)
    (h : s.probe t = some (s1, w)) : s1.unlockedmap = s.unlockedmap := by
  rcases probe_cases s s1 t w h with ⟨-, h1, -⟩ | ⟨k, -, -, h1⟩
  · rw [h1]
  · rw [h1]

theorem invalidate_unlockedmap (s s1 : LockableFullyAssociativeTags T ways) (t : Nat)
    (r : Option Int) (h : s.invalidate t = some (s1, r)) :
    ∀ wi, s1.unlockedmap wi = false → s.unlockedmap wi = false := by
  unfold invalidate at h
  split at h
  · simp at h
  · rename_i s2 w hp
    have h2 := probe_unlockedmap s s2 t w hp
    split at h
    · simp only [Option.some.injEq, Prod.mk.injEq] at h
      intro wi hwi
      rw [← h.1, h2] at hwi
      exact hwi
    · unfold invalidate_way at h
      split at h
      · rename_i s3 hs3
        split at hs3
        · rename_i k hk
          simp only [Option.some.injEq] at hs3
          simp only [Option.some.injEq, Prod.mk.injEq] at h
          intro wi hwi
          rw [← h.1, ← hs3] at hwi
          simp only [bitvec.set] at hwi
          rw [← h2]
          exact (update_true_eq_false _ k wi hwi).1
        · simp at hs3
      · simp at h

end LockableFullyAssociativeTags

namespace LockableFullyAssociativeArray

variable {T : TagType} {V : Type} {ways : Nat}

theorem set_probe_unlockedmap (s s1 : LockableFullyAssociativeArray T V ways) (t : Nat)
    (line : Option Int) (h : s.probe t = some (s1, line)) :
    s1.tags.unlockedmap = s.tags.unlockedmap := by
  unfold probe at h
  split at h
  · simp at h
  · rename_i t1 w hp
    simp only [Option.some.injEq, Prod.mk.injEq] at h
    rw [← h.1]
    exact LockableFullyAssociativeTags.probe_unlockedmap s.tags t1 t w hp

theorem set_select_unlockedmap (s s1 : LockableFullyAssociativeArray T V ways) (t oldtag oldtag1 : Nat)
    (line : Option Int) (h : s.select t oldtag = some (s1, line, oldtag1)) :
    s1.tags.unlockedmap = s.tags.unlockedmap := by
  unfold select at h
  split at h
  · simp at h
  · rename_i t1 w old1 hp
    simp only [Option.some.injEq, Prod.mk.injEq] at h
    rw [← h.1]
    exact (LockableFullyAssociativeTags.select_spec s.tags t1 t oldtag old1 w hp).1

theorem set_invalidate_unlockedmap (s s1 : LockableFullyAssociativeArray T V ways) (t : Nat)
    (h : s.invalidate t = some s1) :
    ∀ wi, s1.tags.unlockedmap wi = false → s.tags.unlockedmap wi = false := by
  unfold invalidate at h
  split at h
  · simp at h
  · rename_i t1 r hp
    simp only [Option.some.injEq] at h
    rw [← h]
    exact LockableFullyAssociativeTags.invalidate_unlockedmap s.tags t1 t r hp

/-- What `select_and_lock(tag, firstlock)` does to the lock bitmap of a set. -/
theorem select_and_lock2_spec (s s1 : LockableFullyAssociativeArray T V ways) (t : Nat)
    (firstlock firstlock1 : Bool) (line : Option Int)
    (h : s.select_and_lock2 t firstlock = some (s1, line, firstlock1)) :
    (line = none ∧ s1.tags.unlockedmap = s.tags.unlockedmap) ∨
    (∃ k : Fin ways, line = some (k.val : Int) ∧ firstlock1 = s.tags.unlockedmap k ∧
      s1.tags.unlockedmap = Function.update s.tags.unlockedmap k false) := by
  unfold select_and_lock2 at h
  split at h
  · simp at h
  · rename_i s2 line2 fl2 old2 hsl
    simp only [Option.some.injEq, Prod.mk.injEq] at h
    obtain ⟨h1, h2, h3⟩ := h
    subst h1 h2 h3
    unfold select_and_lock at hsl
    split at hsl
    · simp at hsl
    · rename_i t1 w fl1 old1 ht
      simp only [Option.some.injEq, Prod.mk.injEq] at hsl
      obtain ⟨h1, h2, h3, -⟩ := hsl
      subst h1 h2 h3
      rcases LockableFullyAssociativeTags.select_and_lock_spec s.tags t1 t 0 old1
          firstlock fl1 w ht with ⟨hw, hs, -, -⟩ | ⟨k, hw, hfl, hun, -⟩
      · left
        subst hw
        exact ⟨by simp, by rw [hs]⟩
      · right
        have h0 : ¬ ((k.val : Int) < 0) := by omega
        exact ⟨k, by simp [hw, h0], hfl, hun⟩

theorem unlock_line_lineAt (s : LockableFullyAssociativeArray T V ways) (k : Fin ways) :
    s.unlock_line (lineAt (k.val : Int))
      = some { s with tags := { s.tags with unlockedmap := s.tags.unlockedmap.set k true } } := by
  simp [unlock_line, lineAt, wayof, LockableFullyAssociativeTags.unlock, index?_coe]

theorem unlock_line_spec (s s1 : LockableFullyAssociativeArray T V ways) (w : Int)
    (h : s.unlock_line (lineAt w) = some s1) :
    ∃ k : Fin ways, w = (k.val : Int) ∧
      s1 = { s with tags := { s.tags with unlockedmap := s.tags.unlockedmap.set k true } } := by
  unfold unlock_line LockableFullyAssociativeTags.unlock lineAt wayof at h
  simp only at h
  split at h
  · simp at h
  · rename_i t1 ht
    split at ht
    · rename_i k hk
      simp only [Option.some.injEq] at ht h
      exact ⟨k, index?_eq_some hk, by rw [← h, ← ht]⟩
    · simp at ht

theorem invalidate_line_spec [LineData V] (s s1 : LockableFullyAssociativeArray T V ways)
    (w : Int) (h : s.invalidate_line (lineAt w) = some s1) :
    ∃ k : Fin ways, w = (k.val : Int) ∧
      s1.tags.unlockedmap = Function.update s.tags.unlockedmap k true := by
  unfold invalidate_line LockableFullyAssociativeTags.invalidate_way lineAt wayof at h
  simp only at h
  split at h
  · simp at h
  · rename_i t1 ht
    split at ht
    · rename_i k hk
      rw [hk] at h
      simp only [Option.some.injEq] at ht h
      exact ⟨k, index?_eq_some hk, by rw [← h, ← ht]; rfl⟩
    · simp at ht

end LockableFullyAssociativeArray

namespace LockableAssociativeArray

variable {T : TagType} {V : Type} {setcount waycount linesize : Nat}

theorem update_sets_unlocked
    (sets : Fin setcount → LockableFullyAssociativeArray T V waycount) (si : Fin setcount)
    (set1 : LockableFullyAssociativeArray T V waycount)
    (h : ∀ wi, set1.tags.unlockedmap wi = false → (sets si).tags.unlockedmap wi = false) :
    ∀ sj wj, ((Function.update sets si set1) sj).tags.unlockedmap wj = false →
      (sets sj).tags.unlockedmap wj = false := by
  intro sj wj hj
  by_cases hs : sj = si
  · subst hs
    rw [Function.update_same] at hj
    exact h wj hj
  · rw [Function.update_noteq hs] at hj
    exact hj

/-- An operation that keeps the clear-list and locks no further way keeps the
two invariants of the clear-list. -/
theorem inv_of_no_new_lock (s s1 : LockableAssociativeArray T V setcount waycount linesize)
    (hcl : s1.clearlist = s.clearlist)
    (hun : ∀ sj wj, (s1.sets sj).tags.unlockedmap wj = false →
      (s.sets sj).tags.unlockedmap wj = false)
    (hinv : s.ClearInRange ∧ s.LockedRecorded) : s1.ClearInRange ∧ s1.LockedRecorded := by
  constructor
  · intro p hp
    rw [hcl] at hp
    exact hinv.1 p hp
  · intro sj wj hj
    rw [hcl]
    exact hinv.2 sj wj (hun sj wj hj)

theorem probe_inv (s s1 : LockableAssociativeArray T V setcount waycount linesize) (addr : Nat)
    (line : Option Int) (h : s.probe addr = some (s1, line))
    (hinv : s.ClearInRange ∧ s.LockedRecorded) : s1.ClearInRange ∧ s1.LockedRecorded := by
  unfold probe at h
  split at h
  · simp at h
  · rename_i si _
    split at h
    · simp at h
    · rename_i set1 line1 hp
      simp only [Option.some.injEq, Prod.mk.injEq] at h
      obtain ⟨h1, -⟩ := h
      subst h1
      refine inv_of_no_new_lock s _ rfl ?_ hinv
      apply update_sets_unlocked
      intro wi hwi
      rw [← LockableFullyAssociativeArray.set_probe_unlockedmap _ _ _ _ hp]
      exact hwi

theorem select_inv (s s1 : LockableAssociativeArray T V setcount waycount linesize)
    (addr oldaddr oldaddr1 : Nat) (line : Option Int)
    (h : s.select addr oldaddr = some (s1, line, oldaddr1))
    (hinv : s.ClearInRange ∧ s.LockedRecorded) : s1.ClearInRange ∧ s1.LockedRecorded := by
  unfold select at h
  split at h
  · simp at h
  · rename_i si _
    split at h
    · simp at h
    · rename_i set1 line1 old1 hp
      simp only [Option.some.injEq, Prod.mk.injEq] at h
      obtain ⟨h1, -⟩ := h
      subst h1
      refine inv_of_no_new_lock s _ rfl ?_ hinv
      apply update_sets_unlocked
      intro wi hwi
      rw [← LockableFullyAssociativeArray.set_select_unlockedmap _ _ _ _ _ _ hp]
      exact hwi

theorem invalidate_inv (s s1 : LockableAssociativeArray T V setcount waycount linesize)
    (addr : Nat) (h : s.invalidate addr = some s1)
    (hinv : s.ClearInRange ∧ s.LockedRecorded) : s1.ClearInRange ∧ s1.LockedRecorded := by
  unfold invalidate at h
  split at h
  · simp at h
  · rename_i si _
    split at h
    · simp at h
    · rename_i set1 hp
      simp only [Option.some.injEq] at h
      subst h
      refine inv_of_no_new_lock s _ rfl ?_ hinv
      apply update_sets_unlocked
      exact LockableFullyAssociativeArray.set_invalidate_unlockedmap _ _ _ hp

theorem select_and_lock_inv (hsc : setcount ≤ 65536) (hwc : waycount ≤ 65536)
    (s s1 : LockableAssociativeArray T V setcount waycount linesize) (addr : Nat)
    (firstlock firstlock1 : Bool) (line : Option Int)
    (h : s.select_and_lock addr firstlock = some (s1, line, firstlock1))
    (hinv : s.ClearInRange ∧ s.LockedRecorded) : s1.ClearInRange ∧ s1.LockedRecorded := by
  unfold select_and_lock at h
  split at h
  · simp at h
  · rename_i si hsi
    have hset : setof setcount linesize addr = (si.val : Int) := index?_eq_some hsi
    split at h
    · simp at h
    · rename_i set1 line1 fl1 hp
      rcases LockableFullyAssociativeArray.select_and_lock2_spec _ _ _ _ _ _ hp with
        ⟨hl, hun⟩ | ⟨k, hl, hfl, hun⟩
      · subst hl
        simp only [Option.some.injEq, Prod.mk.injEq] at h
        obtain ⟨h1, -⟩ := h
        subst h1
        refine inv_of_no_new_lock s _ rfl ?_ hinv
        apply update_sets_unlocked
        intro wi hwi
        rw [← hun]
        exact hwi
      · subst hl
        have hsi16 : toW16 (setof setcount linesize addr) = si.val := by
          rw [hset]
          exact toW16_of_lt _ (lt_of_lt_of_le si.isLt hsc)
        have hk16 : toW16 (LockableFullyAssociativeArray.wayof (some (k.val : Int))) = k.val :=
          toW16_of_lt _ (lt_of_lt_of_le k.isLt hwc)
        have hlocked : ∀ sj wj, ((Function.update s.sets si set1) sj).tags.unlockedmap wj = false →
            (s.sets sj).tags.unlockedmap wj = false ∨ (sj = si ∧ wj = k) := by
          intro sj wj hj
          by_cases hs : sj = si
          · subst hs
            rw [Function.update_same, hun] at hj
            by_cases hwk : wj = k
            · exact Or.inr ⟨rfl, hwk⟩
            · rw [Function.update_noteq hwk] at hj
              exact Or.inl hj
          · rw [Function.update_noteq hs] at hj
            exact Or.inl hj
        cases hf : fl1
        · rw [hf] at h
          simp only [Bool.false_eq_true, ↓reduceIte, Option.some.injEq, Prod.mk.injEq] at h
          obtain ⟨h1, -⟩ := h
          subst h1
          constructor
          · exact hinv.1
          · intro sj wj hj
            rcases hlocked sj wj hj with hold | ⟨hs, hwk⟩
            · exact hinv.2 sj wj hold
            · subst hs hwk
              apply hinv.2
              rw [← hfl, hf]
        · rw [hf] at h
          simp only [↓reduceIte] at h
          split at h
          · simp only [Option.some.injEq, Prod.mk.injEq] at h
            obtain ⟨h1, -⟩ := h
            subst h1
            rw [hsi16, hk16]
            constructor
            · intro p hp2
              simp only [List.mem_append, List.mem_singleton] at hp2
              rcases hp2 with hp2 | hp2
              · exact hinv.1 p hp2
              · subst hp2
                exact ⟨si.isLt, k.isLt⟩
            · intro sj wj hj
              simp only [List.mem_append, List.mem_singleton]
              rcases hlocked sj wj hj with hold | ⟨hs, hwk⟩
              · exact Or.inl (hinv.2 sj wj hold)
              · subst hs hwk
                exact Or.inr rfl
          · simp at h

/-- The loop of `unlock_all()` on entries that name ways of the array: it
ends, unlocks the listed ways and changes nothing else. -/
theorem unlock_all_loop_spec (l : List (Nat × Nat))
    (sets : Fin setcount → LockableFullyAssociativeArray T V waycount)
    (hl : ∀ p ∈ l, p.1 < setcount ∧ p.2 < waycount) :
    ∃ sets1, unlock_all_loop sets l = some sets1 ∧
      ∀ si, (sets1 si).tags.tags = (sets si).tags.tags ∧
        (sets1 si).tags.evictmap = (sets si).tags.evictmap ∧
        (sets1 si).data = (sets si).data ∧
        ∀ wi, (sets1 si).tags.unlockedmap wi = true ∨
          ((si.val, wi.val) ∉ l ∧
            (sets1 si).tags.unlockedmap wi = (sets si).tags.unlockedmap wi) := by
  induction l generalizing sets with
  | nil =>
    exact ⟨sets, rfl, fun si => ⟨rfl, rfl, rfl, fun wi => Or.inr ⟨by simp, rfl⟩⟩⟩
  | cons p rest ih =>
    obtain ⟨hp1, hp2⟩ := hl p (List.mem_cons_self _ _)
    have hidx : index? setcount (p.1 : Int) = some ⟨p.1, hp1⟩ := index?_coe ⟨p.1, hp1⟩
    have hun := LockableFullyAssociativeArray.unlock_line_lineAt (sets ⟨p.1, hp1⟩) ⟨p.2, hp2⟩
    simp only at hun
    obtain ⟨sets1, hs1, hrest⟩ := ih (Function.update sets ⟨p.1, hp1⟩ _)
      (fun q hq => hl q (List.mem_cons_of_mem _ hq))
    refine ⟨sets1, ?_, ?_⟩
    · simp only [unlock_all_loop, hidx, hun]
      exact hs1
    · intro si
      obtain ⟨h1, h2, h3, h4⟩ := hrest si
      by_cases hs : si = ⟨p.1, hp1⟩
      · subst hs
        rw [Function.update_same] at h1 h2 h3 h4
        refine ⟨h1, h2, h3, ?_⟩
        intro wi
        rcases h4 wi with h | ⟨hni, h⟩
        · exact Or.inl h
        · by_cases hwi : wi = ⟨p.2, hp2⟩
          · subst hwi
            left
            rw [h]
            simp [bitvec.set]
          · right
            refine ⟨?_, ?_⟩
            · intro hmem
              rcases List.mem_cons.1 hmem with heq | hmem
              · apply hwi
                apply Fin.ext
                simp only
                rw [← heq]
              · exact hni hmem
            · rw [h]
              simp only [bitvec.set]
              exact Function.update_noteq hwi _ _
      · rw [Function.update_noteq hs] at h1 h2 h3 h4
        refine ⟨h1, h2, h3, ?_⟩
        intro wi
        rcases h4 wi with h | ⟨hni, h⟩
        · exact Or.inl h
        · right
          refine ⟨?_, h⟩
          intro hmem
          rcases List.mem_cons.1 hmem with heq | hmem
          · apply hs
            apply Fin.ext
            simp only
            rw [← heq]
          · exact hni hmem

/-- The loop of `unlock_all_and_invalidate()`, when it ends: a way that is
locked afterwards was locked before and is not listed. -/
theorem unlock_all_and_invalidate_loop_spec [LineData V] (l : List (Nat × Nat))
    (sets sets1 : Fin setcount → LockableFullyAssociativeArray T V waycount)
    (h : unlock_all_and_invalidate_loop sets l = some sets1) :
    ∀ si wi, (sets1 si).tags.unlockedmap wi = false →
      (sets si).tags.unlockedmap wi = false ∧ (si.val, wi.val) ∉ l := by
  induction l generalizing sets with
  | nil =>
    simp only [unlock_all_and_invalidate_loop, Option.some.injEq] at h
    subst h
    intro si wi hwi
    exact ⟨hwi, by simp⟩
  | cons p rest ih =>
    unfold unlock_all_and_invalidate_loop at h
    split at h
    · simp at h
    · rename_i sj hsj
      have hp1 : (p.1 : Int) = (sj.val : Int) := index?_eq_some hsj
      simp only at h
      split at h
      · simp at h
      · rename_i set1 hset1
        obtain ⟨k, hk, hun⟩ := LockableFullyAssociativeArray.invalidate_line_spec _ _ _ hset1
        intro si wi hwi
        obtain ⟨hold, hni⟩ := ih _ h si wi hwi
        by_cases hs : si = sj
        · subst hs
          rw [Function.update_same, hun] at hold
          obtain ⟨hold2, hne⟩ := update_true_eq_false _ k wi hold
          refine ⟨hold2, ?_⟩
          intro hmem
          rcases List.mem_cons.1 hmem with heq | hmem
          · apply hne
            apply Fin.ext
            have : (p.2 : Int) = (wi.val : Int) := by rw [← heq]
            omega
          · exact hni hmem
        · rw [Function.update_noteq hs] at hold
          refine ⟨hold, ?_⟩
          intro hmem
          rcases List.mem_cons.1 hmem with heq | hmem
          · apply hs
            apply Fin.ext
            have : (p.1 : Int) = (si.val : Int) := by rw [← heq]
            omega
          · exact hni hmem

/-- With at most 65536 sets and 65536 ways, every reachable state keeps the
entries of the clear-list inside the array and records every locked way. -/
theorem reachable_inv [LineData V] (hsc : setcount ≤ 65536) (hwc : waycount ≤ 65536)
    (s : LockableAssociativeArray T V setcount waycount linesize) (hr : Reachable s) :
    s.ClearInRange ∧ s.LockedRecorded := by
  induction hr with
  | reset s0 =>
    constructor
    · intro p hp
      simp [reset] at hp
    · intro si wi hwi
      simp [reset, LockableFullyAssociativeArray.reset, LockableFullyAssociativeTags.reset,
        bitvec.setall] at hwi
  | probe s s1 addr line _ h ih => exact probe_inv s s1 addr line h ih
  | select s s1 addr oldaddr oldaddr1 line _ h ih =>
    exact select_inv s s1 addr oldaddr oldaddr1 line h ih
  | invalidate s s1 addr _ h ih => exact invalidate_inv s s1 addr h ih
  | select_and_lock s s1 addr firstlock firstlock1 line _ h ih =>
    exact select_and_lock_inv hsc hwc s s1 addr firstlock firstlock1 line h ih
  | unlock_all s s1 _ h ih =>
    obtain ⟨sets1, hs1, hspec⟩ := unlock_all_loop_spec s.clearlist s.sets ih.1
    simp only [unlock_all, hs1, Option.some.injEq] at h
    subst h
    constructor
    · intro p hp
      simp at hp
    · intro si wi hwi
      exfalso
      rcases (hspec si).2.2.2 wi with h | ⟨hni, h⟩
      · simp only at hwi
        rw [h] at hwi
        exact absurd hwi (by decide)
      · simp only at hwi
        rw [h] at hwi
        exact hni (ih.2 si wi hwi)
  | unlock_all_and_invalidate s s1 _ h ih =>
    unfold unlock_all_and_invalidate at h
    split at h
    · simp at h
    · rename_i sets1 hs1
      simp only [Option.some.injEq] at h
      subst h
      constructor
      · intro p hp
        simp at hp
      · intro si wi hwi
        exfalso
        obtain ⟨hold, hni⟩ := unlock_all_and_invalidate_loop_spec _ _ _ hs1 si wi hwi
        exact hni (ih.2 si wi hold)

end LockableAssociativeArray

/-! ## The clear-list stays inside the array -/

theorem toW16_le (n : Nat) : LockableAssociativeArray.toW16 (n : Int) ≤ n := by
  unfold LockableAssociativeArray.toW16
  omega

namespace LockableAssociativeArray

variable {T : TagType} {V : Type} {setcount waycount linesize : Nat}

theorem probe_clearlist (s s1 : LockableAssociativeArray T V setcount waycount linesize)
    (addr : Nat) (line : Option Int) (h : s.probe addr = some (s1, line)) :
    s1.clearlist = s.clearlist := by
  unfold probe at h
  split at h
  · simp at h
  · split at h
    · simp at h
    · simp only [Option.some.injEq, Prod.mk.injEq] at h
      rw [← h.1]

theorem select_clearlist (s s1 : LockableAssociativeArray T V setcount waycount linesize)
    (addr oldaddr oldaddr1 : Nat) (line : Option Int)
    (h : s.select addr oldaddr = some (s1, line, oldaddr1)) :
    s1.clearlist = s.clearlist := by
  unfold select at h
  split at h
  · simp at h
  · split at h
    · simp at h
    · simp only [Option.some.injEq, Prod.mk.injEq] at h
      rw [← h.1]

theorem invalidate_clearlist (s s1 : LockableAssociativeArray T V setcount waycount linesize)
    (addr : Nat) (h : s.invalidate addr = some s1) : s1.clearlist = s.clearlist := by
  unfold invalidate at h
  split at h
  · simp at h
  · split at h
    · simp at h
    · simp only [Option.some.injEq] at h
      rw [← h]

/-- What `select_and_lock(addr, firstlock)` returns and records: a null line
and nothing; or the line of a way `k` of the set of `addr`, with `firstlock`
telling whether way `k` was unlocked before, and in that case one more entry in
the clear-list. -/
theorem select_and_lock_line_spec
    (s s1 : LockableAssociativeArray T V setcount waycount linesize) (addr : Nat)
    (firstlock firstlock1 : Bool) (line : Option Int)
    (h : s.select_and_lock addr firstlock = some (s1, line, firstlock1)) :
    (line = none ∧ s1.clearlist = s.clearlist) ∨
    (∃ (si : Fin setcount) (k : Fin waycount),
      setof setcount linesize addr = (si.val : Int) ∧ line = some (k.val : Int) ∧
      firstlock1 = (s.sets si).tags.unlockedmap k ∧
      s1.clearlist = (if firstlock1 then s.clearlist ++ [(toW16 (si.val : Int),
        toW16 (k.val : Int))] else s.clearlist)) := by
  unfold select_and_lock at h
  split at h
  · simp at h
  · rename_i si hsi
    have hset : setof setcount linesize addr = (si.val : Int) := index?_eq_some hsi
    split at h
    · simp at h
    · rename_i set1 line1 fl1 hp
      rcases LockableFullyAssociativeArray.select_and_lock2_spec _ _ _ _ _ _ hp with
        ⟨hl, -⟩ | ⟨k, hl, hfl, -⟩
      · subst hl
        simp only [Option.some.injEq, Prod.mk.injEq] at h
        left
        exact ⟨h.2.1.symm, by rw [← h.1]⟩
      · subst hl
        right
        cases hf : fl1
        · rw [hf] at h
          simp only [Bool.false_eq_true, ↓reduceIte, Option.some.injEq, Prod.mk.injEq] at h
          refine ⟨si, k, hset, h.2.1.symm, by rw [← h.2.2, ← hfl, hf], ?_⟩
          rw [← h.2.2, ← h.1]
          simp
        · rw [hf] at h
          simp only [↓reduceIte] at h
          split at h
          · simp only [Option.some.injEq, Prod.mk.injEq] at h
            refine ⟨si, k, hset, h.2.1.symm, by rw [← h.2.2, ← hfl, hf], ?_⟩
            rw [← h.2.2, ← h.1, hset]
            simp [LockableFullyAssociativeArray.wayof]
          · simp at h

/-- In every reachable state, whatever the numbers of sets and ways, every
entry of the clear-list names a set and a way of the array. -/
theorem reachable_clearInRange [LineData V]
    (s : LockableAssociativeArray T V setcount waycount linesize) (hr : Reachable s) :
    s.ClearInRange := by
  induction hr with
  | reset s0 =>
    intro p hp
    simp [reset] at hp
  | probe s s1 addr line _ h ih =>
    intro p hp
    rw [probe_clearlist s s1 addr line h] at hp
    exact ih p hp
  | select s s1 addr oldaddr oldaddr1 line _ h ih =>
    intro p hp
    rw [select_clearlist s s1 addr oldaddr oldaddr1 line h] at hp
    exact ih p hp
  | invalidate s s1 addr _ h ih =>
    intro p hp
    rw [invalidate_clearlist s s1 addr h] at hp
    exact ih p hp
  | select_and_lock s s1 addr firstlock firstlock1 line _ h ih =>
    intro p hp
    rcases select_and_lock_line_spec s s1 addr firstlock firstlock1 line h with
      ⟨-, hc⟩ | ⟨si, k, -, -, -, hc⟩
    · rw [hc] at hp
      exact ih p hp
    · rw [hc] at hp
      split at hp
      · simp only [List.mem_append, List.mem_singleton] at hp
        rcases hp with hp | hp
        · exact ih p hp
        · subst hp
          exact ⟨lt_of_le_of_lt (toW16_le _) si.isLt, lt_of_le_of_lt (toW16_le _) k.isLt⟩
      · exact ih p hp
  | unlock_all s s1 _ h ih =>
    unfold unlock_all at h
    split at h
    · simp at h
    · simp only [Option.some.injEq] at h
      subst h
      intro p hp
      simp at hp
  | unlock_all_and_invalidate s s1 _ h ih =>
    unfold unlock_all_and_invalidate at h
    split at h
    · simp at h
    · simp only [Option.some.injEq] at h
      subst h
      intro p hp
      simp at hp

/-- A `select_and_lock` with a result keeps the clear-list within the
`setcount * waycount` entries of the array `clearlist`. -/
theorem select_and_lock_within
    (s s1 : LockableAssociativeArray T V setcount waycount linesize) (addr : Nat)
    (firstlock firstlock1 : Bool) (line : Option Int)
    (h : s.select_and_lock addr firstlock = some (s1, line, firstlock1))
    (hin : s.clearlist.length ≤ setcount * waycount) :
    s1.clearlist.length ≤ setcount * waycount := by
  unfold select_and_lock at h
  split at h
  · simp at h
  · split at h
    · simp at h
    · split at h
      · simp only [Option.some.injEq, Prod.mk.injEq] at h
        rw [← h.1]
        exact hin
      · split at h
        · dsimp only at h
          split at h
          · rename_i hcap
            simp only [Option.some.injEq, Prod.mk.injEq] at h
            rw [← h.1]
            simp only [List.length_append, List.length_singleton]
            omega
          · simp at h
        · simp only [Option.some.injEq, Prod.mk.injEq] at h
          rw [← h.1]
          exact hin

/-- In every reachable state the clear-list holds at most `setcount * waycount`
entries: the states are reached by calls with a result, and a call that writes
past the end of `clearlist` has none. -/
theorem reachable_within [LineData V]
    (s : LockableAssociativeArray T V setcount waycount linesize) (hr : Reachable s) :
    s.clearlist.length ≤ setcount * waycount := by
  induction hr with
  | reset s0 => simp [reset]
  | probe s s1 addr line _ h ih =>
    rw [probe_clearlist s s1 addr line h]
    exact ih
  | select s s1 addr oldaddr oldaddr1 line _ h ih =>
    rw [select_clearlist s s1 addr oldaddr oldaddr1 line h]
    exact ih
  | invalidate s s1 addr _ h ih =>
    rw [invalidate_clearlist s s1 addr h]
    exact ih
  | select_and_lock s s1 addr firstlock firstlock1 line _ h ih =>
    exact select_and_lock_within s s1 addr firstlock firstlock1 line h ih
  | unlock_all s s1 _ h ih =>
    unfold unlock_all at h
    split at h
    · simp at h
    · simp only [Option.some.injEq] at h
      subst h
      simp
  | unlock_all_and_invalidate s s1 _ h ih =>
    unfold unlock_all_and_invalidate at h
    split at h
    · simp at h
    · simp only [Option.some.injEq] at h
      subst h
      simp

end LockableAssociativeArray

/-! ## LockableAssociativeArray: main results -/

namespace LockableAssociativeArray

variable {T : TagType} {V : Type} {setcount waycount linesize : Nat}

/-- C9, the code at a run that breaks the bound of the clear-list.  In a
`LockableAssociativeArray<W64, V, 1, 1, 64>` the calls `select_and_lock(0)` and
`invalidate(0)` after `reset()` leave the pair (set 0, way 0) in the clear-list
and way 0 unlocked: `invalidate` unlocks the way without removing its entry.
A second `select_and_lock(0)` is therefore a first lock again (the call on the
set returns the line of way 0 with `firstlock` true) and writes the pair
(set 0, way 0) a second time.  The one entry `clearlist` has room for
(`setcount * waycount = 1`) is in use, so that write goes to `clearlist[1]`,
past the end of the array, and the call has no result.  With two ways
(`LockableAssociativeArray<W64, V, 1, 2, 64>`) the same three calls stay inside
`clearlist`, and the clear-list then holds the pair (set 0, way 0) twice with
no clear in between. -/
theorem C9_clearlist_exceeds_capacity :
    exA0.select_and_lock 0 false = some (exA1, some 0, true) ∧
    exA1.invalidate 0 = some exA2 ∧
    Reachable exA2 ∧
    (exA1.sets 0).tags.unlockedmap 0 = false ∧ (exA2.sets 0).tags.unlockedmap 0 = true ∧
    exA1.clearlist = [(0, 0)] ∧ exA2.clearlist = [(0, 0)] ∧
    ((exA2.sets 0).select_and_lock2 (tagof 64 0) false).map (fun r => r.2)
      = some (some 0, true) ∧
    ¬ (exA2.clearlist.length < 1 * 1) ∧
    exA2.select_and_lock 0 false = none ∧
    Reachable exJ3 ∧ exJ3.clearlist = [(0, 0), (0, 0)] :=
  have h1 : exA0.select_and_lock 0 false = some (exA1, some 0, true) := rfl
  have h2 : exA1.invalidate 0 = some exA2 := rfl
  have hr : Reachable exA2 :=
    Reachable.invalidate exA1 exA2 0
      (Reachable.select_and_lock exA0 exA1 0 false true (some 0) (Reachable.reset _) h1) h2
  have hj : Reachable exJ3 :=
    Reachable.select_and_lock exJ2 exJ3 0 false true (some 0)
      (Reachable.invalidate exJ1 exJ2 0
        (Reachable.select_and_lock exJ0 exJ1 0 false true (some 0) (Reachable.reset _) rfl)
        rfl) rfl
  ⟨h1, h2, hr, by decide, by decide, by decide, by decide, by decide, by decide, rfl, hj,
    by decide⟩

/-- C10, as stated, fails when the array has more than 65536 sets.  In a
`LockableAssociativeArray<W64, V, 131072, 1, 64>` the call
`select_and_lock(4194304)` after `reset()` locks way 0 of set 65536 and records
it in the `W16` fields of the clear-list as (set 0, way 0); `unlock_all()` then
unlocks way 0 of set 0, and way 0 of set 65536 stays locked. -/
theorem C10_unlock_all_counterexample :
    Reachable exB1 ∧ exB1.clearlist = [(0, 0)] ∧ exB1.unlock_all = some exB2 ∧
    (exB2.sets ⟨65536, by decide⟩).tags.unlockedmap ⟨0, by decide⟩ = false :=
  ⟨Reachable.select_and_lock exB0 exB1 4194304 false true (some 0) (Reachable.reset _) rfl,
    by decide, rfl, by decide⟩

/-- C10, amended: with at most 65536 sets and at most 65536 ways (the range of
the `W16` fields of the clear-list), take any state reached from `reset()` by
calls none of which wrote past the end of `clearlist`.  The clear-list of such
a state holds at most `setcount * waycount` records, the capacity of the array
`clearlist`; the call `unlock_all()` ends, and after it every way of every set
is unlocked and the clear-list is empty, while every tag, every eviction bitmap
and every payload line is as before. -/
theorem C10_unlock_all [LineData V] (hsc : setcount ≤ 65536) (hwc : waycount ≤ 65536)
    (s : LockableAssociativeArray T V setcount waycount linesize) (hr : Reachable s) :
    s.clearlist.length ≤ setcount * waycount ∧
    ∃ s1, s.unlock_all = some s1 ∧ s1.clearlist = [] ∧
      ∀ si, (∀ wi, (s1.sets si).tags.unlockedmap wi = true) ∧
        (s1.sets si).tags.tags = (s.sets si).tags.tags ∧
        (s1.sets si).tags.evictmap = (s.sets si).tags.evictmap ∧
        (s1.sets si).data = (s.sets si).data := by
  refine ⟨reachable_within s hr, ?_⟩
  obtain ⟨hrange, hrec⟩ := reachable_inv hsc hwc s hr
  obtain ⟨sets1, hs1, hspec⟩ := unlock_all_loop_spec s.clearlist s.sets hrange
  refine ⟨{ sets := sets1, clearlist := [] }, by simp [unlock_all, hs1], rfl, ?_⟩
  intro si
  obtain ⟨h1, h2, h3, h4⟩ := hspec si
  refine ⟨?_, h1, h2, h3⟩
  intro wi
  rcases h4 wi with h | ⟨hni, h⟩
  · exact h
  · cases hold : (s.sets si).tags.unlockedmap wi
    · exact absurd (hrec si wi hold) hni
    · simp only
      rw [h, hold]

/-- C10, amended, at a concrete state: the one-set, one-way array after
`reset()` and `select_and_lock(0)`, in which way 0 is locked. -/
theorem C10_unlock_all_witness :
    (1 ≤ 65536) ∧ Reachable exA1 ∧
    (exA1.sets 0).tags.unlockedmap 0 = false ∧
    exA1.clearlist.length ≤ 1 * 1 ∧
    ∃ s1, exA1.unlock_all = some s1 ∧ s1.clearlist = [] ∧
      ∀ si, (∀ wi, (s1.sets si).tags.unlockedmap wi = true) ∧
        (s1.sets si).tags.tags = (exA1.sets si).tags.tags ∧
        (s1.sets si).tags.evictmap = (exA1.sets si).tags.evictmap ∧
        (s1.sets si).data = (exA1.sets si).data :=
  have hr : Reachable exA1 :=
    Reachable.select_and_lock exA0 exA1 0 false true (some 0) (Reachable.reset _) rfl
  ⟨by decide, hr, by decide, C10_unlock_all (by decide) (by decide) exA1 hr⟩

end LockableAssociativeArray

/-! ## Address decomposition: main results -/

theorem log2Loop_two_pow (k fuel : Nat) (h : k ≤ fuel) : log2Loop fuel (2 ^ k) = k := by
  induction k generalizing fuel with
  | zero =>
    cases fuel with
    | zero => rfl
    | succ f => simp [log2Loop]
  | succ k ih =>
    cases fuel with
    | zero => omega
    | succ f =>
      have h2 : 2 ≤ 2 ^ (k + 1) := by
        have := Nat.one_le_two_pow (n := k)
        omega
      have h3 : 2 ^ (k + 1) / 2 = 2 ^ k := by
        rw [Nat.pow_succ]; omega
      simp only [log2Loop, h2, ↓reduceIte, h3]
      rw [ih f (by omega)]

theorem log2_two_pow (k : Nat) : log2 (2 ^ k) = k :=
  log2Loop_two_pow k (2 ^ k) (Nat.lt_two_pow k).le

theorem floor_two_pow (x k : Nat) : floor x (2 ^ k) = x - x % 2 ^ k := by
  unfold floor
  rw [Nat.and_pow_two_sub_one_eq_mod]

theorem bits_two_pow (x k m : Nat) :
    bits x (log2 (2 ^ k)) (log2 (2 ^ m)) = (x / 2 ^ k) % 2 ^ m := by
  rw [log2_two_pow, log2_two_pow]
  rfl

theorem sub_mod_eq_of_div_eq (a b n : Nat) (h : b / n = a / n) :
    b - b % n = a - a % n := by
  have hb := Nat.div_add_mod b n
  have ha := Nat.div_add_mod a n
  have e1 : b - b % n = n * (b / n) := by omega
  have e2 : a - a % n = n * (a / n) := by omega
  rw [e1, e2, h]

/-- C17: for a line size and a set count that are powers of two and every
address `a`, in `AssociativeArray` and in `LockableAssociativeArray`,
`tagof(a) = a - (a mod linesize)` and `setof(a) = (a / linesize) mod setcount`;
so `setof(a) < setcount`, and two addresses of the same line (equal
`a / linesize`) have the same set and the same tag. -/
theorem C17_address_decomposition (linesize setcount k m : Nat)
    (hl : linesize = 2 ^ k) (hs : setcount = 2 ^ m) (a : Nat) :
    AssociativeArray.tagof linesize a = a - a % linesize ∧
    AssociativeArray.setof setcount linesize a = (((a / linesize) % setcount : Nat) : Int) ∧
    LockableAssociativeArray.tagof linesize a = a - a % linesize ∧
    LockableAssociativeArray.setof setcount linesize a
      = (((a / linesize) % setcount : Nat) : Int) ∧
    AssociativeArray.setof setcount linesize a < (setcount : Int) ∧
    LockableAssociativeArray.setof setcount linesize a < (setcount : Int) ∧
    ∀ b : Nat, b / linesize = a / linesize →
      AssociativeArray.setof setcount linesize b = AssociativeArray.setof setcount linesize a ∧
      AssociativeArray.tagof linesize b = AssociativeArray.tagof linesize a ∧
      LockableAssociativeArray.setof setcount linesize b
        = LockableAssociativeArray.setof setcount linesize a ∧
      LockableAssociativeArray.tagof linesize b = LockableAssociativeArray.tagof linesize a := by
  subst hl hs
  have ht : ∀ x, floor x (2 ^ k) = x - x % 2 ^ k := fun x => floor_two_pow x k
  have hb : ∀ x, bits x (log2 (2 ^ k)) (log2 (2 ^ m)) = (x / 2 ^ k) % 2 ^ m :=
    fun x => bits_two_pow x k m
  have hlt : (a / 2 ^ k) % 2 ^ m < 2 ^ m := Nat.mod_lt _ (Nat.two_pow_pos m)
  simp only [AssociativeArray.tagof, AssociativeArray.setof, LockableAssociativeArray.tagof,
    LockableAssociativeArray.setof, ht, hb]
  refine ⟨trivial, trivial, trivial, trivial, by exact_mod_cast hlt, by exact_mod_cast hlt, ?_⟩
  intro b hba
  rw [hba]
  exact ⟨rfl, sub_mod_eq_of_div_eq a b _ hba, rfl, sub_mod_eq_of_div_eq a b _ hba⟩

/-- C17, at a concrete array: 64-byte lines, 16 sets, and the address 4711
(line 73, set 9, tag 4672). -/
theorem C17_address_decomposition_witness :
    (64 = 2 ^ 6) ∧ (16 = 2 ^ 4) ∧
    AssociativeArray.tagof 64 4711 = 4711 - 4711 % 64 ∧
    AssociativeArray.setof 16 64 4711 = (((4711 / 64) % 16 : Nat) : Int) ∧
    LockableAssociativeArray.tagof 64 4711 = 4711 - 4711 % 64 ∧
    LockableAssociativeArray.setof 16 64 4711 = (((4711 / 64) % 16 : Nat) : Int) ∧
    AssociativeArray.setof 16 64 4711 < ((16 : Nat) : Int) ∧
    LockableAssociativeArray.setof 16 64 4711 < ((16 : Nat) : Int) ∧
    ∀ b : Nat, b / 64 = 4711 / 64 →
      AssociativeArray.setof 16 64 b = AssociativeArray.setof 16 64 4711 ∧
      AssociativeArray.tagof 64 b = AssociativeArray.tagof 64 4711 ∧
      LockableAssociativeArray.setof 16 64 b = LockableAssociativeArray.setof 16 64 4711 ∧
      LockableAssociativeArray.tagof 64 b = LockableAssociativeArray.tagof 64 4711 :=
  ⟨by decide, by decide, C17_address_decomposition 64 16 6 4 (by decide) (by decide) 4711⟩

/-! ## unlock_all_and_invalidate -/

namespace LockableFullyAssociativeArray

variable {T : TagType} {V : Type} {ways : Nat}

theorem invalidate_line_lineAt [LineData V] (s : LockableFullyAssociativeArray T V ways)
    (k : Fin ways) :
    s.invalidate_line (lineAt (k.val : Int))
      = some { tags := { evictmap := s.tags.evictmap.set k false
                         unlockedmap := s.tags.unlockedmap.set k true
                         tags := Function.update s.tags.tags k
                           (LockableFullyAssociativeTags.INVALID T) }
               data := Function.update s.data k (LineData.reset (s.data k)) } := by
  simp [invalidate_line, lineAt, wayof, LockableFullyAssociativeTags.invalidate_way, index?_coe]

/-- What `invalidate_line` does to the way of the line and to the other ways. -/
theorem invalidate_line_at [LineData V] (s : LockableFullyAssociativeArray T V ways)
    (k : Fin ways) :
    ∃ s1, s.invalidate_line (lineAt (k.val : Int)) = some s1 ∧
      (s1.tags.unlockedmap k = true ∧
        s1.tags.tags k = LockableFullyAssociativeTags.INVALID T ∧
        s1.tags.evictmap k = false ∧ s1.data k = LineData.reset (s.data k)) ∧
      ∀ wi, wi ≠ k →
        s1.tags.unlockedmap wi = s.tags.unlockedmap wi ∧
        s1.tags.tags wi = s.tags.tags wi ∧
        s1.tags.evictmap wi = s.tags.evictmap wi ∧ s1.data wi = s.data wi := by
  refine ⟨_, invalidate_line_lineAt s k, ?_, ?_⟩
  · simp [bitvec.set]
  · intro wi hwi
    simp only [bitvec.set]
    exact ⟨Function.update_noteq hwi _ _, Function.update_noteq hwi _ _,
      Function.update_noteq hwi _ _, Function.update_noteq hwi _ _⟩

end LockableFullyAssociativeArray

namespace LockableAssociativeArray

variable {T : TagType} {V : Type} {setcount waycount linesize : Nat}

/-- The loop of `unlock_all_and_invalidate()` on entries that name ways of the
array: it ends; a listed way is unlocked, holds the sentinel, has its MRU bit
clear and has had `reset()` run on its line (once per listing); every other
way is as before. -/
theorem unlock_all_and_invalidate_loop_total [LineData V] (l : List (Nat × Nat))
    (sets : Fin setcount → LockableFullyAssociativeArray T V waycount)
    (hl : ∀ p ∈ l, p.1 < setcount ∧ p.2 < waycount) :
    ∃ sets1, unlock_all_and_invalidate_loop sets l = some sets1 ∧
      ∀ (si : Fin setcount) (wi : Fin waycount),
        ((si.val, wi.val) ∈ l →
          (sets1 si).tags.unlockedmap wi = true ∧
          (sets1 si).tags.tags wi = LockableFullyAssociativeTags.INVALID T ∧
          (sets1 si).tags.evictmap wi = false ∧
          ∃ n, 0 < n ∧ (sets1 si).data wi = (LineData.reset^[n]) ((sets si).data wi)) ∧
        ((si.val, wi.val) ∉ l →
          (sets1 si).tags.unlockedmap wi = (sets si).tags.unlockedmap wi ∧
          (sets1 si).tags.tags wi = (sets si).tags.tags wi ∧
          (sets1 si).tags.evictmap wi = (sets si).tags.evictmap wi ∧
          (sets1 si).data wi = (sets si).data wi) := by
  induction l generalizing sets with
  | nil =>
    exact ⟨sets, rfl, fun si wi => ⟨fun h => by simp at h, fun _ => ⟨rfl, rfl, rfl, rfl⟩⟩⟩
  | cons p rest ih =>
    obtain ⟨p1, p2⟩ := p
    obtain ⟨hp1, hp2⟩ := hl (p1, p2) (List.mem_cons_self _ _)
    simp only at hp1 hp2
    have hidx : index? setcount (p1 : Int) = some ⟨p1, hp1⟩ := index?_coe ⟨p1, hp1⟩
    obtain ⟨set1, hinv, hk, hother⟩ :=
      LockableFullyAssociativeArray.invalidate_line_at (sets ⟨p1, hp1⟩) ⟨p2, hp2⟩
    simp only at hinv
    obtain ⟨sets1, hs1, hrest⟩ := ih (Function.update sets ⟨p1, hp1⟩ set1)
      (fun q hq => hl q (List.mem_cons_of_mem _ hq))
    refine ⟨sets1, ?_, ?_⟩
    · simp only [unlock_all_and_invalidate_loop, hidx, hinv]
      exact hs1
    · intro si wi
      obtain ⟨hin, hout⟩ := hrest si wi
      by_cases hhead : (si.val, wi.val) = (p1, p2)
      · simp only [Prod.mk.injEq] at hhead
        have hsi : si = ⟨p1, hp1⟩ := Fin.ext hhead.1
        have hwi : wi = ⟨p2, hp2⟩ := Fin.ext hhead.2
        subst hsi hwi
        refine ⟨fun _ => ?_, fun h => absurd (List.mem_cons_self _ _) h⟩
        rw [Function.update_same] at hin hout
        by_cases hr : (p1, p2) ∈ rest
        · obtain ⟨h1, h2, h3, n, hn, h4⟩ := hin hr
          refine ⟨h1, h2, h3, n + 1, Nat.succ_pos n, ?_⟩
          rw [h4, hk.2.2.2, Function.iterate_succ_apply]
        · obtain ⟨h1, h2, h3, h4⟩ := hout hr
          exact ⟨h1.trans hk.1, h2.trans hk.2.1, h3.trans hk.2.2.1, 1, Nat.one_pos,
            h4.trans hk.2.2.2⟩
      · have hsame : ((Function.update sets ⟨p1, hp1⟩ set1) si).tags.unlockedmap wi
              = (sets si).tags.unlockedmap wi ∧
            ((Function.update sets ⟨p1, hp1⟩ set1) si).tags.tags wi = (sets si).tags.tags wi ∧
            ((Function.update sets ⟨p1, hp1⟩ set1) si).tags.evictmap wi
              = (sets si).tags.evictmap wi ∧
            ((Function.update sets ⟨p1, hp1⟩ set1) si).data wi = (sets si).data wi := by
          by_cases hs : si = ⟨p1, hp1⟩
          · subst hs
            have hw : wi ≠ ⟨p2, hp2⟩ := by
              intro hw
              apply hhead
              rw [hw]
            rw [Function.update_same]
            exact hother wi hw
          · rw [Function.update_noteq hs]
            exact ⟨rfl, rfl, rfl, rfl⟩
        obtain ⟨e1, e2, e3, e4⟩ := hsame
        constructor
        · intro hmem
          have hr : (si.val, wi.val) ∈ rest := by
            rcases List.mem_cons.1 hmem with h | h
            · exact absurd h hhead
            · exact h
          obtain ⟨h1, h2, h3, n, hn, h4⟩ := hin hr
          exact ⟨h1, h2, h3, n, hn, by rw [h4, e4]⟩
        · intro hmem
          have hr : (si.val, wi.val) ∉ rest := fun h => hmem (List.mem_cons_of_mem _ h)
          obtain ⟨h1, h2, h3, h4⟩ := hout hr
          exact ⟨h1.trans e1, h2.trans e2, h3.trans e3, h4.trans e4⟩

end LockableAssociativeArray

namespace LockableAssociativeArray

variable {T : TagType} {V : Type} {setcount waycount linesize : Nat}

/-- C11, as stated, fails when the array has more than 65536 sets.  In a
`LockableAssociativeArray<W64, V, 131072, 1, 64>` the call
`select_and_lock(4194304)` after `reset()` locks way 0 of set 65536 and records
it as (set 0, way 0); `unlock_all_and_invalidate()` then invalidates way 0 of
set 0, and way 0 of set 65536 stays locked and keeps its tag 4194304. -/
theorem C11_unlock_all_and_invalidate_counterexample :
    Reachable exB1 ∧ (exB1.sets ⟨65536, by decide⟩).tags.unlockedmap ⟨0, by decide⟩ = false ∧
    exB1.unlock_all_and_invalidate = some exB3 ∧
    (exB3.sets ⟨65536, by decide⟩).tags.unlockedmap ⟨0, by decide⟩ = false ∧
    (exB3.sets ⟨65536, by decide⟩).tags.tags ⟨0, by decide⟩ = 4194304 ∧
    4194304 ≠ InvalidTag.INVALID .W64 :=
  ⟨Reachable.select_and_lock exB0 exB1 4194304 false true (some 0) (Reachable.reset _) rfl,
    by decide, rfl, by decide, by decide, by decide⟩

/-- C11, amended: with at most 65536 sets and at most 65536 ways (the range of
the `W16` fields of the clear-list), take any state reached from `reset()` by
calls none of which wrote past the end of `clearlist`.  The clear-list of such
a state holds at most `setcount * waycount` records, the capacity of the array
`clearlist`; the call `unlock_all_and_invalidate()` ends, and after it the
clear-list is empty, every way of every set is unlocked, and every way that
was locked before the call holds the sentinel tag, has its MRU bit clear and
has had `reset()` run on its payload line. -/
theorem C11_unlock_all_and_invalidate [LineData V] (hsc : setcount ≤ 65536)
    (hwc : waycount ≤ 65536)
    (s : LockableAssociativeArray T V setcount waycount linesize) (hr : Reachable s) :
    s.clearlist.length ≤ setcount * waycount ∧
    ∃ s1, s.unlock_all_and_invalidate = some s1 ∧ s1.clearlist = [] ∧
      ∀ (si : Fin setcount) (wi : Fin waycount),
        (s1.sets si).tags.unlockedmap wi = true ∧
        ((s.sets si).tags.unlockedmap wi = false →
          (s1.sets si).tags.tags wi = LockableFullyAssociativeTags.INVALID T ∧
          (s1.sets si).tags.evictmap wi = false ∧
          ∃ n, 0 < n ∧ (s1.sets si).data wi = (LineData.reset^[n]) ((s.sets si).data wi)) := by
  refine ⟨reachable_within s hr, ?_⟩
  obtain ⟨hrange, hrec⟩ := reachable_inv hsc hwc s hr
  obtain ⟨sets1, hs1, hspec⟩ := unlock_all_and_invalidate_loop_total s.clearlist s.sets hrange
  refine ⟨{ sets := sets1, clearlist := [] }, by simp [unlock_all_and_invalidate, hs1], rfl, ?_⟩
  intro si wi
  obtain ⟨hin, hout⟩ := hspec si wi
  constructor
  · by_cases hmem : (si.val, wi.val) ∈ s.clearlist
    · exact (hin hmem).1
    · cases hold : (s.sets si).tags.unlockedmap wi
      · exact absurd (hrec si wi hold) hmem
      · simp only
        rw [(hout hmem).1, hold]
  · intro hlocked
    obtain ⟨-, h2, h3, h4⟩ := hin (hrec si wi hlocked)
    exact ⟨h2, h3, h4⟩

/-- C11, amended, at a concrete state: the one-set, one-way array after
`reset()` and `select_and_lock(0)`, in which way 0 is locked. -/
theorem C11_unlock_all_and_invalidate_witness :
    (1 ≤ 65536) ∧ Reachable exA1 ∧ (exA1.sets 0).tags.unlockedmap 0 = false ∧
    exA1.clearlist.length ≤ 1 * 1 ∧
    ∃ s1, exA1.unlock_all_and_invalidate = some s1 ∧ s1.clearlist = [] ∧
      ∀ (si : Fin 1) (wi : Fin 1),
        (s1.sets si).tags.unlockedmap wi = true ∧
        ((exA1.sets si).tags.unlockedmap wi = false →
          (s1.sets si).tags.tags wi = LockableFullyAssociativeTags.INVALID TagType.W64 ∧
          (s1.sets si).tags.evictmap wi = false ∧
          ∃ n, 0 < n ∧ (s1.sets si).data wi = (LineData.reset^[n]) ((exA1.sets si).data wi)) :=
  have hr : Reachable exA1 :=
    Reachable.select_and_lock exA0 exA1 0 false true (some 0) (Reachable.reset _) rfl
  ⟨by decide, hr, by decide, C11_unlock_all_and_invalidate (by decide) (by decide) exA1 hr⟩

end LockableAssociativeArray

/-! ## CommitRollbackCache: how the operations act -/

namespace CommitRollbackCache

variable {T : TagType} {V : Type} {setcount waycount linesize maxdirty : Nat}

theorem rollback_loop_spec (l : List (BackupCacheLine linesize))
    (c : CommitRollbackCache T V setcount waycount linesize maxdirty) :
    (rollback_loop c l).toLockableAssociativeArray = c.toLockableAssociativeArray ∧
    (rollback_loop c l).stores = c.stores ∧
    (rollback_loop c l).upcalls = c.upcalls ++ l.map (fun cl => cl.addr) ∧
    (rollback_loop c l).memory
      = l.foldl (fun m cl => storeLine m cl.addr cl.data) c.memory := by
  induction l generalizing c with
  | nil => simp [rollback_loop]
  | cons cl rest ih =>
    obtain ⟨h1, h2, h3, h4⟩ := ih
      (invalidate_upwards { c with memory := storeLine c.memory cl.addr cl.data } cl.addr)
    simp only [rollback_loop, List.map_cons, List.foldl_cons]
    refine ⟨h1, h2, ?_, h4⟩
    rw [h3]
    simp [invalidate_upwards]

/-- The array part of a reachable cache is a reachable array. -/
theorem reachable_array [LineData V]
    (c : CommitRollbackCache T V setcount waycount linesize maxdirty) (hr : Reachable c) :
    LockableAssociativeArray.Reachable c.toLockableAssociativeArray := by
  induction hr with
  | reset c0 => exact LockableAssociativeArray.Reachable.reset _
  | probe c c1 addr line _ h ih =>
    unfold probe at h
    split at h
    · simp at h
    · rename_i a1 line1 hp
      simp only [Option.some.injEq, Prod.mk.injEq] at h
      rw [← h.1]
      exact LockableAssociativeArray.Reachable.probe _ a1 addr line1 ih hp
  | select c c1 addr oldaddr oldaddr1 line _ h ih =>
    unfold select at h
    split at h
    · simp at h
    · rename_i a1 line1 old1 hp
      simp only [Option.some.injEq, Prod.mk.injEq] at h
      rw [← h.1]
      exact LockableAssociativeArray.Reachable.select _ a1 addr oldaddr old1 line1 ih hp
  | invalidate c c1 addr _ h ih =>
    unfold invalidate at h
    split at h
    · simp at h
    · rename_i a1 hp
      simp only [Option.some.injEq] at h
      rw [← h]
      exact LockableAssociativeArray.Reachable.invalidate _ a1 addr ih hp
  | select_and_lock c c1 addr line _ h ih =>
    unfold select_and_lock at h
    simp only at h
    split at h
    · simp at h
    · rename_i a1 line1 fl1 hp
      have hr1 := LockableAssociativeArray.Reachable.select_and_lock _ a1 _ false fl1 line1 ih hp
      split at h
      · simp only [Option.some.injEq, Prod.mk.injEq] at h
        rw [← h.1]
        exact hr1
      · split at h
        · split at h
          · simp only [Option.some.injEq, Prod.mk.injEq] at h
            rw [← h.1]
            exact hr1
          · simp at h
        · simp only [Option.some.injEq, Prod.mk.injEq] at h
          rw [← h.1]
          exact hr1
  | write_line c addr data _ ih => exact ih
  | commit c c1 _ h ih =>
    unfold commit at h
    split at h
    · simp at h
    · rename_i a1 hp
      simp only [Option.some.injEq] at h
      rw [← h]
      exact LockableAssociativeArray.Reachable.unlock_all _ a1 ih hp
  | rollback c c1 _ h ih =>
    unfold rollback at h
    split at h
    · simp at h
    · rename_i a1 hp
      simp only [Option.some.injEq] at h
      rw [← h]
      simp only [(rollback_loop_spec c.stores _).1]
      exact LockableAssociativeArray.Reachable.unlock_all_and_invalidate _ a1 ih hp

/-- In every reachable state the backup buffer holds at most `maxdirty`
entries: the states are reached by calls with a result, and a call that writes
past the end of `stores` has none. -/
theorem reachable_stores_within [LineData V]
    (c : CommitRollbackCache T V setcount waycount linesize maxdirty) (hr : Reachable c) :
    c.stores.length ≤ maxdirty := by
  induction hr with
  | reset c0 => simp [reset]
  | probe c c1 addr line _ h ih =>
    unfold probe at h
    split at h
    · simp at h
    · simp only [Option.some.injEq, Prod.mk.injEq] at h
      rw [← h.1]
      exact ih
  | select c c1 addr oldaddr oldaddr1 line _ h ih =>
    unfold select at h
    split at h
    · simp at h
    · simp only [Option.some.injEq, Prod.mk.injEq] at h
      rw [← h.1]
      exact ih
  | invalidate c c1 addr _ h ih =>
    unfold invalidate at h
    split at h
    · simp at h
    · simp only [Option.some.injEq] at h
      rw [← h]
      exact ih
  | select_and_lock c c1 addr line _ h ih =>
    unfold select_and_lock at h
    simp only at h
    split at h
    · simp at h
    · split at h
      · simp only [Option.some.injEq, Prod.mk.injEq] at h
        rw [← h.1]
        exact ih
      · split at h
        · split at h
          · rename_i hcap
            simp only [Option.some.injEq, Prod.mk.injEq] at h
            rw [← h.1]
            simp only [List.length_append, List.length_singleton]
            omega
          · simp at h
        · simp only [Option.some.injEq, Prod.mk.injEq] at h
          rw [← h.1]
          exact ih
  | write_line c addr data _ ih => exact ih
  | commit c c1 _ h ih =>
    unfold commit at h
    split at h
    · simp at h
    · simp only [Option.some.injEq] at h
      rw [← h]
      simp
  | rollback c c1 _ h ih =>
    unfold rollback at h
    split at h
    · simp at h
    · simp only [Option.some.injEq] at h
      rw [← h]
      simp

/-- Every reachable state of the cache fits the arrays of the C object. -/
theorem reachable_insideArrays [LineData V]
    (c : CommitRollbackCache T V setcount waycount linesize maxdirty) (hr : Reachable c) :
    InsideArrays c :=
  ⟨LockableAssociativeArray.reachable_within _ (reachable_array c hr),
    LockableAssociativeArray.reachable_clearInRange _ (reachable_array c hr),
    reachable_stores_within c hr⟩

end CommitRollbackCache

/-! ## CommitRollbackCache: main results -/

namespace CommitRollbackCache

variable {T : TagType} {V : Type} {setcount waycount linesize maxdirty : Nat}

theorem storeLine_loop_last {n : Nat} (data : Fin n → Nat) (addr : Nat) (l : List (Fin n))
    (hnd : l.Nodup) (m : Memory) (i : Fin n) (hi : i ∈ l) :
    l.foldl (fun m j => Function.update m (addr + 8 * j.val) (data j)) m (addr + 8 * i.val)
      = data i := by
  induction l generalizing m with
  | nil => simp at hi
  | cons a rest ih =>
    rw [List.nodup_cons] at hnd
    simp only [List.foldl_cons]
    by_cases hr : i ∈ rest
    · exact ih hnd.2 _ hr
    · have hia : i = a := by
        rcases List.mem_cons.1 hi with h | h
        · exact h
        · exact absurd h hr
      subst hia
      have key : ∀ (l2 : List (Fin n)) (m2 : Memory), i ∉ l2 →
          l2.foldl (fun m j => Function.update m (addr + 8 * j.val) (data j)) m2
            (addr + 8 * i.val) = m2 (addr + 8 * i.val) := by
        intro l2
        induction l2 with
        | nil => intro m2 _; rfl
        | cons b l3 ih3 =>
          intro m2 hb
          simp only [List.foldl_cons]
          rw [ih3 _ (fun h => hb (List.mem_cons_of_mem _ h))]
          have hne : addr + 8 * i.val ≠ addr + 8 * b.val := by
            intro he
            apply hb
            have : i = b := Fin.ext (by omega)
            rw [this]
            exact List.mem_cons_self _ _
          exact Function.update_noteq hne _ _
      rw [key rest _ hr]
      exact Function.update_same _ _ _

/-- The loop that writes a line back leaves the word `data[i]` at
`addr + 8 * i`. -/
theorem storeLine_word (m : Memory) (addr : Nat) {n : Nat} (data : Fin n → Nat) (i : Fin n) :
    storeLine m addr data (addr + 8 * i.val) = data i :=
  storeLine_loop_last data addr (List.finRange n) (List.nodup_finRange n) m i
    (List.mem_finRange i)

theorem storeLine_other (m : Memory) (addr : Nat) {n : Nat} (data : Fin n → Nat) (x : Nat)
    (h : ∀ i : Fin n, x ≠ addr + 8 * i.val) : storeLine m addr data x = m x := by
  unfold storeLine
  have key : ∀ (l : List (Fin n)) (m2 : Memory),
      l.foldl (fun m j => Function.update m (addr + 8 * j.val) (data j)) m2 x = m2 x := by
    intro l
    induction l with
    | nil => intro m2; rfl
    | cons b l3 ih3 =>
      intro m2
      simp only [List.foldl_cons]
      rw [ih3]
      exact Function.update_noteq (h b) _ _
  exact key _ _

/-- A word that no entry of the list covers is left alone by the replay of the
list. -/
theorem replay_other {linesize : Nat} (l : List (BackupCacheLine linesize)) (m : Memory)
    (x : Nat) (h : ∀ cl ∈ l, ∀ i : Fin (linesize / 8), cl.addr + 8 * i.val ≠ x) :
    l.foldl (fun m cl => storeLine m cl.addr cl.data) m x = m x := by
  induction l generalizing m with
  | nil => rfl
  | cons cl rest ih =>
    simp only [List.foldl_cons]
    rw [ih _ (fun cl2 h2 => h cl2 (List.mem_cons_of_mem _ h2))]
    exact storeLine_other m cl.addr cl.data x
      (fun i he => h cl (List.mem_cons_self _ _) i he.symm)

/-- After the replay of a list a word of an entry holds the saved word, unless
an entry further on in the list covers it. -/
theorem replay_word {linesize : Nat} (older newer : List (BackupCacheLine linesize))
    (cl : BackupCacheLine linesize) (m : Memory) (i : Fin (linesize / 8))
    (h : ∀ cl2 ∈ newer, ∀ j : Fin (linesize / 8), cl2.addr + 8 * j.val ≠ cl.addr + 8 * i.val) :
    (older ++ cl :: newer).foldl (fun m cl => storeLine m cl.addr cl.data) m
      (cl.addr + 8 * i.val) = cl.data i := by
  rw [List.foldl_append, List.foldl_cons, replay_other newer _ _ h]
  exact storeLine_word _ _ _ i

/-- C12, as stated, fails when the array has more than 65536 sets.  In a
`CommitRollbackCache<W64, V, 131072, 1, 64, 2>` the speculative write to the
line 4194304 of set 65536 (`select_and_lock`, then the write) records the lock
as (set 0, way 0); `commit()` leaves the written memory as it is, but the way
of the line stays locked. -/
theorem C12_commit_counterexample :
    Reachable exE2 ∧ exE2.commit = some exE3 ∧ exE3.memory 4194304 = 1 ∧
    (exE3.sets ⟨65536, by decide⟩).tags.unlockedmap ⟨0, by decide⟩ = false :=
  ⟨Reachable.write_line exE1 4194304 (fun _ => 1)
      (Reachable.select_and_lock exE0 exE1 4194304 (some 0) (Reachable.reset _) rfl),
    rfl, by decide, by decide⟩

/-- C12, amended: with at most 65536 sets and at most 65536 ways (the range of
the `W16` fields of the clear-list), take any state reached from `reset()` by
the operations of the cache and by line writes, no call having written past
the end of `clearlist` or of `stores`.  In such a state the clear-list holds at
most `setcount * waycount` records and the backup buffer at most `maxdirty`
entries, the capacities of the two arrays; `commit()` ends and leaves the
backing memory exactly as the writes left it, leaves every tag (and eviction
bitmap and payload line) in place, leaves every way unlocked, makes no call of
the hook and empties both the backup buffer and the clear-list. -/
theorem C12_commit [LineData V] (hsc : setcount ≤ 65536) (hwc : waycount ≤ 65536)
    (c : CommitRollbackCache T V setcount waycount linesize maxdirty) (hr : Reachable c) :
    c.clearlist.length ≤ setcount * waycount ∧ c.stores.length ≤ maxdirty ∧
    ∃ c1, c.commit = some c1 ∧ c1.memory = c.memory ∧ c1.upcalls = c.upcalls ∧
      c1.stores = [] ∧ c1.clearlist = [] ∧
      ∀ si, (∀ wi, (c1.sets si).tags.unlockedmap wi = true) ∧
        (c1.sets si).tags.tags = (c.sets si).tags.tags ∧
        (c1.sets si).tags.evictmap = (c.sets si).tags.evictmap ∧
        (c1.sets si).data = (c.sets si).data := by
  have hra := reachable_array c hr
  refine ⟨LockableAssociativeArray.reachable_within _ hra, reachable_stores_within c hr, ?_⟩
  obtain ⟨hrange, hrec⟩ := LockableAssociativeArray.reachable_inv hsc hwc _ hra
  obtain ⟨sets1, hs1, hspec⟩ :=
    LockableAssociativeArray.unlock_all_loop_spec c.clearlist c.sets hrange
  refine ⟨{ c with toLockableAssociativeArray := { sets := sets1, clearlist := [] }
                   stores := [] }, ?_, rfl, rfl, rfl, rfl, ?_⟩
  · simp [commit, LockableAssociativeArray.unlock_all, hs1]
  · intro si
    obtain ⟨h1, h2, h3, h4⟩ := hspec si
    refine ⟨?_, h1, h2, h3⟩
    intro wi
    rcases h4 wi with h | ⟨hni, h⟩
    · exact h
    · cases hold : (c.sets si).tags.unlockedmap wi
      · exact absurd (hrec si wi hold) hni
      · simp only
        rw [h, hold]

/-- C12, amended, at a concrete run: one set, two ways, lines of one word; the
line 0 is locked and overwritten with the word 7, then `commit()` runs. -/
theorem C12_commit_witness :
    (1 ≤ 65536) ∧ (2 ≤ 65536) ∧ Reachable (exC1.write_line 0 (fun _ => 7)) ∧
    (exC1.write_line 0 (fun _ => 7)).memory 0 = 7 ∧
    (exC1.write_line 0 (fun _ => 7)).clearlist.length ≤ 1 * 2 ∧
    (exC1.write_line 0 (fun _ => 7)).stores.length ≤ 2 ∧
    ∃ c1, (exC1.write_line 0 (fun _ => 7)).commit = some c1 ∧
      c1.memory = (exC1.write_line 0 (fun _ => 7)).memory ∧
      c1.upcalls = (exC1.write_line 0 (fun _ => 7)).upcalls ∧
      c1.stores = [] ∧ c1.clearlist = [] ∧
      ∀ si, (∀ wi, (c1.sets si).tags.unlockedmap wi = true) ∧
        (c1.sets si).tags.tags = ((exC1.write_line 0 (fun _ => 7)).sets si).tags.tags ∧
        (c1.sets si).tags.evictmap = ((exC1.write_line 0 (fun _ => 7)).sets si).tags.evictmap ∧
        (c1.sets si).data = ((exC1.write_line 0 (fun _ => 7)).sets si).data :=
  have hr : Reachable (exC1.write_line 0 (fun _ => 7)) :=
    Reachable.write_line exC1 0 (fun _ => 7)
      (Reachable.select_and_lock exC0 exC1 0 (some 0) (Reachable.reset _) rfl)
  ⟨by decide, by decide, hr, by decide, C12_commit (by decide) (by decide) _ hr⟩

/-- C13, the code at a run that rollback does not undo.  In a
`CommitRollbackCache<W64, V, 1, 2, 8, 2>` over a memory of zeros, the lines 0
and 8 are locked and committed, which leaves them in ways 0 and 1, unlocked,
with both MRU bits set (`exC3`, the start of the window).  In the window
`select_and_lock(0)` locks way 0 and backs up line 0; `select_and_lock(16)`
misses, `lru()` falls back to the locked way 0, the line 16 replaces line 0
there, and since the way is locked already no backup of line 16 is taken; the
caller writes the word 1 into line 16.  `rollback()` restores line 0 only:
the word at 16 is still 1, not the 0 it held at the start of the window. -/
theorem C13_rollback_leaves_speculative_write :
    Reachable exC3 ∧ exC3.stores.length = 0 ∧
    (∀ wi, (exC3.sets 0).tags.unlockedmap wi = true) ∧
    exC3.select_and_lock 0 = some (exC4, some 0) ∧
    exC4.select_and_lock 16 = some (exC5, some 0) ∧
    exC5.stores.map (fun cl => cl.addr) = [0] ∧
    exC6 = exC5.write_line 16 (fun _ => 1) ∧
    exC6.rollback = some exC7 ∧
    exC3.memory 16 = 0 ∧ exC7.memory 16 = 1 :=
  have hr : Reachable exC3 :=
    Reachable.commit exC2 exC3
      (Reachable.select_and_lock exC1 exC2 8 (some 1)
        (Reachable.select_and_lock exC0 exC1 0 (some 0) (Reachable.reset _) rfl) rfl) rfl
  ⟨hr, by decide, by decide, rfl, rfl, by decide, rfl, rfl, by decide, by decide⟩

/-- C15: take any state of the cache that fits its arrays (`InsideArrays`: at
most `setcount * waycount` records in the clear-list, each naming a set and a
way of the array, and at most `maxdirty` backup entries), whatever the backing
memory and the saved words are; every state reached from `reset()` is one
(`reachable_insideArrays`).  There `rollback()` ends.  It replays the backup
buffer from the oldest entry to the newest and writes the saved words of each
entry back to its saved address: afterwards a word of an entry holds the word
saved in that entry unless an entry captured later covers the same address,
and a word that no entry covers is as before.  It calls the hook once per
entry with the saved address, so that the calls made are the saved addresses
in the order of capture, and the backup buffer is empty afterwards. -/
theorem C15_rollback_replay [LineData V]
    (c : CommitRollbackCache T V setcount waycount linesize maxdirty) (hin : InsideArrays c) :
    ∃ c1, c.rollback = some c1 ∧
      c1.upcalls = c.upcalls ++ c.stores.map (fun cl => cl.addr) ∧
      (∀ older cl newer, c.stores = older ++ cl :: newer → ∀ i : Fin (linesize / 8),
        (∀ cl2 ∈ newer, ∀ j : Fin (linesize / 8),
          cl2.addr + 8 * j.val ≠ cl.addr + 8 * i.val) →
        c1.memory (cl.addr + 8 * i.val) = cl.data i) ∧
      (∀ x, (∀ cl ∈ c.stores, ∀ i : Fin (linesize / 8), cl.addr + 8 * i.val ≠ x) →
        c1.memory x = c.memory x) ∧
      c1.stores = [] := by
  obtain ⟨-, hrange, -⟩ := hin
  obtain ⟨sets1, hs1, -⟩ :=
    LockableAssociativeArray.unlock_all_and_invalidate_loop_total c.clearlist c.sets hrange
  have hua : c.toLockableAssociativeArray.unlock_all_and_invalidate
      = some { sets := sets1, clearlist := [] } := by
    simp [LockableAssociativeArray.unlock_all_and_invalidate, hs1]
  obtain ⟨c2, hc2⟩ : ∃ c2 : CommitRollbackCache T V setcount waycount linesize maxdirty,
      c2 = rollback_loop
        { c with toLockableAssociativeArray := { sets := sets1, clearlist := [] } } c.stores :=
    ⟨_, rfl⟩
  have hroll : c.rollback = some { c2 with stores := [] } := by
    simp [rollback, hua, hc2]
  obtain ⟨-, -, h3, h4⟩ := rollback_loop_spec c.stores
    ({ c with toLockableAssociativeArray := { sets := sets1, clearlist := [] } } :
      CommitRollbackCache T V setcount waycount linesize maxdirty)
  rw [← hc2] at h3 h4
  refine ⟨_, hroll, h3, ?_, ?_, rfl⟩
  · intro older cl newer hst i hnew
    simp only
    rw [h4, hst]
    exact replay_word older newer cl _ i hnew
  · intro x hx
    simp only
    rw [h4]
    exact replay_other c.stores _ x hx

/-- C15, at a concrete run of a `CommitRollbackCache<W64, V, 1, 2, 8, 2>` over
a memory of zeros: `select_and_lock(0)`, the write of 5 into the line 0,
`invalidate(0)`, `select_and_lock(0)` (a first lock again) and the write of 9.
The buffer holds two entries of the line 0, the older with the word 0 and the
newer with the word 5, and the memory holds 9; `rollback()` leaves the word 5
of the newer entry in memory and calls the hook twice with the address 0, after
the call that `invalidate(0)` made. -/
theorem C15_rollback_replay_witness :
    Reachable exH4 ∧ InsideArrays exH4 ∧
    exH4.stores.map (fun cl => (cl.addr, cl.data ⟨0, by decide⟩)) = [(0, 0), (0, 5)] ∧
    exH4.memory 0 = 9 ∧ exH4.upcalls = [0] ∧
    (exH4.rollback).map (fun c => (c.memory 0, c.upcalls)) = some (5, [0, 0, 0]) ∧
    ∃ c1, exH4.rollback = some c1 ∧
      c1.upcalls = exH4.upcalls ++ exH4.stores.map (fun cl => cl.addr) ∧
      (∀ older cl newer, exH4.stores = older ++ cl :: newer → ∀ i : Fin (8 / 8),
        (∀ cl2 ∈ newer, ∀ j : Fin (8 / 8),
          cl2.addr + 8 * j.val ≠ cl.addr + 8 * i.val) →
        c1.memory (cl.addr + 8 * i.val) = cl.data i) ∧
      (∀ x, (∀ cl ∈ exH4.stores, ∀ i : Fin (8 / 8), cl.addr + 8 * i.val ≠ x) →
        c1.memory x = exH4.memory x) ∧
      c1.stores = [] :=
  have hr : Reachable exH4 :=
    Reachable.write_line exH3 0 (fun _ => 9)
      (Reachable.select_and_lock exH2 exH3 0 (some 0)
        (Reachable.invalidate exH1 exH2 0
          (Reachable.write_line exC1 0 (fun _ => 5)
            (Reachable.select_and_lock exC0 exC1 0 (some 0) (Reachable.reset _) rfl))
          rfl) rfl)
  have hin : InsideArrays exH4 :=
    ⟨by decide, (by decide : ∀ p ∈ exH4.clearlist, p.1 < 1 ∧ p.2 < 2), by decide⟩
  ⟨hr, hin, by decide, by decide, by decide, by decide, C15_rollback_replay exH4 hin⟩

/-- C16, as stated, fails: there is no capacity check and no assertion.  In a
`CommitRollbackCache<W64, V, 1, 2, 8, 1>` (room for one backup entry) the
buffer holds one entry after `select_and_lock(0)`.  `select_and_lock(8)` is a
first lock again: the call on the array returns the line of way 1 with
`firstlock` true, and the method goes on to write the backup to `*storetail`,
which is `stores[1]`, past the end of the one-entry array.  Nothing stops the
call before that write, and it has no result. -/
theorem C16_backup_overflow_counterexample :
    Reachable exD1 ∧ exD1.stores.length = 1 ∧
    (exD1.toLockableAssociativeArray.select_and_lock (floor 8 8) false).map (fun r => r.2)
      = some (some 1, true) ∧
    exD1.select_and_lock 8 = none :=
  ⟨Reachable.select_and_lock exD0 exD1 0 (some 0) (Reachable.reset _) rfl,
    by decide, by decide, rfl⟩

/-- C16, amended: `select_and_lock(addr)` makes no capacity check.  Let the
call on the array return `line` and `firstlock`.  If `line` is not null it is
the line of a way `k` of the set of the line address, and `firstlock` tells
whether way `k` was unlocked before the call.  Without a line, or when the way
was locked already, the call returns `line` and leaves the backup buffer and
the memory as they are.  On a first lock with fewer than `maxdirty` entries in
the buffer it returns `line` and the buffer has grown by exactly one entry, the
line address with the words the memory holds there, and still holds at most
`maxdirty` entries.  On a first lock with `maxdirty` entries or more in the
buffer the backup is written past the end of `stores`: the call has no
result. -/
theorem C16_backup_unchecked
    (c : CommitRollbackCache T V setcount waycount linesize maxdirty) (addr : Nat)
    (a1 : LockableAssociativeArray T V setcount waycount linesize)
    (line : Option Int) (firstlock : Bool)
    (ha : c.toLockableAssociativeArray.select_and_lock (floor addr linesize) false
      = some (a1, line, firstlock)) :
    (line ≠ none →
      ∃ (si : Fin setcount) (k : Fin waycount),
        LockableAssociativeArray.setof setcount linesize (floor addr linesize) = (si.val : Int) ∧
        line = some (k.val : Int) ∧ firstlock = (c.sets si).tags.unlockedmap k) ∧
    ((line = none ∨ firstlock = false) →
      ∃ c1, c.select_and_lock addr = some (c1, line) ∧ c1.toLockableAssociativeArray = a1 ∧
        c1.stores = c.stores ∧ c1.memory = c.memory) ∧
    (line ≠ none → firstlock = true → c.stores.length < maxdirty →
      ∃ c1, c.select_and_lock addr = some (c1, line) ∧ c1.toLockableAssociativeArray = a1 ∧
        c1.stores = c.stores ++ [{ addr := floor addr linesize
                                   data := loadLine c.memory (floor addr linesize)
                                     (linesize / 8) }] ∧
        c1.stores.length ≤ maxdirty ∧ c1.memory = c.memory) ∧
    (line ≠ none → firstlock = true → maxdirty ≤ c.stores.length →
      c.select_and_lock addr = none) := by
  refine ⟨?_, ?_, ?_, ?_⟩
  · intro hne
    rcases LockableAssociativeArray.select_and_lock_line_spec _ _ _ _ _ _ ha with
      ⟨hl, -⟩ | ⟨si, k, hset, hl, hfl, -⟩
    · exact absurd hl hne
    · exact ⟨si, k, hset, hl, hfl⟩
  · intro hor
    unfold select_and_lock
    simp only [ha]
    cases line with
    | none => exact ⟨_, rfl, rfl, rfl, rfl⟩
    | some w =>
      rcases hor with hn | hf
      · simp at hn
      · subst hf
        exact ⟨_, rfl, rfl, rfl, rfl⟩
  · intro hne hf hcap
    unfold select_and_lock
    simp only [ha]
    cases line with
    | none => exact absurd rfl hne
    | some w =>
      subst hf
      simp only [↓reduceIte, hcap]
      refine ⟨_, rfl, rfl, rfl, ?_, rfl⟩
      simp only [List.length_append, List.length_singleton]
      omega
  · intro hne hf hcap
    unfold select_and_lock
    simp only [ha]
    cases line with
    | none => exact absurd rfl hne
    | some w =>
      subst hf
      have hn : ¬ c.stores.length < maxdirty := by omega
      simp only [↓reduceIte, hn]

/-- C16, amended, at a concrete run: the first lock in a fresh cache with room
for one backup entry.  The call on the array returns the line of way 0 with
`firstlock` true, the buffer is empty, and the call records the backup of line
0, the one entry the buffer has room for. -/
theorem C16_backup_unchecked_witness :
    ∃ a1, exD0.toLockableAssociativeArray.select_and_lock (floor 0 8) false
        = some (a1, some 0, true) ∧
      exD0.stores.length < 1 ∧
      ∃ c1, exD0.select_and_lock 0 = some (c1, some 0) ∧ c1.toLockableAssociativeArray = a1 ∧
        c1.stores = exD0.stores ++ [{ addr := floor 0 8
                                      data := loadLine exD0.memory (floor 0 8) (8 / 8) }] ∧
        c1.stores.length ≤ 1 ∧ c1.memory = exD0.memory :=
  ⟨exD1.toLockableAssociativeArray, rfl, by decide,
    (C16_backup_unchecked exD0 0 exD1.toLockableAssociativeArray (some 0) true rfl).2.2.1
      (by decide) rfl (by decide)⟩

end CommitRollbackCache

/-! ## Two first locks in a fresh cache -/

theorem index?_zero_pos {n : Nat} (hn : 0 < n) : index? n 0 = some ⟨0, hn⟩ := by
  simpa using index?_coe (⟨0, hn⟩ : Fin n)

theorem index?_one {n : Nat} (hn : 1 < n) : index? n 1 = some ⟨1, hn⟩ := by
  simpa using index?_coe (⟨1, hn⟩ : Fin n)

namespace LockableFullyAssociativeTags

variable {T : TagType} {ways : Nat}

/-- The first `select_and_lock` in a set after `reset()`: the tag goes to way
0, which gets its MRU bit and its lock, on a first lock. -/
theorem select_and_lock_fresh (hw : 0 < ways) (t oldtag : Nat) (firstlock : Bool)
    (ht : t ≠ INVALID T) :
    (reset : LockableFullyAssociativeTags T ways).select_and_lock t firstlock oldtag
      = some (LockableFullyAssociativeTags.mk (Function.update bitvec.zero ⟨0, hw⟩ true)
                (Function.update bitvec.setall ⟨0, hw⟩ false)
                (Function.update (fun _ => INVALID T) ⟨0, hw⟩ t),
              0, true, INVALID T) := by
  have habs : ∀ i, (reset : LockableFullyAssociativeTags T ways).tags i ≠ t :=
    fun i h => ht h.symm
  have hl : (reset : LockableFullyAssociativeTags T ways).lru
      = (((⟨0, hw⟩ : Fin ways)).val : Int) := by
    rcases lru_victim (reset : LockableFullyAssociativeTags T ways) with
      ⟨-, h⟩ | ⟨k, hk, -, -, hmin⟩ | ⟨-, -, h, -⟩
    · have := h ⟨0, hw⟩
      simp [reset, bitvec.setall] at this
    · have hk0 : k ≤ ⟨0, hw⟩ := hmin ⟨0, hw⟩ rfl rfl
      have : k = ⟨0, hw⟩ := Fin.ext (Nat.le_zero.1 hk0)
      rw [hk, this]
    · have := h ⟨0, hw⟩ rfl
      simp [reset, bitvec.zero] at this
  have hsel := lselect_miss (reset : LockableFullyAssociativeTags T ways) t oldtag habs _ hl
  simp only [select_and_lock, hsel]
  simp [index?_zero_pos hw, lock, reset, bitvec.set, bitvec.setall]

/-- The second `select_and_lock` in a set after `reset()`, of another tag: the
tag goes to way 1, on a first lock. -/
theorem select_and_lock_second (hw : 1 < ways) (a b oldtag : Nat) (firstlock : Bool)
    (hab : b ≠ a) (hb : b ≠ INVALID T) (s : LockableFullyAssociativeTags T ways)
    (he : s.evictmap = Function.update bitvec.zero ⟨0, Nat.lt_of_succ_lt hw⟩ true)
    (hu : s.unlockedmap = Function.update bitvec.setall ⟨0, Nat.lt_of_succ_lt hw⟩ false)
    (htg : s.tags = Function.update (fun _ => INVALID T) ⟨0, Nat.lt_of_succ_lt hw⟩ a) :
    s.select_and_lock b firstlock oldtag
      = some (LockableFullyAssociativeTags.mk (Function.update s.evictmap ⟨1, hw⟩ true)
                (Function.update s.unlockedmap ⟨1, hw⟩ false)
                (Function.update s.tags ⟨1, hw⟩ b),
              1, true, INVALID T) := by
  have h01 : (⟨1, hw⟩ : Fin ways) ≠ ⟨0, Nat.lt_of_succ_lt hw⟩ := by
    intro h
    have := congrArg Fin.val h
    simp at this
  have habs : ∀ i, s.tags i ≠ b := by
    intro i h
    rw [htg] at h
    by_cases hi : i = ⟨0, Nat.lt_of_succ_lt hw⟩
    · rw [hi, Function.update_same] at h
      exact hab h.symm
    · rw [Function.update_noteq hi] at h
      exact hb h.symm
  have hu1 : s.unlockedmap ⟨1, hw⟩ = true := by
    rw [hu, Function.update_noteq h01]
    rfl
  have he1 : s.evictmap ⟨1, hw⟩ = false := by
    rw [he, Function.update_noteq h01]
    rfl
  have hl : s.lru = (((⟨1, hw⟩ : Fin ways)).val : Int) := by
    rcases lru_victim s with ⟨-, h⟩ | ⟨k, hk, hku, -, hmin⟩ | ⟨-, -, h, -⟩
    · rw [h ⟨1, hw⟩] at hu1
      exact absurd hu1 (by decide)
    · have hk1 : k ≤ ⟨1, hw⟩ := hmin ⟨1, hw⟩ hu1 he1
      have hk0 : k ≠ ⟨0, Nat.lt_of_succ_lt hw⟩ := by
        intro h
        rw [h, hu, Function.update_same] at hku
        exact absurd hku (by decide)
      have : k = ⟨1, hw⟩ := by
        apply Fin.ext
        have h1 : k.val ≤ 1 := hk1
        have h2 : k.val ≠ 0 := fun h => hk0 (Fin.ext h)
        simp only
        omega
      rw [hk, this]
    · rw [h ⟨1, hw⟩ hu1] at he1
      exact absurd he1 (by decide)
  have hna : s.evictmap.allset = false := by
    cases ha : s.evictmap.allset
    · rfl
    · rw [bitvec.allset_eq_true] at ha
      rw [ha ⟨1, hw⟩] at he1
      exact absurd he1 (by decide)
  have hsel := lselect_miss s b oldtag habs _ hl
  simp only [select_and_lock, hsel]
  have h0 : s.tags ⟨1, hw⟩ = INVALID T := by
    rw [htg, Function.update_noteq h01]
  simp [index?_one hw, lock, bitvec.set, hna, hu1, h0]

/-- With every way locked, `select_and_lock` of an absent tag returns `-1`. -/
theorem select_and_lock_all_locked (s : LockableFullyAssociativeTags T ways) (t oldtag : Nat)
    (firstlock : Bool) (hlocked : ∀ i, s.unlockedmap i = false) (habs : ∀ i, s.tags i ≠ t) :
    s.select_and_lock t firstlock oldtag = some (s, -1, firstlock, oldtag) := by
  have hl : s.lru < 0 := by
    have hz : s.unlockedmap.iszero = true := (bitvec.iszero_eq_true _).2 hlocked
    simp [lru, hz]
  simp [select_and_lock, select_miss_none s t oldtag habs hl]

end LockableFullyAssociativeTags

/-- Two distinct line addresses of a power-of-two line size have no word in
common. -/
theorem lines_disjoint (k A B : Nat) (hA : floor A (2 ^ k) = A) (hB : floor B (2 ^ k) = B)
    (hAB : A ≠ B) (i j : Fin (2 ^ k / 8)) : A + 8 * i.val ≠ B + 8 * j.val := by
  rw [floor_two_pow] at hA hB
  have hmA : A % 2 ^ k ≤ A := Nat.mod_le _ _
  have hmB : B % 2 ^ k ≤ B := Nat.mod_le _ _
  have hA0 : A % 2 ^ k = 0 := by omega
  have hB0 : B % 2 ^ k = 0 := by omega
  have hdA := Nat.div_add_mod A (2 ^ k)
  have hdB := Nat.div_add_mod B (2 ^ k)
  have hi : 8 * i.val < 2 ^ k := by
    have := i.isLt
    have h8 := Nat.div_mul_le_self (2 ^ k) 8
    omega
  have hj : 8 * j.val < 2 ^ k := by
    have := j.isLt
    have h8 := Nat.div_mul_le_self (2 ^ k) 8
    omega
  rcases Nat.lt_trichotomy (A / 2 ^ k) (B / 2 ^ k) with hlt | heq | hgt
  · have hm := Nat.mul_le_mul_left (2 ^ k) (Nat.succ_le_of_lt hlt)
    rw [Nat.mul_succ] at hm
    omega
  · exfalso
    apply hAB
    rw [← hdA, ← hdB, heq, hA0, hB0]
  · have hm := Nat.mul_le_mul_left (2 ^ k) (Nat.succ_le_of_lt hgt)
    rw [Nat.mul_succ] at hm
    omega

namespace LockableAssociativeArray

variable {T : TagType} {V : Type} {setcount waycount linesize : Nat}

/-- The array-level `select_and_lock` when the tag table of the set returns
way `k`: no result on a first lock with a full clear-list, and else the
updated set with the entry appended on a first lock. -/
theorem select_and_lock_of_tags (s : LockableAssociativeArray T V setcount waycount linesize)
    (addr : Nat) (firstlock : Bool) (si : Fin setcount)
    (hsi : index? setcount (setof setcount linesize addr) = some si)
    (t1 : LockableFullyAssociativeTags T waycount) (k : Fin waycount) (firstlock1 : Bool)
    (oldtag1 : Nat)
    (ht : (s.sets si).tags.select_and_lock (tagof linesize addr) firstlock 0
      = some (t1, (k.val : Int), firstlock1, oldtag1)) :
    s.select_and_lock addr firstlock
      = if firstlock1 = true ∧ ¬ s.clearlist.length < setcount * waycount then none
        else some (LockableAssociativeArray.mk
                (Function.update s.sets si
                  (LockableFullyAssociativeArray.mk t1 (s.sets si).data))
                (if firstlock1 then s.clearlist ++ [(toW16 (si.val : Int), toW16 (k.val : Int))]
                  else s.clearlist),
              some (k.val : Int), firstlock1) := by
  have h0 : ¬ ((k.val : Int) < 0) := by omega
  have hset : setof setcount linesize addr = (si.val : Int) := index?_eq_some hsi
  simp only [select_and_lock, hsi, LockableFullyAssociativeArray.select_and_lock2,
    LockableFullyAssociativeArray.select_and_lock, ht, h0, ↓reduceIte]
  cases firstlock1
  · simp
  · by_cases hcap : s.clearlist.length < setcount * waycount <;>
      simp [hset, hcap, LockableFullyAssociativeArray.wayof]

/-- The array-level `select_and_lock` when the tag table of the set returns
`-1`. -/
theorem select_and_lock_of_tags_none
    (s : LockableAssociativeArray T V setcount waycount linesize)
    (addr : Nat) (firstlock : Bool) (si : Fin setcount)
    (hsi : index? setcount (setof setcount linesize addr) = some si)
    (t1 : LockableFullyAssociativeTags T waycount) (firstlock1 : Bool) (oldtag1 : Nat)
    (ht : (s.sets si).tags.select_and_lock (tagof linesize addr) firstlock 0
      = some (t1, -1, firstlock1, oldtag1)) :
    ∃ s1, s.select_and_lock addr firstlock = some (s1, none, firstlock1) := by
  simp [select_and_lock, hsi, LockableFullyAssociativeArray.select_and_lock2,
    LockableFullyAssociativeArray.select_and_lock, ht]

end LockableAssociativeArray

namespace CommitRollbackCache

variable {T : TagType} {V : Type} {setcount waycount linesize maxdirty : Nat}

/-- A `select_and_lock` that returns a line names a set and a way of the
array. -/
theorem select_and_lock_some_index
    (c c1 : CommitRollbackCache T V setcount waycount linesize maxdirty) (addr : Nat)
    (w : Int) (h : c.select_and_lock addr = some (c1, some w)) :
    ∃ (si : Fin setcount) (_ : Fin waycount),
      index? setcount (LockableAssociativeArray.setof setcount linesize (floor addr linesize))
        = some si := by
  unfold select_and_lock at h
  simp only at h
  split at h
  · simp at h
  · rename_i a1 line1 fl1 hp
    rcases LockableAssociativeArray.select_and_lock_line_spec _ _ _ _ _ _ hp with
      ⟨hl, -⟩ | ⟨si, k, hset, -, -, -⟩
    · subst hl
      simp at h
    · exact ⟨si, k, by rw [hset]; exact index?_coe si⟩

/-- The cache-level `select_and_lock` of a line address when the tag table of
the set returns way `k` on a first lock and the call has a result (so that
the clear-list and the backup buffer had room). -/
theorem select_and_lock_first
    (c : CommitRollbackCache T V setcount waycount linesize maxdirty) (A : Nat)
    (hA : floor A linesize = A) (si : Fin setcount)
    (hsi : index? setcount (LockableAssociativeArray.setof setcount linesize A) = some si)
    (t1 : LockableFullyAssociativeTags T waycount) (k : Fin waycount) (oldtag1 : Nat)
    (ht : (c.sets si).tags.select_and_lock A false 0 = some (t1, (k.val : Int), true, oldtag1))
    (cx : CommitRollbackCache T V setcount waycount linesize maxdirty) (lx : Option Int)
    (h : c.select_and_lock A = some (cx, lx)) :
    c.select_and_lock A
      = some (CommitRollbackCache.mk
                (LockableAssociativeArray.mk
                  (Function.update c.sets si
                    (LockableFullyAssociativeArray.mk t1 (c.sets si).data))
                  (c.clearlist ++ [(LockableAssociativeArray.toW16 (si.val : Int),
                    LockableAssociativeArray.toW16 (k.val : Int))]))
                (c.stores ++ [BackupCacheLine.mk A (loadLine c.memory A (linesize / 8))])
                c.memory c.upcalls,
              some (k.val : Int)) := by
  have htag : LockableAssociativeArray.tagof linesize A = A := hA
  have ht2 : (c.sets si).tags.select_and_lock (LockableAssociativeArray.tagof linesize A) false 0
      = some (t1, (k.val : Int), true, oldtag1) := by rw [htag]; exact ht
  have harr := LockableAssociativeArray.select_and_lock_of_tags c.toLockableAssociativeArray
    A false si hsi t1 k true oldtag1 ht2
  by_cases hcl : c.clearlist.length < setcount * waycount
  · by_cases hst : c.stores.length < maxdirty
    · simp only [select_and_lock, hA, harr]
      simp [hcl, hst]
    · exfalso
      simp only [select_and_lock, hA, harr] at h
      simp [hcl, hst] at h
  · exfalso
    simp only [select_and_lock, hA, harr] at h
    simp [hcl] at h

/-- The cache-level `select_and_lock` of a line address when the tag table of
the set returns `-1`: no line. -/
theorem select_and_lock_fails
    (c : CommitRollbackCache T V setcount waycount linesize maxdirty) (A : Nat)
    (hA : floor A linesize = A) (si : Fin setcount)
    (hsi : index? setcount (LockableAssociativeArray.setof setcount linesize A) = some si)
    (t1 : LockableFullyAssociativeTags T waycount) (firstlock1 : Bool) (oldtag1 : Nat)
    (ht : (c.sets si).tags.select_and_lock A false 0 = some (t1, -1, firstlock1, oldtag1)) :
    ∃ c1, c.select_and_lock A = some (c1, none) := by
  have htag : LockableAssociativeArray.tagof linesize A = A := hA
  have ht2 : (c.sets si).tags.select_and_lock (LockableAssociativeArray.tagof linesize A) false 0
      = some (t1, -1, firstlock1, oldtag1) := by rw [htag]; exact ht
  obtain ⟨s1, hs1⟩ := LockableAssociativeArray.select_and_lock_of_tags_none
    c.toLockableAssociativeArray A false si hsi t1 firstlock1 oldtag1 ht2
  simp [select_and_lock, hA, hs1]

end CommitRollbackCache

namespace CommitRollbackCache

variable {T : TagType} {V : Type} {setcount waycount linesize maxdirty : Nat}

/-- `probe` of an address whose tag no way of its set holds finds no line. -/
theorem probe_absent_line (c : CommitRollbackCache T V setcount waycount linesize maxdirty)
    (A : Nat) (si : Fin setcount)
    (hsi : index? setcount (LockableAssociativeArray.setof setcount linesize A) = some si)
    (habs : ∀ wi, (c.sets si).tags.tags wi ≠ LockableAssociativeArray.tagof linesize A) :
    ∃ c1, c.probe A = some (c1, none) := by
  have hp := LockableFullyAssociativeTags.lprobe_absent (c.sets si).tags _ habs
  simp [probe, LockableAssociativeArray.probe, hsi, LockableFullyAssociativeArray.probe, hp]

/-- `rollback()` on a cache that holds two backup entries, of lines that have
no word in common, when every way that holds a tag is recorded in the
clear-list: both lines get their saved words back, no way holds a tag
afterwards, and the hook is called with the two addresses in turn. -/
theorem rollback_two_backups [LineData V]
    (c4 : CommitRollbackCache T V setcount waycount linesize maxdirty) (A B : Nat)
    (dA0 dB0 : Fin (linesize / 8) → Nat)
    (hrange : c4.toLockableAssociativeArray.ClearInRange)
    (htags : ∀ (si : Fin setcount) (wi : Fin waycount),
      (c4.sets si).tags.tags wi = LockableFullyAssociativeTags.INVALID T ∨
      (si.val, wi.val) ∈ c4.clearlist)
    (hst : c4.stores = [BackupCacheLine.mk A dA0, BackupCacheLine.mk B dB0])
    (hdisj : ∀ i j : Fin (linesize / 8), A + 8 * i.val ≠ B + 8 * j.val)
    (hAi : A ≠ LockableFullyAssociativeTags.INVALID T)
    (hBi : B ≠ LockableFullyAssociativeTags.INVALID T)
    (hA : floor A linesize = A) (hB : floor B linesize = B) (sA sB : Fin setcount)
    (hsA : index? setcount (LockableAssociativeArray.setof setcount linesize A) = some sA)
    (hsB : index? setcount (LockableAssociativeArray.setof setcount linesize B) = some sB) :
    ∃ c5, c4.rollback = some c5 ∧
      (∀ i : Fin (linesize / 8), c5.memory (A + 8 * i.val) = dA0 i) ∧
      (∀ j : Fin (linesize / 8), c5.memory (B + 8 * j.val) = dB0 j) ∧
      (∃ c6, c5.probe A = some (c6, none)) ∧ (∃ c7, c5.probe B = some (c7, none)) ∧
      c5.upcalls = c4.upcalls ++ [A, B] ∧ c5.stores = [] := by
  obtain ⟨sets1, hs1, hspec⟩ :=
    LockableAssociativeArray.unlock_all_and_invalidate_loop_total c4.clearlist c4.sets hrange
  have hall : ∀ si wi, (sets1 si).tags.tags wi = LockableFullyAssociativeTags.INVALID T := by
    intro si wi
    by_cases hm : (si.val, wi.val) ∈ c4.clearlist
    · exact ((hspec si wi).1 hm).2.1
    · rw [((hspec si wi).2 hm).2.1]
      rcases htags si wi with h | h
      · exact h
      · exact absurd h hm
  have hua : c4.toLockableAssociativeArray.unlock_all_and_invalidate
      = some { sets := sets1, clearlist := [] } := by
    simp [LockableAssociativeArray.unlock_all_and_invalidate, hs1]
  obtain ⟨c2, hc2⟩ : ∃ c2 : CommitRollbackCache T V setcount waycount linesize maxdirty,
      c2 = rollback_loop
        { c4 with toLockableAssociativeArray := { sets := sets1, clearlist := [] } }
        c4.stores := ⟨_, rfl⟩
  have hroll : c4.rollback = some { c2 with stores := [] } := by
    simp [rollback, hua, hc2]
  obtain ⟨h1, -, h3, h4⟩ := rollback_loop_spec c4.stores
    ({ c4 with toLockableAssociativeArray := { sets := sets1, clearlist := [] } } :
      CommitRollbackCache T V setcount waycount linesize maxdirty)
  rw [← hc2] at h1 h3 h4
  have hsets : ∀ si, c2.sets si = sets1 si := by
    intro si
    rw [h1]
  refine ⟨_, hroll, ?_, ?_, ?_, ?_, ?_, rfl⟩
  · intro i
    simp only
    rw [h4, hst]
    simp only [List.foldl_cons, List.foldl_nil]
    rw [storeLine_other _ _ _ _ (fun j => hdisj i j)]
    exact storeLine_word _ _ _ i
  · intro j
    simp only
    rw [h4, hst]
    simp only [List.foldl_cons, List.foldl_nil]
    exact storeLine_word _ _ _ j
  · apply probe_absent_line _ A sA hsA
    intro wi h
    simp only at h
    rw [hsets, hall] at h
    exact hAi (h.trans hA).symm
  · apply probe_absent_line _ B sB hsB
    intro wi h
    simp only at h
    rw [hsets, hall] at h
    exact hBi (h.trans hB).symm
  · simp only
    rw [h3, hst]
    simp

end CommitRollbackCache

namespace CommitRollbackCache

variable {T : TagType} {V : Type} {setcount waycount linesize maxdirty : Nat}

/-- The cache after two first locks of distinct line addresses `A` and `B` in a
fresh cache, with a write to line `A` in between: its backup buffer holds the
words the memory held at `A` and at `B` before either write, every way that
holds a tag is recorded in the clear-list, and the clear-list is in range. -/
theorem two_locks_state [LineData V] (hsc : setcount ≤ 65536) (k : Nat) (hl : linesize = 2 ^ k)
    (c : CommitRollbackCache T V setcount waycount linesize maxdirty) (A B : Nat)
    (hA : floor A linesize = A) (hB : floor B linesize = B) (hAB : A ≠ B)
    (hAi : A ≠ LockableFullyAssociativeTags.INVALID T)
    (hBi : B ≠ LockableFullyAssociativeTags.INVALID T)
    (dA : Fin (linesize / 8) → Nat)
    (c1 c3 : CommitRollbackCache T V setcount waycount linesize maxdirty) (wA wB : Int)
    (h1 : c.reset.select_and_lock A = some (c1, some wA))
    (h3 : (c1.write_line A dA).select_and_lock B = some (c3, some wB)) :
    c3.toLockableAssociativeArray.ClearInRange ∧
    (∀ (si : Fin setcount) (wi : Fin waycount),
      (c3.sets si).tags.tags wi = LockableFullyAssociativeTags.INVALID T ∨
      (si.val, wi.val) ∈ c3.clearlist) ∧
    c3.stores = [BackupCacheLine.mk A (loadLine c.memory A (linesize / 8)),
                 BackupCacheLine.mk B (loadLine (c1.write_line A dA).memory B (linesize / 8))] ∧
    (∀ j : Fin (linesize / 8), (c1.write_line A dA).memory (B + 8 * j.val)
      = c.memory (B + 8 * j.val)) ∧
    c3.memory = (c1.write_line A dA).memory ∧ c3.upcalls = c.upcalls ∧
    (∃ sA, index? setcount (LockableAssociativeArray.setof setcount linesize A) = some sA) ∧
    (∃ sB, index? setcount (LockableAssociativeArray.setof setcount linesize B) = some sB) := by
  obtain ⟨sA, kA0, hsA⟩ := select_and_lock_some_index _ _ A wA h1
  rw [hA] at hsA
  have hw0 : 0 < waycount := Nat.lt_of_le_of_lt (Nat.zero_le _) kA0.isLt
  have hsA16 : LockableAssociativeArray.toW16 (sA.val : Int) = sA.val :=
    toW16_of_lt _ (lt_of_lt_of_le sA.isLt hsc)
  have h016 : LockableAssociativeArray.toW16 (((⟨0, hw0⟩ : Fin waycount).val : Nat) : Int) = 0 :=
    toW16_of_lt 0 (by decide)
  have ht1 := LockableFullyAssociativeTags.select_and_lock_fresh (T := T) hw0 A 0 false hAi
  have hc1 := select_and_lock_first c.reset A hA sA hsA _ ⟨0, hw0⟩
    (LockableFullyAssociativeTags.INVALID T) ht1 _ _ h1
  rw [hc1] at h1
  simp only [Option.some.injEq, Prod.mk.injEq] at h1
  obtain ⟨h1c, -⟩ := h1
  subst h1c
  rw [hsA16, h016] at h3 ⊢
  have hmemB : ∀ j : Fin (linesize / 8),
      storeLine c.memory A dA (B + 8 * j.val) = c.memory (B + 8 * j.val) := by
    intro j
    apply storeLine_other
    intro i
    subst hl
    exact (lines_disjoint k A B hA hB hAB i j).symm
  obtain ⟨c2, hc2⟩ : ∃ c2 : CommitRollbackCache T V setcount waycount linesize maxdirty,
      c2 = (CommitRollbackCache.mk
                (LockableAssociativeArray.mk
                  (Function.update c.reset.sets sA
                    (LockableFullyAssociativeArray.mk
                      (LockableFullyAssociativeTags.mk
                        (Function.update bitvec.zero ⟨0, hw0⟩ true)
                        (Function.update bitvec.setall ⟨0, hw0⟩ false)
                        (Function.update (fun _ => LockableFullyAssociativeTags.INVALID T)
                          ⟨0, hw0⟩ A))
                      (c.reset.sets sA).data))
                  (c.reset.clearlist ++ [(sA.val, 0)]))
                (c.reset.stores ++ [BackupCacheLine.mk A (loadLine c.reset.memory A
                  (linesize / 8))])
                c.reset.memory c.reset.upcalls).write_line A dA := ⟨_, rfl⟩
  rw [← hc2] at h3 ⊢
  have hc2cl : c2.clearlist = [(sA.val, 0)] := by rw [hc2]; rfl
  have hc2st : c2.stores = [BackupCacheLine.mk A (loadLine c.memory A (linesize / 8))] := by
    rw [hc2]; rfl
  have hc2mem : c2.memory = storeLine c.memory A dA := by
    rw [hc2]
    simp [write_line, hA, reset]
  have hc2up : c2.upcalls = c.upcalls := by rw [hc2]; rfl
  have hc2A : (c2.sets sA).tags = LockableFullyAssociativeTags.mk
      (Function.update bitvec.zero ⟨0, hw0⟩ true)
      (Function.update bitvec.setall ⟨0, hw0⟩ false)
      (Function.update (fun _ => LockableFullyAssociativeTags.INVALID T) ⟨0, hw0⟩ A) := by
    rw [hc2]
    simp [write_line]
  have hc2other : ∀ si, si ≠ sA →
      (c2.sets si).tags = (LockableFullyAssociativeTags.reset :
        LockableFullyAssociativeTags T waycount) := by
    intro si hsi
    rw [hc2]
    simp [write_line, Function.update_noteq hsi, reset, LockableAssociativeArray.reset,
      LockableFullyAssociativeArray.reset]
  clear hc2 hc1
  obtain ⟨sB, kB0, hsB⟩ := select_and_lock_some_index _ _ B wB h3
  rw [hB] at hsB
  have hsB16 : LockableAssociativeArray.toW16 (sB.val : Int) = sB.val :=
    toW16_of_lt _ (lt_of_lt_of_le sB.isLt hsc)
  have hmem2 : ∀ j : Fin (linesize / 8), c2.memory (B + 8 * j.val) = c.memory (B + 8 * j.val) := by
    intro j
    rw [hc2mem]
    exact hmemB j
  by_cases hs : sB = sA
  · rw [hs] at hsB
    by_cases hw1 : 1 < waycount
    · have h116 : LockableAssociativeArray.toW16
          (((⟨1, hw1⟩ : Fin waycount).val : Nat) : Int) = 1 := toW16_of_lt 1 (by decide)
      have ht2 := LockableFullyAssociativeTags.select_and_lock_second hw1 A B 0 false
        hAB.symm hBi (c2.sets sA).tags (by rw [hc2A]) (by rw [hc2A]) (by rw [hc2A])
      have hc3 := select_and_lock_first c2 B hB sA hsB _ ⟨1, hw1⟩
        (LockableFullyAssociativeTags.INVALID T) ht2 _ _ h3
      rw [hc3] at h3
      simp only [Option.some.injEq, Prod.mk.injEq] at h3
      obtain ⟨h3c, -⟩ := h3
      subst h3c
      rw [hsA16, h116, hc2cl, hc2st]
      refine ⟨?_, ?_, rfl, hmem2, rfl, hc2up, ⟨sA, hsA⟩, ⟨sA, hsB⟩⟩
      · intro p hp
        simp only [List.cons_append, List.nil_append, List.mem_cons, List.mem_singleton,
          List.not_mem_nil, or_false] at hp
        rcases hp with hp | hp <;> subst hp
        · exact ⟨sA.isLt, hw0⟩
        · exact ⟨sA.isLt, hw1⟩
      · intro si wi
        simp only [List.cons_append, List.nil_append, List.mem_cons, List.mem_singleton,
          List.not_mem_nil, or_false, Prod.mk.injEq]
        by_cases hsi : si = sA
        · subst hsi
          rw [Function.update_same]
          simp only
          by_cases hwi1 : wi = ⟨1, hw1⟩
          · right; right
            exact ⟨trivial, by rw [hwi1]⟩
          · rw [Function.update_noteq hwi1, hc2A]
            simp only
            by_cases hwi0 : wi = ⟨0, hw0⟩
            · right; left
              exact ⟨trivial, by rw [hwi0]⟩
            · left
              rw [Function.update_noteq hwi0]
        · left
          rw [Function.update_noteq hsi, hc2other si hsi]
          rfl
    · exfalso
      have hone : ∀ i : Fin waycount, i = ⟨0, hw0⟩ := by
        intro i
        apply Fin.ext
        have := i.isLt
        simp only
        omega
      have hlocked : ∀ i, (c2.sets sA).tags.unlockedmap i = false := by
        intro i
        rw [hc2A, hone i]
        simp only [Function.update_same]
      have habs : ∀ i, (c2.sets sA).tags.tags i ≠ B := by
        intro i
        rw [hc2A, hone i]
        simp only [Function.update_same]
        exact hAB
      have htf := LockableFullyAssociativeTags.select_and_lock_all_locked (c2.sets sA).tags
        B 0 false hlocked habs
      obtain ⟨c1x, hc1x⟩ := select_and_lock_fails c2 B hB sA hsB _ false 0 htf
      rw [hc1x] at h3
      simp at h3
  · have ht2 := LockableFullyAssociativeTags.select_and_lock_fresh (T := T) hw0 B 0 false hBi
    rw [← hc2other sB hs] at ht2
    have hc3 := select_and_lock_first c2 B hB sB hsB _ ⟨0, hw0⟩
      (LockableFullyAssociativeTags.INVALID T) ht2 _ _ h3
    rw [hc3] at h3
    simp only [Option.some.injEq, Prod.mk.injEq] at h3
    obtain ⟨h3c, -⟩ := h3
    subst h3c
    rw [hsB16, h016, hc2cl, hc2st]
    refine ⟨?_, ?_, rfl, hmem2, rfl, hc2up, ⟨sA, hsA⟩, ⟨sB, hsB⟩⟩
    · intro p hp
      simp only [List.cons_append, List.nil_append, List.mem_cons, List.mem_singleton,
        List.not_mem_nil, or_false] at hp
      rcases hp with hp | hp <;> subst hp
      · exact ⟨sA.isLt, hw0⟩
      · exact ⟨sB.isLt, hw0⟩
    · intro si wi
      simp only [List.cons_append, List.nil_append, List.mem_cons, List.mem_singleton,
        List.not_mem_nil, or_false, Prod.mk.injEq]
      by_cases hsi : si = sB
      · subst hsi
        rw [Function.update_same]
        simp only
        by_cases hwi0 : wi = ⟨0, hw0⟩
        · right; right
          exact ⟨trivial, by rw [hwi0]⟩
        · left
          rw [Function.update_noteq hwi0]
      · rw [Function.update_noteq hsi]
        by_cases hsiA : si = sA
        · subst hsiA
          rw [hc2A]
          simp only
          by_cases hwi0 : wi = ⟨0, hw0⟩
          · right; left
            exact ⟨trivial, by rw [hwi0]⟩
          · left
            rw [Function.update_noteq hwi0]
        · left
          rw [hc2other si hsiA]
          rfl

end CommitRollbackCache

/-! ## The rollback of two lines: main results -/

namespace CommitRollbackCache

variable {T : TagType} {V : Type} {setcount waycount linesize maxdirty : Nat}

/-- C14, as stated, fails when the array has more than 65536 sets.  In a
freshly reset `CommitRollbackCache<W64, V, 131072, 1, 64, 2>` the line
addresses 4194304 (set 65536) and 0 (set 0) are each locked and written once;
both locks are recorded as (set 0, way 0).  After `rollback()` the memory of
both lines is restored, but `probe(4194304)` still finds the line. -/
theorem C14_rollback_counterexample :
    exE0 = (blankCache 131072 1 64 2).reset ∧
    exE0.select_and_lock 4194304 = some (exE1, some 0) ∧
    exE2 = exE1.write_line 4194304 (fun _ => 1) ∧
    exE2.select_and_lock 0 = some (exF3, some 0) ∧
    exF4 = exF3.write_line 0 (fun _ => 1) ∧
    exF4.clearlist = [(0, 0), (0, 0)] ∧
    exF4.rollback = some exF5 ∧
    exF5.memory 4194304 = 0 ∧ exF5.memory 0 = 0 ∧
    exF5.probe 4194304 = some (exF6, some 0) :=
  ⟨rfl, rfl, rfl, rfl, rfl, by decide, rfl, by decide, by decide, rfl⟩

/-- C14, amended: with at most 65536 sets (the range of the `W16` set field of
the clear-list) and a power-of-two line size, in a freshly reset cache with
`maxdirty = 2`, let `A` and `B` be two distinct line addresses other than the
sentinel tag; after `select_and_lock(A)` returned a line, the line `A` was
written, `select_and_lock(B)` returned a line and the line `B` was written,
`rollback()` ends and leaves the words of line `A` and of line `B` as they
were before the locks, leaves neither `A` nor `B` in the cache (`probe`
returns no line), has called the hook with `A` and then with `B` and with
nothing else, and leaves the backup buffer empty. -/
theorem C14_rollback_two_lines [LineData V] (hsc : setcount ≤ 65536) (k : Nat)
    (hl : linesize = 2 ^ k)
    (c : CommitRollbackCache T V setcount waycount linesize 2) (A B : Nat)
    (hA : floor A linesize = A) (hB : floor B linesize = B) (hAB : A ≠ B)
    (hAi : A ≠ LockableFullyAssociativeTags.INVALID T)
    (hBi : B ≠ LockableFullyAssociativeTags.INVALID T)
    (dA dB : Fin (linesize / 8) → Nat)
    (c1 c3 : CommitRollbackCache T V setcount waycount linesize 2) (wA wB : Int)
    (h1 : c.reset.select_and_lock A = some (c1, some wA))
    (h3 : (c1.write_line A dA).select_and_lock B = some (c3, some wB)) :
    ∃ c5, (c3.write_line B dB).rollback = some c5 ∧
      (∀ i : Fin (linesize / 8), c5.memory (A + 8 * i.val) = c.reset.memory (A + 8 * i.val)) ∧
      (∀ j : Fin (linesize / 8),
        c5.memory (B + 8 * j.val) = (c1.write_line A dA).memory (B + 8 * j.val) ∧
        c5.memory (B + 8 * j.val) = c.reset.memory (B + 8 * j.val)) ∧
      (∃ c6, c5.probe A = some (c6, none)) ∧ (∃ c7, c5.probe B = some (c7, none)) ∧
      c5.upcalls = c.reset.upcalls ++ [A, B] ∧ c5.stores = [] := by
  obtain ⟨hrange, htags, hst, hmemB, -, hup, ⟨sA, hsA⟩, ⟨sB, hsB⟩⟩ :=
    two_locks_state hsc k hl c A B hA hB hAB hAi hBi dA c1 c3 wA wB h1 h3
  have hdisj : ∀ i j : Fin (linesize / 8), A + 8 * i.val ≠ B + 8 * j.val := by
    subst hl
    exact lines_disjoint k A B hA hB hAB
  obtain ⟨c5, hroll, hmA, hmB, hpA, hpB, hups, hstores⟩ :=
    rollback_two_backups (c3.write_line B dB) A B _ _ hrange htags hst hdisj hAi hBi hA hB
      sA sB hsA hsB
  refine ⟨c5, hroll, ?_, ?_, hpA, hpB, ?_, hstores⟩
  · intro i
    rw [hmA i]
    rfl
  · intro j
    rw [hmB j]
    exact ⟨rfl, hmemB j⟩
  · rw [hups]
    simp only [write_line]
    rw [hup]
    rfl

/-- C14, amended, at a concrete run: one set, two ways, lines of one word; the
lines 0 and 8 are locked and written with the words 7 and 9. -/
theorem C14_rollback_two_lines_witness :
    (1 ≤ 65536) ∧ (8 = 2 ^ 3) ∧ floor 0 8 = 0 ∧ floor 8 8 = 8 ∧ (0 ≠ 8) ∧
    (blankCache 1 2 8 2).reset.select_and_lock 0 = some (exC1, some 0) ∧
    (exC1.write_line 0 (fun _ => 7)).select_and_lock 8 = some (exG3, some 1) ∧
    ∃ c5, (exG3.write_line 8 (fun _ => 9)).rollback = some c5 ∧
      (∀ i : Fin (8 / 8), c5.memory (0 + 8 * i.val)
        = (blankCache 1 2 8 2).reset.memory (0 + 8 * i.val)) ∧
      (∀ j : Fin (8 / 8),
        c5.memory (8 + 8 * j.val) = (exC1.write_line 0 (fun _ => 7)).memory (8 + 8 * j.val) ∧
        c5.memory (8 + 8 * j.val) = (blankCache 1 2 8 2).reset.memory (8 + 8 * j.val)) ∧
      (∃ c6, c5.probe 0 = some (c6, none)) ∧ (∃ c7, c5.probe 8 = some (c7, none)) ∧
      c5.upcalls = (blankCache 1 2 8 2).reset.upcalls ++ [0, 8] ∧ c5.stores = [] :=
  ⟨by decide, by decide, by decide, by decide, by decide, rfl, rfl,
    C14_rollback_two_lines (by decide) 3 (by decide) (blankCache 1 2 8 2) 0 8
      (by decide) (by decide) (by decide) (by decide) (by decide)
      (fun _ => 7) (fun _ => 9) exC1 exG3 0 1 rfl rfl⟩

end CommitRollbackCache

/-! ## The tag tables of 8-bit and 16-bit tags -/

theorem maskOfBits_testBit (l : List Bool) (j : Nat) :
    (maskOfBits l).testBit j = l.getD j false := by
  induction l generalizing j with
  | nil => simp [maskOfBits]
  | cons b bs ih =>
    cases j with
    | zero =>
      simp only [maskOfBits, Nat.testBit_zero, List.getD_cons_zero]
      cases b <;> simp
    | succ j =>
      rw [Nat.testBit_succ]
      have h : (maskOfBits (b :: bs)) / 2 = maskOfBits bs := by
        simp only [maskOfBits]
        cases b <;> simp
        omega
      rw [h, ih]
      simp

theorem x86_sse_pmovmskb_testBit (v : vec16b) (j : Fin 16) :
    (x86_sse_pmovmskb v).testBit j.val = decide (128 ≤ (v j).val) := by
  unfold x86_sse_pmovmskb
  rw [maskOfBits_testBit]
  fin_cases j <;> rfl

theorem accum_foldl {N n : Nat} (base g : Fin n → Nat) (l : List (Fin n)) (m0 : bitvec N)
    (j : Fin N) :
    (l.foldl (fun m i => bitvec.accum m (base i) 16 (g i)) m0) j
      = (m0 j || l.any (fun i =>
          decide (base i ≤ j.val ∧ j.val < base i + 16) && (g i).testBit (j.val - base i))) := by
  induction l generalizing m0 with
  | nil => simp
  | cons i l ih =>
    rw [List.foldl_cons, ih]
    simp [bitvec.accum, Bool.or_assoc]

namespace FullyAssociativeTags8bit

variable {size padsize : Nat}

theorem size_le_nbytes (size padsize : Nat) : size ≤ nbytes size padsize := by
  unfold nbytes chunkcount padchunkcount
  omega

theorem get_coe (s : FullyAssociativeTags8bit size padsize) (j : Fin size) :
    s.get (j.val : Int)
      = some (s.tags ⟨j.val, lt_of_lt_of_le j.isLt (size_le_nbytes size padsize)⟩) := by
  unfold get
  have h := index?_coe
    (⟨j.val, lt_of_lt_of_le j.isLt (size_le_nbytes size padsize)⟩ : Fin (nbytes size padsize))
  simp only at h
  rw [h]

theorem match__prep (s : FullyAssociativeTags8bit size padsize) (t : Fin 256) (j : Fin size) :
    s.match_ (prep t) j = true ↔ s.valid j = true ∧ s.get (j.val : Int) = some t := by
  rw [get_coe]
  unfold match_
  simp only [bitvec.and, Bool.and_eq_true]
  rw [accum_foldl (fun i : Fin (chunkcount size) => i.val * 16)
    (fun i => x86_sse_pmovmskb (x86_sse_pcmpeqb (prep t) (s.chunk (Fin.castAdd _ i))))]
  simp only [bitvec.zero, Bool.false_or, List.any_eq_true, List.mem_finRange, true_and,
    Bool.and_eq_true, decide_eq_true_eq, Option.some.injEq]
  constructor
  · rintro ⟨⟨i, ⟨hlo, hhi⟩, hbit⟩, hv⟩
    refine ⟨hv, ?_⟩
    have hlt : j.val - i.val * 16 < 16 := by omega
    have hb := x86_sse_pmovmskb_testBit
      (x86_sse_pcmpeqb (prep t) (s.chunk (Fin.castAdd _ i))) ⟨j.val - i.val * 16, hlt⟩
    simp only at hb
    rw [hbit] at hb
    unfold x86_sse_pcmpeqb prep x86_sse_dupb at hb
    by_cases heq : t = s.chunk (Fin.castAdd _ i) ⟨j.val - i.val * 16, hlt⟩
    · rw [heq]
      unfold chunk
      congr 1
      apply Fin.ext
      simp only [Fin.coe_castAdd]
      omega
    · rw [if_neg heq] at hb
      simp at hb
  · rintro ⟨hv, ht⟩
    refine ⟨⟨⟨j.val / 16, ?_⟩, ⟨?_, ?_⟩, ?_⟩, hv⟩
    · have := j.isLt
      unfold chunkcount
      omega
    · simp only
      omega
    · simp only
      omega
    · have hlt : j.val - j.val / 16 * 16 < 16 := by omega
      have hb := x86_sse_pmovmskb_testBit
        (x86_sse_pcmpeqb (prep t) (s.chunk (Fin.castAdd _ ⟨j.val / 16, by
          have := j.isLt
          unfold chunkcount
          omega⟩))) ⟨j.val - j.val / 16 * 16, hlt⟩
      simp only at hb
      rw [hb]
      unfold x86_sse_pcmpeqb prep x86_sse_dupb
      have heq : t = s.chunk (Fin.castAdd _ ⟨j.val / 16, by
          have := j.isLt
          unfold chunkcount
          omega⟩) ⟨j.val - j.val / 16 * 16, hlt⟩ := by
        rw [← ht]
        unfold chunk
        congr 1
        apply Fin.ext
        simp only [Fin.coe_castAdd]
        omega
      rw [if_pos heq]
      decide

theorem search_none (s : FullyAssociativeTags8bit size padsize) (t : Fin 256)
    (h : ∀ j : Fin size, ¬ (s.valid j = true ∧ s.get (j.val : Int) = some t)) :
    s.search t = -1 := by
  unfold search search_vec
  have hz : (s.match_ (prep t)).iszero = true := by
    rw [bitvec.iszero_eq_true]
    intro j
    have := (match__prep s t j).not.2 (h j)
    simpa using this
  simp only [hz, if_true]

theorem search_some (s : FullyAssociativeTags8bit size padsize) (t : Fin 256) (k : Fin size)
    (hv : s.valid k = true) (ht : s.get (k.val : Int) = some t)
    (hmin : ∀ j : Fin size, s.valid j = true → s.get (j.val : Int) = some t → k ≤ j) :
    s.search t = (k.val : Int) := by
  unfold search search_vec
  have hk : s.match_ (prep t) k = true := (match__prep s t k).2 ⟨hv, ht⟩
  have hz : (s.match_ (prep t)).iszero = false := by
    cases hc : (s.match_ (prep t)).iszero with
    | false => rfl
    | true =>
      have := (bitvec.iszero_eq_true _).1 hc k
      rw [hk] at this
      exact absurd this (by decide)
  simp only [hz]
  exact bitvec.lsb_eq _ k hk (fun j hj =>
    hmin j ((match__prep s t j).1 hj).1 ((match__prep s t j).1 hj).2)

theorem exists_lowest_match (s : FullyAssociativeTags8bit size padsize) (t : Fin 256)
    (h : ¬ ∀ j : Fin size, ¬ (s.valid j = true ∧ s.get (j.val : Int) = some t)) :
    ∃ k : Fin size, s.valid k = true ∧ s.get (k.val : Int) = some t ∧
      ∀ j : Fin size, s.valid j = true → s.get (j.val : Int) = some t → k ≤ j := by
  push_neg at h
  obtain ⟨j, hj⟩ := h
  obtain ⟨k, hk, hmin⟩ := bitvec.exists_lowest (s.match_ (prep t))
    ⟨j, (match__prep s t j).2 hj⟩
  exact ⟨k, ((match__prep s t k).1 hk).1, ((match__prep s t k).1 hk).2,
    fun i hv ht => hmin i ((match__prep s t i).2 ⟨hv, ht⟩)⟩

/-- C19: in the table of 8-bit tags `search(t)` is -1 exactly when no valid
slot holds `t`, and it is `k` exactly when slot `k` is valid, holds `t` and is
the lowest such slot; so a slot that is not valid is never returned, whatever
byte it holds, and one of the two cases always applies.  The method is `const`:
it returns the index and nothing else. -/
theorem C19_cam8_search (s : FullyAssociativeTags8bit size padsize) (t : Fin 256) :
    (s.search t = -1 ↔
      ∀ j : Fin size, ¬ (s.valid j = true ∧ s.get (j.val : Int) = some t)) ∧
    (∀ k : Fin size, s.search t = (k.val : Int) ↔
      (s.valid k = true ∧ s.get (k.val : Int) = some t ∧
        ∀ j : Fin size, s.valid j = true → s.get (j.val : Int) = some t → k ≤ j)) ∧
    (s.search t = -1 ∨ ∃ k : Fin size, s.search t = (k.val : Int)) := by
  by_cases h : ∀ j : Fin size, ¬ (s.valid j = true ∧ s.get (j.val : Int) = some t)
  · have hs := search_none s t h
    refine ⟨⟨fun _ => h, fun _ => hs⟩, fun k => ⟨fun hk => ?_, fun hk => ?_⟩, Or.inl hs⟩
    · rw [hs] at hk
      omega
    · exact absurd ⟨hk.1, hk.2.1⟩ (h k)
  · obtain ⟨k, hv, ht, hmin⟩ := exists_lowest_match s t h
    have hs := search_some s t k hv ht hmin
    refine ⟨⟨fun h1 => ?_, fun h1 => absurd h1 h⟩, fun k1 => ⟨fun hk => ?_, fun hk => ?_⟩,
      Or.inr ⟨k, hs⟩⟩
    · rw [hs] at h1
      omega
    · rw [hs] at hk
      have hkk : k = k1 := Fin.ext (by omega)
      rw [← hkk]
      exact ⟨hv, ht, hmin⟩
    · rw [hs]
      have h1 := hmin k1 hk.1 hk.2.1
      have h2 := hk.2.2 k hv ht
      have hkk : k = k1 := le_antisymm h1 h2
      rw [hkk]

/-- C19 at a 4-slot table with the tags 7, 5, 5, `0xff` of which the slots 0
and 2 are valid: `search(5)` is 2, not the invalid slot 1, and `search(0xff)`
is -1 although slot 3 holds that byte. -/
theorem C19_cam8_search_witness :
    ex8.search 5 = 2 ∧ ex8.search 255 = -1 ∧ ex8.get 1 = some 5 ∧ ex8.get 3 = some 255 :=
  ⟨((C19_cam8_search ex8 5).2.1 2).2 (by decide),
   (C19_cam8_search ex8 255).1.2 (by decide), by decide, by decide⟩

end FullyAssociativeTags8bit

set_option maxRecDepth 4000

namespace FullyAssociativeTags8bit

variable {size padsize : Nat}

theorem insert_full (s : FullyAssociativeTags8bit size padsize) (t : Fin 256)
    (h : ∀ i, s.valid i = true) : s.insert t = some (s, -1) := by
  unfold insert
  rw [if_pos ((bitvec.allset_eq_true _).2 h)]

theorem insert_free (s : FullyAssociativeTags8bit size padsize) (t : Fin 256) (k : Fin size)
    (hk : s.valid k = false) (hmin : ∀ j, s.valid j = false → k ≤ j) :
    s.insert t = some (FullyAssociativeTags8bit.mk
      (Function.update s.tags ⟨k.val, lt_of_lt_of_le k.isLt (size_le_nbytes size padsize)⟩ t)
      (Function.update s.valid k true), (k.val : Int)) := by
  unfold insert
  have hall : ¬ s.valid.allset = true := by
    rw [bitvec.allset_eq_true]
    intro h
    rw [h k] at hk
    exact absurd hk (by decide)
  rw [if_neg hall]
  have hlsb : s.valid.not.lsb = (k.val : Int) :=
    bitvec.lsb_eq _ k (by simp [bitvec.not, hk])
      (fun j hj => hmin j (by simpa [bitvec.not] using hj))
  simp only [hlsb]
  unfold insertslot
  have h2 := index?_coe
    (⟨k.val, lt_of_lt_of_le k.isLt (size_le_nbytes size padsize)⟩ : Fin (nbytes size padsize))
  simp only at h2
  rw [index?_coe k, h2]
  rfl

end FullyAssociativeTags8bit

namespace FullyAssociativeTags16bit

variable {size padsize : Nat}

theorem two_size_le_nbytes (size padsize : Nat) : 2 * size ≤ nbytes size padsize := by
  unfold nbytes chunkcount padchunkcount
  omega

theorem word_bytes (t : Fin 65536) : word (lowByte t) (highByte t) = t := by
  apply Fin.ext
  simp only [word, lowByte, highByte]
  omega

theorem index?_low (j : Fin size) :
    index? (nbytes size padsize) (2 * (j.val : Int))
      = some ⟨2 * j.val, by
          have h1 := j.isLt
          have h2 := two_size_le_nbytes size padsize
          omega⟩ := by
  have h := index?_coe (⟨2 * j.val, by
    have h1 := j.isLt
    have h2 := two_size_le_nbytes size padsize
    omega⟩ : Fin (nbytes size padsize))
  simp only [Nat.cast_mul, Nat.cast_ofNat] at h
  exact h

theorem index?_high (j : Fin size) :
    index? (nbytes size padsize) (2 * (j.val : Int) + 1)
      = some ⟨2 * j.val + 1, by
          have h1 := j.isLt
          have h2 := two_size_le_nbytes size padsize
          omega⟩ := by
  have h := index?_coe (⟨2 * j.val + 1, by
    have h1 := j.isLt
    have h2 := two_size_le_nbytes size padsize
    omega⟩ : Fin (nbytes size padsize))
  simp only [Nat.cast_add, Nat.cast_mul, Nat.cast_ofNat, Nat.cast_one] at h
  exact h

theorem get_word (s : FullyAssociativeTags16bit size padsize) (j : Fin size) :
    s.get (j.val : Int)
      = some (word
          (s.tags ⟨2 * j.val, by
            have h1 := j.isLt
            have h2 := two_size_le_nbytes size padsize
            omega⟩)
          (s.tags ⟨2 * j.val + 1, by
            have h1 := j.isLt
            have h2 := two_size_le_nbytes size padsize
            omega⟩)) := by
  unfold get
  rw [index?_low, index?_high]

theorem insert16_full (s : FullyAssociativeTags16bit size padsize) (t : Fin 65536)
    (h : ∀ i, s.valid i = true) : s.insert t = some (s, -1) := by
  unfold insert
  rw [if_pos ((bitvec.allset_eq_true _).2 h)]

theorem insert16_free (s : FullyAssociativeTags16bit size padsize) (t : Fin 65536)
    (k : Fin size) (hk : s.valid k = false) (hmin : ∀ j, s.valid j = false → k ≤ j) :
    s.insert t = some (FullyAssociativeTags16bit.mk
      (Function.update
        (Function.update s.tags
          ⟨2 * k.val, by
            have h1 := k.isLt
            have h2 := two_size_le_nbytes size padsize
            omega⟩ (lowByte t))
        ⟨2 * k.val + 1, by
            have h1 := k.isLt
            have h2 := two_size_le_nbytes size padsize
            omega⟩ (highByte t))
      (Function.update s.valid k true), (k.val : Int)) := by
  unfold insert
  have hall : ¬ s.valid.allset = true := by
    rw [bitvec.allset_eq_true]
    intro h
    rw [h k] at hk
    exact absurd hk (by decide)
  rw [if_neg hall]
  have hlsb : s.valid.not.lsb = (k.val : Int) :=
    bitvec.lsb_eq _ k (by simp [bitvec.not, hk])
      (fun j hj => hmin j (by simpa [bitvec.not] using hj))
  simp only [hlsb]
  unfold insertslot
  rw [index?_coe k, index?_low, index?_high]
  rfl

end FullyAssociativeTags16bit

/-- C18: `insert(tag)` of the tables of 8-bit and of 16-bit tags.  It always
returns; it returns -1 exactly when every slot is valid, and then the table is
as before; when slot `k` is the lowest slot that is not valid it returns `k`,
and afterwards slot `k` is valid and holds the tag while every other slot has
the validity and the tag it had. -/
theorem C18_cam_insert {size8 pad8 size16 pad16 : Nat}
    (s8 : FullyAssociativeTags8bit size8 pad8) (t8 : Fin 256)
    (s16 : FullyAssociativeTags16bit size16 pad16) (t16 : Fin 65536) :
    ((∃ r, s8.insert t8 = some r) ∧
     ((∃ s1, s8.insert t8 = some (s1, -1)) ↔ ∀ i, s8.valid i = true) ∧
     ((∀ i, s8.valid i = true) → s8.insert t8 = some (s8, -1)) ∧
     (∀ k : Fin size8, s8.valid k = false → (∀ j, s8.valid j = false → k ≤ j) →
       ∃ s1, s8.insert t8 = some (s1, (k.val : Int)) ∧
         s1.valid k = true ∧ s1.get (k.val : Int) = some t8 ∧
         ∀ j : Fin size8, j ≠ k →
           s1.valid j = s8.valid j ∧ s1.get (j.val : Int) = s8.get (j.val : Int))) ∧
    ((∃ r, s16.insert t16 = some r) ∧
     ((∃ s1, s16.insert t16 = some (s1, -1)) ↔ ∀ i, s16.valid i = true) ∧
     ((∀ i, s16.valid i = true) → s16.insert t16 = some (s16, -1)) ∧
     (∀ k : Fin size16, s16.valid k = false → (∀ j, s16.valid j = false → k ≤ j) →
       ∃ s1, s16.insert t16 = some (s1, (k.val : Int)) ∧
         s1.valid k = true ∧ s1.get (k.val : Int) = some t16 ∧
         ∀ j : Fin size16, j ≠ k →
           s1.valid j = s16.valid j ∧ s1.get (j.val : Int) = s16.get (j.val : Int))) := by
  constructor
  · have hfree : ∀ k : Fin size8, s8.valid k = false → (∀ j, s8.valid j = false → k ≤ j) →
        ∃ s1, s8.insert t8 = some (s1, (k.val : Int)) ∧
          s1.valid k = true ∧ s1.get (k.val : Int) = some t8 ∧
          ∀ j : Fin size8, j ≠ k →
            s1.valid j = s8.valid j ∧ s1.get (j.val : Int) = s8.get (j.val : Int) := by
      intro k hk hmin
      refine ⟨_, FullyAssociativeTags8bit.insert_free s8 t8 k hk hmin, ?_, ?_, ?_⟩
      · simp
      · rw [FullyAssociativeTags8bit.get_coe]
        simp
      · intro j hj
        refine ⟨by simp [Function.update_noteq hj], ?_⟩
        rw [FullyAssociativeTags8bit.get_coe, FullyAssociativeTags8bit.get_coe]
        have hne : (⟨j.val, lt_of_lt_of_le j.isLt
              (FullyAssociativeTags8bit.size_le_nbytes size8 pad8)⟩ :
              Fin (FullyAssociativeTags8bit.nbytes size8 pad8))
            ≠ ⟨k.val, lt_of_lt_of_le k.isLt
              (FullyAssociativeTags8bit.size_le_nbytes size8 pad8)⟩ := by
          intro h
          exact hj (Fin.ext (by simpa using congrArg Fin.val h))
        simp only [Function.update_noteq hne]
    by_cases hall : ∀ i, s8.valid i = true
    · have hi := FullyAssociativeTags8bit.insert_full s8 t8 hall
      exact ⟨⟨_, hi⟩, ⟨fun _ => hall, fun _ => ⟨_, hi⟩⟩, fun _ => hi, hfree⟩
    · have hex : ∃ i, s8.valid.not i = true := by
        push_neg at hall
        obtain ⟨i, hi⟩ := hall
        exact ⟨i, by simpa [bitvec.not] using hi⟩
      obtain ⟨k, hk, hmin⟩ := bitvec.exists_lowest _ hex
      have hk1 : s8.valid k = false := by simpa [bitvec.not] using hk
      have hmin1 : ∀ j, s8.valid j = false → k ≤ j :=
        fun j hj => hmin j (by simp [bitvec.not, hj])
      obtain ⟨s1, hi, _⟩ := hfree k hk1 hmin1
      refine ⟨⟨_, hi⟩, ⟨fun h => ?_, fun h => absurd h hall⟩, fun h => absurd h hall, hfree⟩
      obtain ⟨s2, h2⟩ := h
      rw [hi] at h2
      have h3 := congrArg Prod.snd (Option.some.inj h2)
      simp only at h3
      omega
  · have hfree : ∀ k : Fin size16, s16.valid k = false → (∀ j, s16.valid j = false → k ≤ j) →
        ∃ s1, s16.insert t16 = some (s1, (k.val : Int)) ∧
          s1.valid k = true ∧ s1.get (k.val : Int) = some t16 ∧
          ∀ j : Fin size16, j ≠ k →
            s1.valid j = s16.valid j ∧ s1.get (j.val : Int) = s16.get (j.val : Int) := by
      intro k hk hmin
      refine ⟨_, FullyAssociativeTags16bit.insert16_free s16 t16 k hk hmin, ?_, ?_, ?_⟩
      · simp
      · rw [FullyAssociativeTags16bit.get_word]
        have hne : (⟨2 * k.val, by
              have h1 := k.isLt
              have h2 := FullyAssociativeTags16bit.two_size_le_nbytes size16 pad16
              omega⟩ : Fin (FullyAssociativeTags16bit.nbytes size16 pad16))
            ≠ ⟨2 * k.val + 1, by
              have h1 := k.isLt
              have h2 := FullyAssociativeTags16bit.two_size_le_nbytes size16 pad16
              omega⟩ := by
          intro h
          have := congrArg Fin.val h
          simp only at this
          omega
        simp only [Function.update_same, Function.update_noteq hne,
          FullyAssociativeTags16bit.word_bytes]
      · intro j hj
        refine ⟨by simp [Function.update_noteq hj], ?_⟩
        rw [FullyAssociativeTags16bit.get_word, FullyAssociativeTags16bit.get_word]
        have hjk : j.val ≠ k.val := fun h => hj (Fin.ext h)
        have key : ∀ (f : Fin (FullyAssociativeTags16bit.nbytes size16 pad16) → Fin 256)
            (a b c : Fin (FullyAssociativeTags16bit.nbytes size16 pad16)) (x y : Fin 256),
            c.val ≠ a.val → c.val ≠ b.val →
            Function.update (Function.update f a x) b y c = f c := by
          intro f a b c x y h1 h2
          rw [Function.update_noteq (Fin.ne_of_val_ne h2),
            Function.update_noteq (Fin.ne_of_val_ne h1)]
        simp only []
        rw [key _ _ _ _ _ _ (by dsimp only; omega) (by dsimp only; omega),
          key _ _ _ _ _ _ (by dsimp only; omega) (by dsimp only; omega)]
    by_cases hall : ∀ i, s16.valid i = true
    · have hi := FullyAssociativeTags16bit.insert16_full s16 t16 hall
      exact ⟨⟨_, hi⟩, ⟨fun _ => hall, fun _ => ⟨_, hi⟩⟩, fun _ => hi, hfree⟩
    · have hex : ∃ i, s16.valid.not i = true := by
        push_neg at hall
        obtain ⟨i, hi⟩ := hall
        exact ⟨i, by simpa [bitvec.not] using hi⟩
      obtain ⟨k, hk, hmin⟩ := bitvec.exists_lowest _ hex
      have hk1 : s16.valid k = false := by simpa [bitvec.not] using hk
      have hmin1 : ∀ j, s16.valid j = false → k ≤ j :=
        fun j hj => hmin j (by simp [bitvec.not, hj])
      obtain ⟨s1, hi, _⟩ := hfree k hk1 hmin1
      refine ⟨⟨_, hi⟩, ⟨fun h => ?_, fun h => absurd h hall⟩, fun h => absurd h hall, hfree⟩
      obtain ⟨s2, h2⟩ := h
      rw [hi] at h2
      have h3 := congrArg Prod.snd (Option.some.inj h2)
      simp only at h3
      omega

/-- C18 at two tables: the 4-slot table of 8-bit tags whose slots 0 and 2 are
valid, where `insert(9)` takes slot 1, and the 16-slot table of 16-bit tags
whose slots 0 to 7 are valid, where `insert(9)` takes slot 8. -/
theorem C18_cam_insert_witness :
    (∃ s1, ex8.insert 9 = some (s1, 1) ∧ s1.valid 1 = true ∧ s1.get 1 = some 9 ∧
      ∀ j : Fin 4, j ≠ 1 → s1.valid j = ex8.valid j ∧ s1.get (j.val : Int) = ex8.get (j.val : Int)) ∧
    (∃ s1, ex16.insert 9 = some (s1, 8) ∧ s1.valid 8 = true ∧ s1.get 8 = some 9 ∧
      ∀ j : Fin 16, j ≠ 8 →
        s1.valid j = ex16.valid j ∧ s1.get (j.val : Int) = ex16.get (j.val : Int)) :=
  ⟨(C18_cam_insert ex8 9 ex16 9).1.2.2.2 1 (by decide) (by decide),
   (C18_cam_insert ex8 9 ex16 9).2.2.2.2 8 (by decide) (by decide)⟩

/-- C20, the run that fails: in the 16-slot table of 16-bit tags whose slots 0
to 7 hold the tags 1 to 8, the tag 9 is in no valid slot and slot 8 is free;
`insert(9)` returns 8 and stores 9 in slot 8, which is valid afterwards; the
`search(9)` that follows returns -1 and not 8. -/
theorem C20_cam16_round_trip_fails :
    (∀ j : Fin 16, ex16.valid j = true → ex16.get (j.val : Int) ≠ some 9) ∧
    ex16.valid 8 = false ∧
    ex16.insert 9 = some (ex16b, 8) ∧
    ex16b.valid 8 = true ∧ ex16b.get 8 = some 9 ∧
    ex16b.search 9 = -1 :=
  ⟨by decide, by decide, rfl, by decide, by decide, by decide⟩

/-! ## Extraction and collapse -/

namespace FullyAssociativeTags8bit

variable {size padsize : Nat}

theorem ceil_sixteen (size : Nat) : ceil size 16 / 16 = chunkcount size := by
  unfold ceil chunkcount
  have h := floor_two_pow (size + (16 - 1)) 4
  have e : (2 : Nat) ^ 4 = 16 := by decide
  rw [e] at h
  rw [h]
  omega

theorem ldvbu_eq {n : Nat} (mem : Fin n → Fin 256) (off : Int) (d : Nat)
    (hoff : off = (d : Int)) (h : d + 16 ≤ n) :
    x86_sse_ldvbu mem off
      = some (fun j => mem ⟨d + j.val, by
          have := j.isLt
          omega⟩) := by
  subst hoff
  unfold x86_sse_ldvbu
  have hc : 0 ≤ (d : Int) ∧ (d : Int) + 16 ≤ (n : Int) := ⟨by omega, by omega⟩
  rw [dif_pos hc]
  simp only [Int.toNat_ofNat]

theorem stvbu_eq {n : Nat} (mem : Fin n → Fin 256) (off : Int) (d : Nat) (v : vec16b)
    (hoff : off = (d : Int)) (h : d + 16 ≤ n) :
    x86_sse_stvbu mem off v
      = some (fun b =>
          if h : d ≤ b.val ∧ b.val < d + 16 then v ⟨b.val - d, by omega⟩ else mem b) := by
  subst hoff
  unfold x86_sse_stvbu
  have hc : 0 ≤ (d : Int) ∧ (d : Int) + 16 ≤ (n : Int) := ⟨by omega, by omega⟩
  rw [if_pos hc]
  simp only [Int.toNat_ofNat]

theorem collapse_loop_spec (count : Nat) :
    ∀ (tags : Fin (nbytes size padsize) → Fin 256) (d : Nat) (dp sp : Int),
      dp = (d : Int) → sp = (d : Int) + 1 →
      d + 16 * count + 1 ≤ nbytes size padsize →
      ∃ tags1, collapse_loop tags dp sp count = some tags1 ∧
        (∀ (b : Nat) (hb : b < nbytes size padsize) (hb1 : b + 1 < nbytes size padsize),
          d ≤ b → b < d + 16 * count → tags1 ⟨b, hb⟩ = tags ⟨b + 1, hb1⟩) ∧
        (∀ (b : Nat) (hb : b < nbytes size padsize),
          (b < d ∨ d + 16 * count ≤ b) → tags1 ⟨b, hb⟩ = tags ⟨b, hb⟩) := by
  induction count with
  | zero =>
    intro tags d dp sp _ _ _
    exact ⟨tags, rfl, fun b hb hb1 h1 h2 => by omega, fun b hb _ => rfl⟩
  | succ count ih =>
    intro tags d dp sp hdp hsp hd
    have hsp1 : sp = ((d + 1 : Nat) : Int) := by omega
    obtain ⟨tags1, hl, hin, hout⟩ := ih
      (fun b : Fin (nbytes size padsize) =>
        if h : d ≤ b.val ∧ b.val < d + 16 then
          (fun j : Fin 16 => tags ⟨d + 1 + j.val, by
            have := j.isLt
            omega⟩) ⟨b.val - d, by omega⟩
        else tags b) (d + 16) (dp + 16) (sp + 16) (by omega) (by omega) (by omega)
    refine ⟨tags1, ?_, ?_, ?_⟩
    · unfold collapse_loop
      rw [ldvbu_eq tags sp (d + 1) hsp1 (by omega)]
      simp only
      rw [stvbu_eq tags dp d _ hdp (by omega)]
      exact hl
    · intro b hb hb1 h1 h2
      by_cases hlow : b < d + 16
      · rw [hout b hb (Or.inl hlow)]
        have hc : d ≤ b ∧ b < d + 16 := ⟨h1, hlow⟩
        simp only [hc, and_self, dite_true]
        congr 1
        apply Fin.ext
        simp only
        omega
      · rw [hin b hb hb1 (by omega) (by omega)]
        have hc : ¬ (d ≤ b + 1 ∧ b + 1 < d + 16) := by omega
        simp only [hc, dite_false]
    · intro b hb hor
      rw [hout b hb (by omega)]
      have hc : ¬ (d ≤ b ∧ b < d + 16) := by omega
      simp only [hc, dite_false]

end FullyAssociativeTags8bit

namespace FullyAssociativeTags8bit

variable {size padsize : Nat}

/-- C22, where it fails: a 4-slot table declared without padding has 16 tag
bytes, and `collapse(1)` loads the 16 bytes from offset 2 on, past the end of
`tags`; the call has no defined result. -/
theorem C22_cam8_collapse_counterexample :
    ex8.collapse 1 = none ∧ ¬ ∃ s1, ex8.collapse 1 = some s1 := by
  have h : ex8.collapse 1 = none := rfl
  exact ⟨h, fun ⟨s1, h1⟩ => by rw [h] at h1; exact Option.noConfusion h1⟩

/-- C22: in the table of 8-bit tags, for a slot `i` below 16 times
`padchunkcount` (the padding then holds the bytes the loop reaches behind the
`chunkcount` vectors), `collapse(i)` returns; every slot below `i` keeps its tag
and its validity, and every slot `j` from `i` up to `size - 2` has the tag and
the validity slot `j + 1` had. -/
theorem C22_cam8_collapse (s : FullyAssociativeTags8bit size padsize) (i : Fin size)
    (hpad : i.val < 16 * padchunkcount padsize) :
    ∃ s1, s.collapse (i.val : Int) = some s1 ∧
      (∀ j : Fin size, j.val < i.val →
        s1.get (j.val : Int) = s.get (j.val : Int) ∧ s1.valid j = s.valid j) ∧
      (∀ (j : Fin size) (h : j.val + 1 < size), i.val ≤ j.val →
        s1.get (j.val : Int) = s.get ((j.val : Int) + 1) ∧
        s1.valid j = s.valid ⟨j.val + 1, h⟩) := by
  have hsz := size_le_nbytes size padsize
  have hcc : size ≤ 16 * chunkcount size := by
    unfold chunkcount
    omega
  obtain ⟨tags1, hl, hin, hout⟩ := collapse_loop_spec (chunkcount size) s.tags i.val
    (i.val : Int) ((i.val : Int) + 1) rfl rfl (by
      have := i.isLt
      unfold nbytes
      omega)
  have hc : s.collapse (i.val : Int)
      = some (FullyAssociativeTags8bit.mk tags1 (s.valid.remove i)) := by
    unfold collapse
    simp only [ceil_sixteen, hl, index?_coe]
  refine ⟨_, hc, ?_, ?_⟩
  · intro j hj
    refine ⟨?_, ?_⟩
    · rw [get_coe, get_coe]
      simp only [Option.some.injEq]
      exact hout j.val _ (Or.inl hj)
    · simp only [bitvec.remove, hj, if_true]
  · intro j h hij
    refine ⟨?_, ?_⟩
    · have hg := get_coe s ⟨j.val + 1, h⟩
      simp only [Nat.cast_add, Nat.cast_one] at hg
      rw [get_coe, hg]
      simp only [Option.some.injEq]
      exact hin j.val _ _ hij (by
        have := j.isLt
        omega)
    · have hn : ¬ j.val < i.val := by omega
      simp only [bitvec.remove, hn, if_false, h, dite_true]

/-- C22 at a 4-slot table with 16 slots of padding that holds the tags 10, 20,
30, 40, all valid but slot 1: after `collapse(1)` the slots 0, 1, 2 hold 10,
30, 40 and are valid. -/
theorem C22_cam8_collapse_witness :
    ∃ s1, ex8p.collapse 1 = some s1 ∧
      s1.get 0 = some 10 ∧ s1.get 1 = some 30 ∧ s1.get 2 = some 40 ∧
      s1.valid 0 = true ∧ s1.valid 1 = true ∧ s1.valid 2 = true := by
  obtain ⟨s1, h, hlo, hhi⟩ := C22_cam8_collapse ex8p 1 (by decide)
  have h0 := hlo 0 (by decide)
  have h1 := hhi 1 (by decide) (by decide)
  have h2 := hhi 2 (by decide) (by decide)
  refine ⟨s1, h, ?_, ?_, ?_, ?_, ?_, ?_⟩
  · exact h0.1.trans (by decide)
  · exact h1.1.trans (by decide)
  · exact h2.1.trans (by decide)
  · exact h0.2.trans (by decide)
  · exact h1.2.trans (by decide)
  · exact h2.2.trans (by decide)

end FullyAssociativeTags8bit

/-- C23, the run that fails: in the 16-slot table of 16-bit tags whose slots 0
to 7 hold the tags 1 to 8, `collapse(2)` stays inside the tag storage and
returns; afterwards slot 1, which lies below the collapsed slot, holds 3 (the
tag slot 2 had) and no longer 2, while the validity bitmap lost bit 2: the
slots 0 to 6 are valid and slot 7 is not. -/
theorem C23_cam16_collapse_moves_lower_slot :
    ex16.get 1 = some 2 ∧ ex16.get 2 = some 3 ∧
    (ex16.collapse 2).map (fun s1 => (s1.get 0, s1.get 1, s1.get 2))
      = some (some 1, some 3, some 4) ∧
    (ex16.collapse 2).map (fun s1 => (s1.valid 1, s1.valid 6, s1.valid 7))
      = some (true, true, false) :=
  ⟨by decide, by decide, by decide, by decide⟩

/-! ## Saturating aging -/

theorem foldl_obs {S I α : Type} [DecidableEq I] (step : S → I → S) (obs : S → α)
    (F : α → α) (key : I)
    (hstep : ∀ s i, obs (step s i) = if i = key then F (obs s) else obs s) :
    ∀ (l : List I) (s : S), l.Nodup →
      obs (l.foldl step s) = if key ∈ l then F (obs s) else obs s := by
  intro l
  induction l with
  | nil =>
    intro s _
    simp
  | cons i l ih =>
    intro s hnd
    rw [List.nodup_cons] at hnd
    rw [List.foldl_cons, ih (step s i) hnd.2, hstep]
    by_cases hik : i = key
    · subst hik
      simp [hnd.1]
    · have hne : key ≠ i := fun h => hik h.symm
      simp [hik, hne]

theorem foldl_keep {S I β : Type} (step : S → I → S) (p : S → β)
    (h : ∀ s i, p (step s i) = p s) : ∀ (l : List I) (s : S), p (l.foldl step s) = p s := by
  intro l
  induction l with
  | nil =>
    intro s
    rfl
  | cons i l ih =>
    intro s
    rw [List.foldl_cons, ih, h]

theorem iterate_keep {S β : Type} (f : S → S) (p : S → β) (h : ∀ s, p (f s) = p s) :
    ∀ (N : Nat) (s : S), p (Nat.iterate f N s) = p s := by
  intro N
  induction N with
  | zero =>
    intro s
    rfl
  | succ N ih =>
    intro s
    rw [Function.iterate_succ_apply, ih, h]

theorem iterate_obs {S α : Type} (f : S → S) (obs : S → α) (F : α → α)
    (h : ∀ s, obs (f s) = F (obs s)) :
    ∀ (N : Nat) (s : S), obs (Nat.iterate f N s) = Nat.iterate F N (obs s) := by
  intro N
  induction N with
  | zero =>
    intro s
    rfl
  | succ N ih =>
    intro s
    rw [Function.iterate_succ_apply, ih, h, Function.iterate_succ_apply]

namespace FullyAssociativeTags8bit

variable {size padsize : Nat}

theorem setChunk_get (s : FullyAssociativeTags8bit size padsize) (a : Fin 256)
    (op : vec16b → vec16b → vec16b) (g : Fin 256 → Fin 256 → Fin 256)
    (hop : ∀ x y j, op x y j = g (x j) (y j)) (m : Fin size) (i : Fin (chunkcount size)) :
    (s.setChunk (Fin.castAdd _ i) (op (s.chunk (Fin.castAdd _ i)) (prep a))).get (m.val : Int)
      = if i = ⟨m.val / 16, by
            have := m.isLt
            unfold chunkcount
            omega⟩
        then (s.get (m.val : Int)).map (fun v => g v a) else s.get (m.val : Int) := by
  rw [get_coe, get_coe]
  unfold setChunk
  simp only [Fin.coe_castAdd]
  by_cases hik : i = ⟨m.val / 16, by
      have := m.isLt
      unfold chunkcount
      omega⟩
  · have hv : m.val / 16 = i.val := by rw [hik]
    simp only [hik, if_true, hop, Option.map_some', Option.some.injEq]
    unfold chunk prep x86_sse_dupb
    simp only [Fin.coe_castAdd]
    congr 2
    apply Fin.ext
    simp only
    omega
  · have hv : ¬ m.val / 16 = i.val := fun h => hik (Fin.ext h.symm)
    simp only [hv, hik, if_false]

theorem setChunk_valid (s : FullyAssociativeTags8bit size padsize)
    (i : Fin (chunkcount size + padchunkcount padsize)) (v : vec16b) :
    (s.setChunk i v).valid = s.valid := rfl

theorem increment_get (s : FullyAssociativeTags8bit size padsize) (a : Fin 256) (m : Fin size) :
    (s.increment a).get (m.val : Int)
      = (s.get (m.val : Int)).map (fun v => (⟨min (v.val + a.val) 255,
          Nat.lt_succ_of_le (Nat.min_le_right _ _)⟩ : Fin 256)) := by
  unfold increment
  rw [foldl_obs _ (fun s : FullyAssociativeTags8bit size padsize => s.get (m.val : Int)) _ _
    (fun s i => setChunk_get s a x86_sse_paddusb
      (fun u w => ⟨min (u.val + w.val) 255, Nat.lt_succ_of_le (Nat.min_le_right _ _)⟩)
      (fun _ _ _ => rfl) m i) _ s
    (List.nodup_finRange _)]
  simp

theorem decrement_get (s : FullyAssociativeTags8bit size padsize) (a : Fin 256) (m : Fin size) :
    (s.decrement a).get (m.val : Int)
      = (s.get (m.val : Int)).map (fun v => (⟨v.val - a.val,
          lt_of_le_of_lt (Nat.sub_le _ _) v.isLt⟩ : Fin 256)) := by
  unfold decrement
  rw [foldl_obs _ (fun s : FullyAssociativeTags8bit size padsize => s.get (m.val : Int)) _ _
    (fun s i => setChunk_get s a x86_sse_psubusb
      (fun u w => ⟨u.val - w.val, lt_of_le_of_lt (Nat.sub_le _ _) u.isLt⟩)
      (fun _ _ _ => rfl) m i) _ s
    (List.nodup_finRange _)]
  simp

theorem increment_valid (s : FullyAssociativeTags8bit size padsize) (a : Fin 256) :
    (s.increment a).valid = s.valid := by
  unfold increment
  exact foldl_keep
    (fun (s : FullyAssociativeTags8bit size padsize) (i : Fin (chunkcount size)) =>
      s.setChunk (Fin.castAdd _ i) (x86_sse_paddusb (s.chunk (Fin.castAdd _ i)) (prep a)))
    (fun s => s.valid) (fun s i => rfl) _ s

theorem decrement_valid (s : FullyAssociativeTags8bit size padsize) (a : Fin 256) :
    (s.decrement a).valid = s.valid := by
  unfold decrement
  exact foldl_keep
    (fun (s : FullyAssociativeTags8bit size padsize) (i : Fin (chunkcount size)) =>
      s.setChunk (Fin.castAdd _ i) (x86_sse_psubusb (s.chunk (Fin.castAdd _ i)) (prep a)))
    (fun s => s.valid) (fun s i => rfl) _ s

theorem iterate_inc (v : Fin 256) (N : Nat) :
    (Nat.iterate (Option.map (fun v : Fin 256 => (⟨min (v.val + (1 : Fin 256).val) 255,
        Nat.lt_succ_of_le (Nat.min_le_right _ _)⟩ : Fin 256))) N (some v)).map Fin.val
      = some (min (v.val + N) 255) := by
  induction N generalizing v with
  | zero =>
    have := v.isLt
    simp only [Function.iterate_zero, id_eq, Option.map_some', Option.some.injEq]
    omega
  | succ N ih =>
    rw [Function.iterate_succ_apply, Option.map_some', ih]
    simp only [Option.some.injEq]
    have h1 : ((1 : Fin 256).val) = 1 := rfl
    rw [h1]
    omega

theorem iterate_dec (v : Fin 256) (N : Nat) :
    (Nat.iterate (Option.map (fun v : Fin 256 => (⟨v.val - (1 : Fin 256).val,
        lt_of_le_of_lt (Nat.sub_le _ _) v.isLt⟩ : Fin 256))) N (some v)).map
        (fun w => (w.val : Int))
      = some (max ((v.val : Int) - (N : Int)) 0) := by
  induction N generalizing v with
  | zero =>
    simp only [Function.iterate_zero, id_eq, Option.map_some', Option.some.injEq]
    omega
  | succ N ih =>
    rw [Function.iterate_succ_apply, Option.map_some', ih]
    simp only [Option.some.injEq]
    have h1 : ((1 : Fin 256).val) = 1 := rfl
    rw [h1]
    have := v.isLt
    omega

end FullyAssociativeTags8bit

namespace FullyAssociativeTags16bit

variable {size padsize : Nat}

theorem setChunk_low (s : FullyAssociativeTags16bit size padsize)
    (i : Fin (chunkcount size + padchunkcount padsize)) (v : vec8w) (m : Nat)
    (hm : 2 * m < nbytes size padsize) (h : m / 8 = i.val) :
    (s.setChunk i v).tags ⟨2 * m, hm⟩ = lowByte (v ⟨m % 8, Nat.mod_lt _ (by decide)⟩) := by
  unfold setChunk
  have h1 : 2 * m / 16 = i.val := by omega
  have h3 : 2 * m % 2 = 0 := by omega
  simp only [h1, h3, if_true]
  congr 2
  apply Fin.ext
  simp only
  omega

theorem setChunk_high (s : FullyAssociativeTags16bit size padsize)
    (i : Fin (chunkcount size + padchunkcount padsize)) (v : vec8w) (m : Nat)
    (hm : 2 * m + 1 < nbytes size padsize) (h : m / 8 = i.val) :
    (s.setChunk i v).tags ⟨2 * m + 1, hm⟩ = highByte (v ⟨m % 8, Nat.mod_lt _ (by decide)⟩) := by
  unfold setChunk
  have h1 : (2 * m + 1) / 16 = i.val := by omega
  have h3 : ¬ (2 * m + 1) % 2 = 0 := by omega
  simp only [h1, h3, if_true, if_false]
  congr 2
  apply Fin.ext
  simp only
  omega

theorem setChunk_other (s : FullyAssociativeTags16bit size padsize)
    (i : Fin (chunkcount size + padchunkcount padsize)) (v : vec8w) (b : Nat)
    (hb : b < nbytes size padsize) (h : ¬ b / 16 = i.val) :
    (s.setChunk i v).tags ⟨b, hb⟩ = s.tags ⟨b, hb⟩ := by
  unfold setChunk
  simp only [h, if_false]

theorem chunk_lane (s : FullyAssociativeTags16bit size padsize)
    (i : Fin (chunkcount size + padchunkcount padsize)) (m : Nat)
    (hm : 2 * m + 1 < nbytes size padsize) (h : m / 8 = i.val) :
    s.chunk i ⟨m % 8, Nat.mod_lt _ (by decide)⟩
      = word (s.tags ⟨2 * m, by omega⟩) (s.tags ⟨2 * m + 1, hm⟩) := by
  unfold chunk
  congr 2
  · apply Fin.ext
    simp only
    omega
  · apply Fin.ext
    simp only
    omega

theorem setChunk16_get (s : FullyAssociativeTags16bit size padsize) (a : Fin 65536)
    (op : vec8w → vec8w → vec8w) (g : Fin 65536 → Fin 65536 → Fin 65536)
    (hop : ∀ x y j, op x y j = g (x j) (y j)) (m : Fin size) (i : Fin (chunkcount size)) :
    (s.setChunk (Fin.castAdd _ i) (op (s.chunk (Fin.castAdd _ i)) (prep a))).get (m.val : Int)
      = if i = ⟨m.val / 8, by
            have := m.isLt
            unfold chunkcount
            omega⟩
        then (s.get (m.val : Int)).map (fun v => g v a) else s.get (m.val : Int) := by
  have hm := m.isLt
  have hn := two_size_le_nbytes size padsize
  rw [get_word, get_word]
  by_cases hik : i = ⟨m.val / 8, by
      have := m.isLt
      unfold chunkcount
      omega⟩
  · have hv : m.val / 8 = (Fin.castAdd (padchunkcount padsize) i).val := by
      rw [hik]
      rfl
    rw [if_pos hik, setChunk_low s _ _ m.val (by omega) hv,
      setChunk_high s _ _ m.val (by omega) hv, word_bytes, hop,
      chunk_lane s _ m.val (by omega) hv]
    rfl
  · have hv : ¬ m.val / 8 = i.val := fun h => hik (Fin.ext h.symm)
    rw [if_neg hik, setChunk_other s _ _ (2 * m.val) (by omega) (by
        simp only [Fin.coe_castAdd]
        omega),
      setChunk_other s _ _ (2 * m.val + 1) (by omega) (by
        simp only [Fin.coe_castAdd]
        omega)]

theorem increment16_get (s : FullyAssociativeTags16bit size padsize) (a : Fin 65536)
    (m : Fin size) :
    (s.increment a).get (m.val : Int)
      = (s.get (m.val : Int)).map (fun v => (⟨min (v.val + a.val) 65535,
          Nat.lt_succ_of_le (Nat.min_le_right _ _)⟩ : Fin 65536)) := by
  unfold increment
  rw [foldl_obs _ (fun s : FullyAssociativeTags16bit size padsize => s.get (m.val : Int)) _ _
    (fun s i => setChunk16_get s a x86_sse_paddusw
      (fun u w => ⟨min (u.val + w.val) 65535, Nat.lt_succ_of_le (Nat.min_le_right _ _)⟩)
      (fun _ _ _ => rfl) m i) _ s
    (List.nodup_finRange _)]
  simp

theorem decrement16_get (s : FullyAssociativeTags16bit size padsize) (a : Fin 65536)
    (m : Fin size) :
    (s.decrement a).get (m.val : Int)
      = (s.get (m.val : Int)).map (fun v => (⟨v.val - a.val,
          lt_of_le_of_lt (Nat.sub_le _ _) v.isLt⟩ : Fin 65536)) := by
  unfold decrement
  rw [foldl_obs _ (fun s : FullyAssociativeTags16bit size padsize => s.get (m.val : Int)) _ _
    (fun s i => setChunk16_get s a x86_sse_psubusw
      (fun u w => ⟨u.val - w.val, lt_of_le_of_lt (Nat.sub_le _ _) u.isLt⟩)
      (fun _ _ _ => rfl) m i) _ s
    (List.nodup_finRange _)]
  simp

theorem increment16_valid (s : FullyAssociativeTags16bit size padsize) (a : Fin 65536) :
    (s.increment a).valid = s.valid := by
  unfold increment
  exact foldl_keep
    (fun (s : FullyAssociativeTags16bit size padsize) (i : Fin (chunkcount size)) =>
      s.setChunk (Fin.castAdd _ i) (x86_sse_paddusw (s.chunk (Fin.castAdd _ i)) (prep a)))
    (fun s => s.valid) (fun s i => rfl) _ s

theorem decrement16_valid (s : FullyAssociativeTags16bit size padsize) (a : Fin 65536) :
    (s.decrement a).valid = s.valid := by
  unfold decrement
  exact foldl_keep
    (fun (s : FullyAssociativeTags16bit size padsize) (i : Fin (chunkcount size)) =>
      s.setChunk (Fin.castAdd _ i) (x86_sse_psubusw (s.chunk (Fin.castAdd _ i)) (prep a)))
    (fun s => s.valid) (fun s i => rfl) _ s

theorem iterate_inc16 (v : Fin 65536) (N : Nat) :
    (Nat.iterate (Option.map (fun v : Fin 65536 => (⟨min (v.val + (1 : Fin 65536).val) 65535,
        Nat.lt_succ_of_le (Nat.min_le_right _ _)⟩ : Fin 65536))) N (some v)).map Fin.val
      = some (min (v.val + N) 65535) := by
  induction N generalizing v with
  | zero =>
    have := v.isLt
    simp only [Function.iterate_zero, id_eq, Option.map_some', Option.some.injEq]
    omega
  | succ N ih =>
    rw [Function.iterate_succ_apply, Option.map_some', ih]
    simp only [Option.some.injEq]
    have h1 : ((1 : Fin 65536).val) = 1 := rfl
    rw [h1]
    omega

theorem iterate_dec16 (v : Fin 65536) (N : Nat) :
    (Nat.iterate (Option.map (fun v : Fin 65536 => (⟨v.val - (1 : Fin 65536).val,
        lt_of_le_of_lt (Nat.sub_le _ _) v.isLt⟩ : Fin 65536))) N (some v)).map
        (fun w => (w.val : Int))
      = some (max ((v.val : Int) - (N : Int)) 0) := by
  induction N generalizing v with
  | zero =>
    simp only [Function.iterate_zero, id_eq, Option.map_some', Option.some.injEq]
    omega
  | succ N ih =>
    rw [Function.iterate_succ_apply, Option.map_some', ih]
    simp only [Option.some.injEq]
    have h1 : ((1 : Fin 65536).val) = 1 := rfl
    rw [h1]
    have := v.isLt
    omega

end FullyAssociativeTags16bit

/-- C24: `increment()` and `decrement()` (amount 1) of the tables of 8-bit and
of 16-bit tags, applied `N` times in a row.  A slot `i < size` that held `v`
holds `min(v + N, 255)` after the increments and `max(v - N, 0)` after the
decrements in the table of 8-bit tags, and `min(v + N, 65535)` and
`max(v - N, 0)` in the table of 16-bit tags; the validity bitmap is the one
before the calls. -/
theorem C24_cam_saturating_aging {size8 pad8 size16 pad16 : Nat}
    (s8 : FullyAssociativeTags8bit size8 pad8) (i8 : Fin size8)
    (s16 : FullyAssociativeTags16bit size16 pad16) (i16 : Fin size16) (N : Nat) :
    (∃ v, s8.get (i8.val : Int) = some v ∧
      ((Nat.iterate (fun x => x.increment 1) N s8).get (i8.val : Int)).map Fin.val
        = some (min (v.val + N) 255) ∧
      ((Nat.iterate (fun x => x.decrement 1) N s8).get (i8.val : Int)).map
          (fun w => (w.val : Int))
        = some (max ((v.val : Int) - (N : Int)) 0)) ∧
    (Nat.iterate (fun x => x.increment 1) N s8).valid = s8.valid ∧
    (Nat.iterate (fun x => x.decrement 1) N s8).valid = s8.valid ∧
    (∃ v, s16.get (i16.val : Int) = some v ∧
      ((Nat.iterate (fun x => x.increment 1) N s16).get (i16.val : Int)).map Fin.val
        = some (min (v.val + N) 65535) ∧
      ((Nat.iterate (fun x => x.decrement 1) N s16).get (i16.val : Int)).map
          (fun w => (w.val : Int))
        = some (max ((v.val : Int) - (N : Int)) 0)) ∧
    (Nat.iterate (fun x => x.increment 1) N s16).valid = s16.valid ∧
    (Nat.iterate (fun x => x.decrement 1) N s16).valid = s16.valid := by
  refine ⟨⟨_, FullyAssociativeTags8bit.get_coe s8 i8, ?_, ?_⟩, ?_, ?_,
    ⟨_, FullyAssociativeTags16bit.get_word s16 i16, ?_, ?_⟩, ?_, ?_⟩
  · rw [iterate_obs (fun x : FullyAssociativeTags8bit size8 pad8 => x.increment 1)
      (fun x => x.get (i8.val : Int)) _
      (fun x => FullyAssociativeTags8bit.increment_get x 1 i8) N s8,
      FullyAssociativeTags8bit.get_coe]
    exact FullyAssociativeTags8bit.iterate_inc _ N
  · rw [iterate_obs (fun x : FullyAssociativeTags8bit size8 pad8 => x.decrement 1)
      (fun x => x.get (i8.val : Int)) _
      (fun x => FullyAssociativeTags8bit.decrement_get x 1 i8) N s8,
      FullyAssociativeTags8bit.get_coe]
    exact FullyAssociativeTags8bit.iterate_dec _ N
  · exact iterate_keep _ (fun x : FullyAssociativeTags8bit size8 pad8 => x.valid)
      (fun x => FullyAssociativeTags8bit.increment_valid x 1) N s8
  · exact iterate_keep _ (fun x : FullyAssociativeTags8bit size8 pad8 => x.valid)
      (fun x => FullyAssociativeTags8bit.decrement_valid x 1) N s8
  · rw [iterate_obs (fun x : FullyAssociativeTags16bit size16 pad16 => x.increment 1)
      (fun x => x.get (i16.val : Int)) _
      (fun x => FullyAssociativeTags16bit.increment16_get x 1 i16) N s16,
      FullyAssociativeTags16bit.get_word]
    exact FullyAssociativeTags16bit.iterate_inc16 _ N
  · rw [iterate_obs (fun x : FullyAssociativeTags16bit size16 pad16 => x.decrement 1)
      (fun x => x.get (i16.val : Int)) _
      (fun x => FullyAssociativeTags16bit.decrement16_get x 1 i16) N s16,
      FullyAssociativeTags16bit.get_word]
    exact FullyAssociativeTags16bit.iterate_dec16 _ N
  · exact iterate_keep _ (fun x : FullyAssociativeTags16bit size16 pad16 => x.valid)
      (fun x => FullyAssociativeTags16bit.increment16_valid x 1) N s16
  · exact iterate_keep _ (fun x : FullyAssociativeTags16bit size16 pad16 => x.valid)
      (fun x => FullyAssociativeTags16bit.decrement16_valid x 1) N s16

/-- C24 at two 4-slot tables and `N = 3`: slot 2 of the table of 8-bit tags
holds 254, so three increments leave 255 and three decrements 251; slot 1 of
the table of 16-bit tags holds 3, so three increments leave 6 and three
decrements 0. -/
theorem C24_cam_saturating_aging_witness :
    ((Nat.iterate (fun x => x.increment 1) 3 ex8s).get 2).map Fin.val = some 255 ∧
    ((Nat.iterate (fun x => x.decrement 1) 3 ex8s).get 2).map (fun w => (w.val : Int))
      = some 251 ∧
    ((Nat.iterate (fun x => x.increment 1) 3 ex16s).get 1).map Fin.val = some 6 ∧
    ((Nat.iterate (fun x => x.decrement 1) 3 ex16s).get 1).map (fun w => (w.val : Int))
      = some 0 := by
  obtain ⟨⟨v, hv, h1, h2⟩, _, _, ⟨w, hw, h3, h4⟩, _, _⟩ :=
    C24_cam_saturating_aging ex8s 2 ex16s 1 3
  have ev : v = 254 := Option.some.inj (hv.symm.trans (by decide))
  have ew : w = 3 := Option.some.inj (hw.symm.trans (by decide))
  subst ev
  subst ew
  exact ⟨h1, h2, h3, h4⟩

/-! ## FullyAssociativeTags: free ways -/

namespace FullyAssociativeTags

variable {T : TagType} {ways : Nat}

theorem filling_use (s : FullyAssociativeTags T ways) (k : Fin ways)
    (hk : s.tags k ≠ INVALID T) (hf : s.Filling) :
    (FullyAssociativeTags.mk (T := T) (s.evictmap.set k true) s.tags).Filling := by
  constructor
  · intro i hi
    simp only [bitvec.set] at hi
    by_cases hik : i = k
    · subst hik
      exact hk
    · rw [Function.update_noteq hik] at hi
      exact hf.1 i hi
  · intro hex i hi
    simp only [bitvec.set]
    by_cases hik : i = k
    · subst hik
      simp
    · rw [Function.update_noteq hik]
      exact hf.2 hex i hi

theorem filling_miss (s : FullyAssociativeTags T ways) (t : Nat) (ht : t ≠ INVALID T)
    (hw : 0 < ways) (k : Fin ways)
    (hl1 : s.evictmap.allset = true → k = ⟨0, hw⟩)
    (hl2 : s.evictmap.allset = false → s.evictmap k = false)
    (hf : s.Filling) :
    Filling (FullyAssociativeTags.mk (T := T)
      ((if s.evictmap.allset then bitvec.zero else s.evictmap).set k true)
      (Function.update s.tags k t)) := by
  constructor
  · intro i hi
    simp only [bitvec.set] at hi
    simp only
    by_cases hik : i = k
    · subst hik
      rw [Function.update_same]
      exact ht
    · rw [Function.update_noteq hik] at hi
      rw [Function.update_noteq hik]
      cases ha : s.evictmap.allset
      · rw [ha] at hi
        exact hf.1 i hi
      · rw [ha] at hi
        simp [bitvec.zero] at hi
  · rintro ⟨j, hj⟩ i hi
    simp only at hj hi
    simp only [bitvec.set]
    have hjk : j ≠ k := by
      intro h
      subst h
      rw [Function.update_same] at hj
      exact ht hj
    rw [Function.update_noteq hjk] at hj
    by_cases hik : i = k
    · subst hik
      simp
    · rw [Function.update_noteq hik] at hi
      rw [Function.update_noteq hik]
      cases ha : s.evictmap.allset
      · simp only [Bool.false_eq_true, if_false]
        exact hf.2 ⟨j, hj⟩ i hi
      · exfalso
        have hjset : s.evictmap j = true := (bitvec.allset_eq_true _).1 ha j
        exact hf.1 j hjset hj

theorem vacuous_of_no_ways (h0 : ways = 0) (s : FullyAssociativeTags T ways) :
    s.Assoc ∧ s.Filling := by
  subst h0
  exact ⟨fun i => i.elim0, fun i => i.elim0, fun _ i => i.elim0⟩

/-- Without `invalidate`, every reachable state keeps the associativity
invariant and the MRU bits of a table that is filling up. -/
theorem reachableBySelect_inv (s : FullyAssociativeTags T ways) (h : ReachableBySelect s) :
    s.Assoc ∧ s.Filling := by
  induction h with
  | reset =>
    refine ⟨?_, ?_, ?_⟩
    · intro i j _ hne
      exact absurd rfl hne
    · intro i hi
      simp [reset, bitvec.zero] at hi
    · intro _ i hi
      exact absurd rfl hi
  | select s s1 t oldtag oldtag1 way _ ht hsel ih =>
    obtain ⟨hassoc, hfill⟩ := ih
    by_cases hp : ∃ k, s.tags k = t
    · obtain ⟨k, hk⟩ := hp
      have hu : ∀ i, s.tags i = t → i = k := fun i hi =>
        hassoc i k (hi.trans hk.symm) (by rw [hi]; exact ht)
      rw [select_hit s t oldtag k hk hu] at hsel
      simp only [Option.some.injEq, Prod.mk.injEq] at hsel
      rw [← hsel.1]
      exact ⟨Assoc_of_tags_eq s _ hassoc rfl, filling_use s k (by rw [hk]; exact ht) hfill⟩
    · have habs : ∀ i, s.tags i ≠ t := fun i hi => hp ⟨i, hi⟩
      rcases Nat.eq_zero_or_pos ways with h0 | hw
      · exact vacuous_of_no_ways h0 s1
      · obtain ⟨k, hl, hl1, hl2⟩ := lru_spec s hw
        rw [select_miss s t oldtag habs k hl] at hsel
        simp only [Option.some.injEq, Prod.mk.injEq] at hsel
        rw [← hsel.1]
        exact ⟨Assoc_update s t k hassoc habs _ rfl,
          filling_miss s t ht hw k hl1 (fun ha => (hl2 ha).1) hfill⟩
  | probe s s1 t way _ ht hpr ih =>
    obtain ⟨hassoc, hfill⟩ := ih
    by_cases hp : ∃ k, s.tags k = t
    · obtain ⟨k, hk⟩ := hp
      have hu : ∀ i, s.tags i = t → i = k := fun i hi =>
        hassoc i k (hi.trans hk.symm) (by rw [hi]; exact ht)
      rw [probe_unique s t k hk hu] at hpr
      simp only [Option.some.injEq, Prod.mk.injEq] at hpr
      rw [← hpr.1]
      exact ⟨Assoc_of_tags_eq s _ hassoc rfl, filling_use s k (by rw [hk]; exact ht) hfill⟩
    · have habs : ∀ i, s.tags i ≠ t := fun i hi => hp ⟨i, hi⟩
      rw [probe_absent s t habs] at hpr
      simp only [Option.some.injEq, Prod.mk.injEq] at hpr
      rw [← hpr.1]
      exact ⟨hassoc, hfill⟩

/-- C25, as stated, fails once a sweep of the MRU bitmap is followed by an
`invalidate`.  In a `FullyAssociativeTags<W64, 3>` the calls `select(10)`,
`select(20)`, `select(30)`, `select(40)` and `invalidate(30)` after `reset()`
leave the tags 40, 20 and the sentinel with only the MRU bit of way 0 set: way
2 is unoccupied, 50 is absent, and `select(50, oldtag)` returns way 1 with
`oldtag = 20`, the tag it evicts. -/
theorem C25_free_way_counterexample :
    Reachable exR5 ∧ exR5.tags 2 = INVALID .W64 ∧ (∀ i, exR5.tags i ≠ 50) ∧
    exR5.tags 1 = 20 ∧ (50 : Nat) ≠ INVALID .W64 ∧
    (exR5.select 50 0).map (fun r => r.2) = some (1, 20) :=
  ⟨Reachable.invalidate exR4 exR5 30 2
      (Reachable.select exR3 exR4 40 0 10 0
        (Reachable.select exR2 exR3 30 0 (INVALID .W64) 2
          (Reachable.select exR1 exR2 20 0 (INVALID .W64) 1
            (Reachable.select exR0 exR1 10 0 (INVALID .W64) 0 Reachable.reset
              (by decide) rfl)
            (by decide) rfl)
          (by decide) rfl)
        (by decide) rfl)
      (by decide) rfl,
    by decide, by decide, by decide, by decide, by decide⟩

/-- C25, amended: in every state reachable from `reset()` by `select` and
`probe` calls with tags other than the sentinel (no `invalidate`), if some way
is unoccupied then `select(t, oldtag)` of an absent tag `t` (which is then not
the sentinel) returns an unoccupied way `k` and reports `oldtag = INVALID`;
afterwards way `k` holds `t` and every other way holds the tag it held. -/
theorem C25_no_eviction_while_free (s : FullyAssociativeTags T ways)
    (h : ReachableBySelect s) (t oldtag : Nat)
    (habs : ∀ i, s.tags i ≠ t) (hfree : ∃ i, s.tags i = INVALID T) :
    ∃ (s1 : FullyAssociativeTags T ways) (k : Fin ways),
      s.select t oldtag = some (s1, (k.val : Int), INVALID T) ∧
      s.tags k = INVALID T ∧ s1.tags k = t ∧ ∀ j, j ≠ k → s1.tags j = s.tags j := by
  obtain ⟨-, hf1, hf2⟩ := reachableBySelect_inv s h
  obtain ⟨w, hw⟩ := hfree
  have hways : 0 < ways := lt_of_le_of_lt (Nat.zero_le _) w.isLt
  have hna : s.evictmap.allset = false := by
    cases ha : s.evictmap.allset
    · rfl
    · exact absurd hw (hf1 w ((bitvec.allset_eq_true _).1 ha w))
  obtain ⟨k, hl, -, hl2⟩ := lru_spec s hways
  have hk : s.tags k = INVALID T := by
    by_contra hne
    have := hf2 ⟨w, hw⟩ k hne
    rw [(hl2 hna).1] at this
    exact absurd this (by decide)
  refine ⟨FullyAssociativeTags.mk
      ((if s.evictmap.allset then bitvec.zero else s.evictmap).set k true)
      (Function.update s.tags k t), k, ?_, hk, ?_, ?_⟩
  · rw [select_miss s t oldtag habs k hl, hk]
  · simp
  · intro j hj
    simp [Function.update_noteq hj]

/-- C25, amended, at the 3-way table after `reset()` and `select(10)`: ways 1
and 2 are unoccupied, and `select(20, oldtag)` takes way 1 and reports the
sentinel. -/
theorem C25_no_eviction_while_free_witness :
    ∃ (s1 : FullyAssociativeTags .W64 3) (k : Fin 3),
      exR1.select 20 0 = some (s1, (k.val : Int), INVALID .W64) ∧
      exR1.tags k = INVALID .W64 ∧ s1.tags k = 20 ∧ ∀ j, j ≠ k → s1.tags j = exR1.tags j :=
  C25_no_eviction_while_free exR1
    (ReachableBySelect.select exR0 exR1 10 0 (INVALID .W64) 0 ReachableBySelect.reset
      (by decide) rfl)
    20 0 (by decide) ⟨1, by decide⟩

end FullyAssociativeTags

/-! ## LockableAssociativeArray: the clear-list and the locked ways -/

namespace LockableAssociativeArray

variable {T : TagType} {V : Type} {setcount waycount linesize : Nat}

theorem update_sets_same_unlocked
    (sets : Fin setcount → LockableFullyAssociativeArray T V waycount) (si : Fin setcount)
    (set1 : LockableFullyAssociativeArray T V waycount)
    (h : set1.tags.unlockedmap = (sets si).tags.unlockedmap) :
    ∀ sj, ((Function.update sets si set1) sj).tags.unlockedmap = (sets sj).tags.unlockedmap := by
  intro sj
  by_cases hs : sj = si
  · subst hs
    rw [Function.update_same]
    exact h
  · rw [Function.update_noteq hs]

/-- An operation that keeps the clear-list and the lock bitmaps keeps the
clear-list exact. -/
theorem clearExact_of_same (s s1 : LockableAssociativeArray T V setcount waycount linesize)
    (hcl : s1.clearlist = s.clearlist)
    (hun : ∀ sj, (s1.sets sj).tags.unlockedmap = (s.sets sj).tags.unlockedmap)
    (h : s.ClearExact) : s1.ClearExact := by
  unfold ClearExact
  rw [hcl]
  refine ⟨h.1, h.2.1, ?_⟩
  intro si wi
  rw [hun si]
  exact h.2.2 si wi

theorem probe_exact (s s1 : LockableAssociativeArray T V setcount waycount linesize)
    (addr : Nat) (line : Option Int) (h : s.probe addr = some (s1, line))
    (hinv : s.ClearExact) : s1.ClearExact := by
  unfold probe at h
  split at h
  · simp at h
  · rename_i si _
    split at h
    · simp at h
    · rename_i set1 line1 hp
      simp only [Option.some.injEq, Prod.mk.injEq] at h
      obtain ⟨h1, -⟩ := h
      subst h1
      refine clearExact_of_same s _ rfl ?_ hinv
      apply update_sets_same_unlocked
      exact LockableFullyAssociativeArray.set_probe_unlockedmap _ _ _ _ hp

theorem select_exact (s s1 : LockableAssociativeArray T V setcount waycount linesize)
    (addr oldaddr oldaddr1 : Nat) (line : Option Int)
    (h : s.select addr oldaddr = some (s1, line, oldaddr1))
    (hinv : s.ClearExact) : s1.ClearExact := by
  unfold select at h
  split at h
  · simp at h
  · rename_i si _
    split at h
    · simp at h
    · rename_i set1 line1 old1 hp
      simp only [Option.some.injEq, Prod.mk.injEq] at h
      obtain ⟨h1, -⟩ := h
      subst h1
      refine clearExact_of_same s _ rfl ?_ hinv
      apply update_sets_same_unlocked
      exact LockableFullyAssociativeArray.set_select_unlockedmap _ _ _ _ _ _ hp

theorem select_and_lock_exact (hsc : setcount ≤ 65536) (hwc : waycount ≤ 65536)
    (s s1 : LockableAssociativeArray T V setcount waycount linesize) (addr : Nat)
    (firstlock firstlock1 : Bool) (line : Option Int)
    (h : s.select_and_lock addr firstlock = some (s1, line, firstlock1))
    (hinv : s.ClearExact) : s1.ClearExact := by
  unfold select_and_lock at h
  split at h
  · simp at h
  · rename_i si hsi
    have hset : setof setcount linesize addr = (si.val : Int) := index?_eq_some hsi
    split at h
    · simp at h
    · rename_i set1 line1 fl1 hp
      rcases LockableFullyAssociativeArray.select_and_lock2_spec _ _ _ _ _ _ hp with
        ⟨hl, hun⟩ | ⟨k, hl, hfl, hun⟩
      · subst hl
        simp only [Option.some.injEq, Prod.mk.injEq] at h
        obtain ⟨h1, -⟩ := h
        subst h1
        refine clearExact_of_same s _ rfl ?_ hinv
        apply update_sets_same_unlocked
        exact hun
      · subst hl
        have hsi16 : toW16 (setof setcount linesize addr) = si.val := by
          rw [hset]
          exact toW16_of_lt _ (lt_of_lt_of_le si.isLt hsc)
        have hk16 : toW16 (LockableFullyAssociativeArray.wayof (some (k.val : Int))) = k.val :=
          toW16_of_lt _ (lt_of_lt_of_le k.isLt hwc)
        cases hf : fl1
        · rw [hf] at h
          simp only [Bool.false_eq_true, ↓reduceIte, Option.some.injEq, Prod.mk.injEq] at h
          obtain ⟨h1, -⟩ := h
          subst h1
          refine clearExact_of_same s _ rfl ?_ hinv
          apply update_sets_same_unlocked
          rw [hun]
          funext wj
          by_cases hwk : wj = k
          · subst hwk
            rw [Function.update_same, ← hfl, hf]
          · rw [Function.update_noteq hwk]
        · rw [hf] at h
          simp only [↓reduceIte] at h
          split at h
          · simp only [Option.some.injEq, Prod.mk.injEq] at h
            obtain ⟨h1, -⟩ := h
            subst h1
            have hknew : (si.val, k.val) ∉ s.clearlist := by
              intro hmem
              have := (hinv.2.2 si k).1 hmem
              rw [← hfl, hf] at this
              exact absurd this (by decide)
            unfold ClearExact
            simp only
            rw [hsi16, hk16]
            refine ⟨?_, ?_, ?_⟩
            · rw [List.nodup_append]
              refine ⟨hinv.1, List.nodup_singleton _, ?_⟩
              intro p hp1 hp2
              rw [List.mem_singleton] at hp2
              subst hp2
              exact hknew hp1
            · intro p hp2
              simp only [List.mem_append, List.mem_singleton] at hp2
              rcases hp2 with hp2 | hp2
              · exact hinv.2.1 p hp2
              · subst hp2
                exact ⟨si.isLt, k.isLt⟩
            · intro sj wj
              simp only [List.mem_append, List.mem_singleton, Prod.mk.injEq]
              by_cases hs : sj = si
              · subst hs
                rw [Function.update_same, hun]
                by_cases hwk : wj = k
                · subst hwk
                  simp
                · rw [Function.update_noteq hwk]
                  have hv : ¬ wj.val = k.val := fun h => hwk (Fin.ext h)
                  simp only [hv, and_false, or_false]
                  exact hinv.2.2 sj wj
              · rw [Function.update_noteq hs]
                have hv : ¬ sj.val = si.val := fun h => hs (Fin.ext h)
                simp only [hv, false_and, or_false]
                exact hinv.2.2 sj wj
          · simp at h

/-- With at most 65536 sets and 65536 ways, every state reached without
`invalidate` has an exact clear-list. -/
theorem reachableNoInvalidate_exact [LineData V] (hsc : setcount ≤ 65536)
    (hwc : waycount ≤ 65536)
    (s : LockableAssociativeArray T V setcount waycount linesize)
    (hr : ReachableNoInvalidate s) : s.ClearExact := by
  induction hr with
  | reset s0 =>
    refine ⟨List.nodup_nil, ?_, ?_⟩
    · intro p hp
      simp [reset] at hp
    · intro si wi
      simp [reset, LockableFullyAssociativeArray.reset, LockableFullyAssociativeTags.reset,
        bitvec.setall]
  | probe s s1 addr line _ h ih => exact probe_exact s s1 addr line h ih
  | select s s1 addr oldaddr oldaddr1 line _ h ih =>
    exact select_exact s s1 addr oldaddr oldaddr1 line h ih
  | select_and_lock s s1 addr firstlock firstlock1 line _ h ih =>
    exact select_and_lock_exact hsc hwc s s1 addr firstlock firstlock1 line h ih
  | unlock_all s s1 _ h ih =>
    obtain ⟨sets1, hs1, hspec⟩ := unlock_all_loop_spec s.clearlist s.sets ih.2.1
    simp only [unlock_all, hs1, Option.some.injEq] at h
    subst h
    refine ⟨List.nodup_nil, ?_, ?_⟩
    · intro p hp
      simp at hp
    · intro si wi
      simp only [List.not_mem_nil, false_iff]
      intro hwi
      rcases (hspec si).2.2.2 wi with h | ⟨hni, h⟩
      · rw [h] at hwi
        exact absurd hwi (by decide)
      · rw [h] at hwi
        exact hni ((ih.2.2 si wi).2 hwi)
  | unlock_all_and_invalidate s s1 _ h ih =>
    unfold unlock_all_and_invalidate at h
    split at h
    · simp at h
    · rename_i sets1 hs1
      simp only [Option.some.injEq] at h
      subst h
      refine ⟨List.nodup_nil, ?_, ?_⟩
      · intro p hp
        simp at hp
      · intro si wi
        simp only [List.not_mem_nil, false_iff]
        intro hwi
        obtain ⟨hold, hni⟩ := unlock_all_and_invalidate_loop_spec _ _ _ hs1 si wi hwi
        exact hni ((ih.2.2 si wi).2 hold)

/-- C26, as stated, fails when the array has more than 65536 sets.  In a
`LockableAssociativeArray<W64, V, 131072, 1, 64>` the call
`select_and_lock(4194304)` after `reset()` locks way 0 of set 65536 and records
it in the `W16` fields of the clear-list as (set 0, way 0): the only entry
names a way that is unlocked, and the locked way is not among the entries. -/
theorem C26_clearlist_counterexample :
    ReachableNoInvalidate exB1 ∧ exB1.clearlist = [(0, 0)] ∧
    (exB1.sets ⟨0, by decide⟩).tags.unlockedmap ⟨0, by decide⟩ = true ∧
    (exB1.sets ⟨65536, by decide⟩).tags.unlockedmap ⟨0, by decide⟩ = false ∧
    ((65536 : Nat), (0 : Nat)) ∉ exB1.clearlist :=
  ⟨ReachableNoInvalidate.select_and_lock exB0 exB1 4194304 false true (some 0)
      (ReachableNoInvalidate.reset _) rfl,
    by decide, by decide, by decide, by decide⟩

/-- C26, amended: with at most 65536 sets and at most 65536 ways (the range of
the `W16` fields of the clear-list), in every state reachable from `reset()` by
`probe`, `select`, `select_and_lock`, `unlock_all` and
`unlock_all_and_invalidate` calls the clear-list has no entry twice, every
entry names a set and a way of the array, and a pair (set, way) is an entry
exactly when that way is locked. -/
theorem C26_clearlist_exact [LineData V] (hsc : setcount ≤ 65536) (hwc : waycount ≤ 65536)
    (s : LockableAssociativeArray T V setcount waycount linesize)
    (hr : ReachableNoInvalidate s) :
    s.clearlist.Nodup ∧
    (∀ p ∈ s.clearlist, p.1 < setcount ∧ p.2 < waycount) ∧
    ∀ (si : Fin setcount) (wi : Fin waycount),
      (si.val, wi.val) ∈ s.clearlist ↔ (s.sets si).tags.unlockedmap wi = false :=
  reachableNoInvalidate_exact hsc hwc s hr

/-- C26, amended, at the one-set, one-way array after `reset()` and
`select_and_lock(0)`: the clear-list is the single entry (0, 0), and way 0 of
set 0 is locked. -/
theorem C26_clearlist_exact_witness :
    exA1.clearlist = [(0, 0)] ∧
    (exA1.clearlist.Nodup ∧
      (∀ p ∈ exA1.clearlist, p.1 < 1 ∧ p.2 < 1) ∧
      ∀ (si : Fin 1) (wi : Fin 1),
        (si.val, wi.val) ∈ exA1.clearlist ↔ (exA1.sets si).tags.unlockedmap wi = false) :=
  ⟨by decide,
    C26_clearlist_exact (by decide) (by decide) exA1
      (ReachableNoInvalidate.select_and_lock exA0 exA1 0 false true (some 0)
        (ReachableNoInvalidate.reset _) rfl)⟩

end LockableAssociativeArray

end PTLsim
